import Mathlib

/-!
# cachesim: a shallow embedding of `cachesim.c` and `list.h`

Values of C type `unsigned` are natural numbers below `2^32`; arithmetic that can
wrap is reduced with `u32`.  A pointer to a cache line is the index of the line in
the `lines` array of its cache, `NULL` is `none`.  The intrusive circular list of a
set is the sequence of the lines met from `head.next` to `head.prev`.  The loops
of `hash_find` and `hash_del`, which the source does not bound, take a step budget.
-/

namespace CacheSim

/-- Reduction of a natural number to the range of the C type `unsigned` (32 bits). -/
def u32 (n : Nat) : Nat := n % 2 ^ 32

/-- Ways in which a run of the program stops without returning. -/
inductive Fault where
  /-- an `assert` of the source does not hold -/
  | assertion
  /-- the source calls `failure`, which exits -/
  | failure
  /-- the step budget of a loop of the model is used up -/
  | fuel
  /-- the source dereferences a null pointer -/
  | null
  deriving DecidableEq, Repr

/-- The record `struct cache_line` without its list node. -/
structure cache_line where
  tag : Nat
  dirty : Bool
  valid : Bool
  deriving DecidableEq, Repr

instance : Inhabited cache_line := ⟨⟨0, false, false⟩⟩

/-- The record `struct cache_set`: order list, first line, and the slab of hash slots. -/
structure cache_set where
  list : List Nat
  firstline : Nat
  hashtab : List (Option Nat)
  deriving DecidableEq, Repr

instance : Inhabited cache_set := ⟨⟨[], 0, []⟩⟩

def WRITE_ALLOC : Nat := 0o1

def REPLACE_MASK : Nat := 0o70

def LRU : Nat := 0o0

def RND : Nat := 0o10

def FIFO : Nat := 0o20

/-- The record `struct cache_info`. -/
structure cache_info where
  assoc : Nat
  blksz : Nat
  cap : Nat
  hit_time : Nat
  flags : Nat
  deriving DecidableEq, Repr

/-- The record `struct cache`; the flat hash array is held slab by slab in the sets. -/
structure cache where
  info : cache_info
  idx_bits : Nat
  off_bits : Nat
  hash_bits : Nat
  nlines : Nat
  nsets : Nat
  sets : List cache_set
  lines : List cache_line
  deriving DecidableEq, Repr

/-- Dereference of a line pointer. -/
def cache.line (c : cache) (linep : Nat) : cache_line := c.lines.getD linep default

/-- Store through a line pointer. -/
def cache.set_line (c : cache) (linep : Nat) (l : cache_line) : cache :=
  { c with lines := c.lines.set linep l }

/-- The set `c->sets[index]`. -/
def cache.set_at (c : cache) (index : Nat) : cache_set := c.sets.getD index default

/-- Store of a set record at `c->sets[index]`. -/
def cache.put_set (c : cache) (index : Nat) (s : cache_set) : cache :=
  { c with sets := c.sets.set index s }

/-! ## list.h -/

/-- An empty list: `list_init`. -/
def list_init : List Nat := []

/-- Insertion right after the head: `list_add`. -/
def list_add (head : List Nat) (node : Nat) : List Nat := node :: head

/-- Insertion right before the head: `list_add_tail`. -/
def list_add_tail (head : List Nat) (node : Nat) : List Nat := head ++ [node]

/-- Unlinking of a node: `list_del`. -/
def list_del (head : List Nat) (node : Nat) : List Nat := head.erase node

/-! ## construction -/

/-- The counting loop of `logbase2`: `for (l = 0; (n >>= 1); l++);`. -/
def logbase2_loop : Nat → Nat → Nat → Nat
  | 0, _, l => l
  | fuel + 1, n, l => if n >>> 1 = 0 then l else logbase2_loop fuel (n >>> 1) (l + 1)

/-- The function `logbase2`; an `unsigned` is shifted to zero within 32 steps. -/
def logbase2 (n : Nat) : Except Fault Nat :=
  if n = 0 ∨ n &&& (n - 1) ≠ 0 then .error .failure
  else .ok (logbase2_loop 32 n 0)

/-- The inner loop of `cache_init_sets`: the lines of a set are appended in storage order. -/
def init_list (firstline assoc : Nat) : List Nat :=
  (List.range assoc).foldl (fun l k => list_add_tail l (firstline + k)) list_init

/-- The function `cache_init_sets`. -/
def cache_init_sets (c : cache) : cache :=
  { c with sets := (List.range c.nsets).map fun i =>
      { list := init_list (i * c.info.assoc) c.info.assoc
        firstline := i * c.info.assoc
        hashtab := List.replicate (u32 (1 <<< c.hash_bits)) none } }

/-- The function `cache_init`; `calloc` returns zeroed storage. -/
def cache_init (info : cache_info) : Except Fault cache := do
  let logB ← logbase2 info.blksz
  let logA ← logbase2 info.assoc
  let logC ← logbase2 info.cap
  if logC < logA + logB then
    .error .failure
  else
    let idx_bits := (logC - logA - logB) % 32
    .ok (cache_init_sets
      { info := info
        off_bits := logB % 32
        idx_bits := idx_bits
        nlines := u32 (1 <<< (logC - logB))
        nsets := u32 (1 <<< idx_bits)
        hash_bits := (logA + 1) % 64
        sets := []
        lines := List.replicate (u32 (1 <<< (logC - logB))) ⟨0, false, false⟩ })

/-! ## the per-set hash table -/

/-- The function `cache_find_victim`; `rnd` is the value `rand()` returns if called. -/
def cache_find_victim (c : cache) (set : cache_set) (rnd : Nat) : Except Fault Nat :=
  let linep := set.list.getLastD set.firstline
  let policy := c.info.flags &&& REPLACE_MASK
  if policy = LRU ∨ policy = FIFO then .ok linep
  else if policy = RND then
    if (c.line linep).valid then .ok (set.firstline + rnd % c.info.assoc) else .ok linep
  else .error .failure

/-- The probing loop of `hash_find`, from slot offset `slot`. -/
def hash_find_loop (c : cache) (set : cache_set) (tag endp : Nat) : Nat → Nat → Except Fault Nat
  | 0, _ => .error .fuel
  | fuel + 1, slot =>
    match set.hashtab.getD slot none with
    | none => .ok slot
    | some linep =>
      if (c.line linep).valid = false then .error .assertion
      else if (c.line linep).tag = tag then .ok slot
      else hash_find_loop c set tag endp fuel (if slot + 1 = endp then 0 else slot + 1)

/-- The function `hash_find`; the result is the offset of the slot in the set's slab. -/
def hash_find (fuel : Nat) (c : cache) (set : cache_set) (tag : Nat) : Except Fault Nat :=
  hash_find_loop c set tag (u32 (1 <<< c.hash_bits)) fuel
    (tag &&& (u32 (1 <<< c.hash_bits) - 1))

/-- The function `hash_add`. -/
def hash_add (fuel : Nat) (c : cache) (set : cache_set) (linep : Nat) :
    Except Fault cache_set := do
  let slot ← hash_find fuel c set (c.line linep).tag
  if set.hashtab.getD slot none ≠ none then .error .assertion
  else .ok { set with hashtab := set.hashtab.set slot (some linep) }

/-- The test `(i<j) + (j<k) + (k<=i) == 2` of `hash_del`. -/
def hash_del_moves (i j k : Nat) : Bool :=
  (if i < j then 1 else 0) + (if j < k then 1 else 0) + (if k ≤ i then 1 else 0) == 2

/-- The hole-filling loop of `hash_del`. -/
def hash_del_loop (c : cache) (hashsize : Nat) :
    Nat → List (Option Nat) → Nat → Nat → Except Fault (List (Option Nat))
  | 0, _, _, _ => .error .fuel
  | fuel + 1, hashtab, i, j =>
    let j := if j + 1 = hashsize then 0 else j + 1
    match hashtab.getD j none with
    | none => .ok hashtab
    | some linep =>
      let k := (c.line linep).tag &&& (hashsize - 1)
      if hash_del_moves i j k then
        hash_del_loop c hashsize fuel ((hashtab.set i (some linep)).set j none) j j
      else
        hash_del_loop c hashsize fuel hashtab i j

/-- The function `hash_del`. -/
def hash_del (fuel : Nat) (c : cache) (set : cache_set) (linep : Nat) :
    Except Fault cache_set := do
  let hashsize := u32 (1 <<< c.hash_bits)
  let slot ← hash_find fuel c set (c.line linep).tag
  if set.hashtab.getD slot none ≠ some linep then .error .assertion
  else
    let hashtab ← hash_del_loop c hashsize fuel (set.hashtab.set slot none) slot slot
    .ok { set with hashtab := hashtab }

/-- The function `cache_find_tag` as compiled (hash find). -/
def cache_find_tag (fuel : Nat) (c : cache) (set : cache_set) (tag : Nat) :
    Except Fault (Option Nat) := do
  let slot ← hash_find fuel c set tag
  match set.hashtab.getD slot none with
  | none => .ok none
  | some linep =>
    if (c.line linep).valid ∧ (c.line linep).tag = tag then .ok (some linep) else .ok none

/-- The disabled variant of `cache_find_tag`: linear search along the order list. -/
def cache_find_tag_linear (c : cache) (set : cache_set) (tag : Nat) : Option Nat :=
  set.list.find? fun linep => (c.line linep).valid && (c.line linep).tag == tag

/-! ## cache_access -/

def HIT : Nat := 0

def MISS_NOKICK : Nat := 1

def MISS_KICK : Nat := 2

/-- What a call of `cache_access` leaves behind: the return code, the value stored
through `kickout` (if any), the final value of the local `linep`, and the cache. -/
structure access_result where
  rc : Nat
  kickout : Option Nat
  linep : Option Nat
  c : cache
  deriving DecidableEq, Repr

/-- The index field of an address, as computed by `cache_access`. -/
def addr_index (c : cache) (addr : Nat) : Nat :=
  (addr >>> c.off_bits) &&& (u32 (1 <<< c.idx_bits) - 1)

/-- The tag field of an address, as computed by `cache_access`. -/
def addr_tag (c : cache) (addr : Nat) : Nat :=
  addr >>> (c.off_bits + c.idx_bits)

/-- The block base recomputed from a tag and an index: the value stored in `*kickout`. -/
def block_base (c : cache) (tag index : Nat) : Nat :=
  u32 ((u32 (tag <<< c.idx_bits) ||| index) <<< c.off_bits)

/-- The allocation branch of `cache_access` (lines 308 to 325). -/
def cache_allocate (fuel : Nat) (c : cache) (index tag rnd : Nat) :
    Except Fault access_result := do
  let set := c.set_at index
  let linep ← cache_find_victim c set rnd
  let old := c.line linep
  let set1 ← (if old.valid then hash_del fuel c set linep else .ok set)
  let c1 := c.set_line linep { tag := tag, valid := true, dirty := false }
  let set2 ← hash_add fuel c1 set1 linep
  .ok { rc := if old.dirty then MISS_KICK else MISS_NOKICK
        kickout := if old.dirty then some (block_base c old.tag index) else none
        linep := some linep
        c := c1.put_set index set2 }

/-- The tail of `cache_access` (lines 334 to 352): dirty bit and order list. -/
def cache_touch (index : Nat) (writing : Bool) (r : access_result) :
    Except Fault access_result :=
  match r.linep with
  | none => .ok r
  | some linep =>
    let c1 := if writing then r.c.set_line linep { r.c.line linep with dirty := true } else r.c
    let policy := c1.info.flags &&& REPLACE_MASK
    let set := c1.set_at index
    let moved := c1.put_set index { set with list := list_add (list_del set.list linep) linep }
    if policy = RND ∨ policy = FIFO then
      if r.rc = HIT then .ok { r with c := c1 } else .ok { r with c := moved }
    else if policy = LRU then .ok { r with c := moved }
    else .error .failure

/-- The function `cache_access`. -/
def cache_access (fuel : Nat) (c : cache) (addr : Nat) (writing : Bool) (rnd : Nat) :
    Except Fault access_result := do
  let index := addr_index c addr
  let tag := addr_tag c addr
  let found ← cache_find_tag fuel c (c.set_at index) tag
  let allocate := !writing || (c.info.flags &&& WRITE_ALLOC != 0)
  let r ← (match found with
    | none =>
      if allocate then cache_allocate fuel c index tag rnd
      else .ok { rc := MISS_NOKICK, kickout := none, linep := none, c := c }
    | some linep => .ok { rc := HIT, kickout := none, linep := some linep, c := c })
  cache_touch index writing r

/-- Slot `x` lies on the probe path that starts at slot `k` and stops before slot `s`. -/
def on_path (k x s : Nat) : Prop :=
  (k ≤ s ∧ k ≤ x ∧ x < s) ∨ (s < k ∧ (k ≤ x ∨ x < s))

/-- The slot probed after `s` in a table of `M` slots. -/
def next_slot (M s : Nat) : Nat := if s + 1 = M then 0 else s + 1

/-- Number of probe steps from slot `s` to slot `e`. -/
def probe_dist (M s e : Nat) : Nat := if s ≤ e then e - s else e + M - s

/-- A slot at which probing for `tag` stops. -/
def stops (c : cache) (set : cache_set) (tag x : Nat) : Prop :=
  set.hashtab.getD x none = none ∨
    ∃ l, set.hashtab.getD x none = some l ∧ (c.line l).tag = tag

/-- A slot that probing for `tag` steps over. -/
def passes (c : cache) (set : cache_set) (tag x : Nat) : Prop :=
  ∃ l, set.hashtab.getD x none = some l ∧ (c.line l).tag ≠ tag

/-- Slot `x` lies strictly after slot `i` and not after slot `j` on the cyclic order. -/
def in_gap (i x j : Nat) : Prop :=
  (i ≤ j ∧ i < x ∧ x ≤ j) ∨ (j < i ∧ (i < x ∨ x ≤ j))

/-- The state of the hole-filling loop of `hash_del`: the hole is at `i`, the slots after
it up to `j` are occupied by lines whose probe path does not cross the hole, no other
probe path is broken except at the hole, and the lines stored are those of `T0` but `l0`. -/
structure del_inv (c : cache) (M : Nat) (T0 : List (Option Nat)) (l0 e0 : Nat)
    (T : List (Option Nat)) (i j : Nat) : Prop where
  len : T.length = M
  hi : i < M
  hj : j < M
  hole : T.getD i none = none
  gap : ∀ x, x < M → in_gap i x j →
    ∃ l, T.getD x none = some l ∧ in_gap i ((c.line l).tag &&& (M - 1)) x
  path : ∀ s l, T.getD s none = some l → ∀ x, x < M →
    on_path ((c.line l).tag &&& (M - 1)) x s → x ≠ i → T.getD x none ≠ none
  content : ∀ l, (∃ s, T.getD s none = some l) ↔ ((∃ s, T0.getD s none = some l) ∧ l ≠ l0)
  inj : ∀ s s' l, T.getD s none = some l → T.getD s' none = some l → s = s'
  he : e0 < M
  empty : T.getD e0 none = none
  e_ne : e0 ≠ i
  e_gap : ¬ in_gap i e0 j

/-- What `hash_del` leaves: the lines of `T0` but `l0`, each once, on unbroken paths. -/
structure del_post (c : cache) (M : Nat) (T0 : List (Option Nat)) (l0 : Nat)
    (T : List (Option Nat)) : Prop where
  len : T.length = M
  path : ∀ s l, T.getD s none = some l → ∀ x, x < M →
    on_path ((c.line l).tag &&& (M - 1)) x s → T.getD x none ≠ none
  content : ∀ l, (∃ s, T.getD s none = some l) ↔ ((∃ s, T0.getD s none = some l) ∧ l ≠ l0)
  inj : ∀ s s' l, T.getD s none = some l → T.getD s' none = some l → s = s'

/-- Number of slots of the hash table of one set: `1U << c->hash_bits`. -/
def hashsize (c : cache) : Nat := u32 (1 <<< c.hash_bits)

/-- Line pointer `l` points into the lines owned by `set`. -/
def in_set (c : cache) (set : cache_set) (l : Nat) : Prop :=
  set.firstline ≤ l ∧ l < set.firstline + c.info.assoc

/-- Line `l` is stored in some slot of the hash table of `set`. -/
def stored (set : cache_set) (l : Nat) : Prop := ∃ s, set.hashtab.getD s none = some l

/-- Well-formedness of the hash table of a set: it stores valid lines of the set, each at
most once and with pairwise different tags, and no probe path to a stored line is broken. -/
structure tab_inv (c : cache) (set : cache_set) : Prop where
  len : set.hashtab.length = hashsize c
  room : c.info.assoc < hashsize c
  valid : ∀ s l, set.hashtab.getD s none = some l → (c.line l).valid = true
  mem : ∀ s l, set.hashtab.getD s none = some l → in_set c set l
  inj : ∀ s s' l, set.hashtab.getD s none = some l → set.hashtab.getD s' none = some l → s = s'
  tags : ∀ s s' l l', set.hashtab.getD s none = some l → set.hashtab.getD s' none = some l' →
    (c.line l).tag = (c.line l').tag → l = l'
  path : ∀ s l, set.hashtab.getD s none = some l → ∀ x, x < hashsize c →
    on_path ((c.line l).tag &&& (hashsize c - 1)) x s → set.hashtab.getD x none ≠ none

/-- The hash table of a set is well formed, stores every valid line of the set, and the
order list holds each line of the set once. -/
structure set_inv (c : cache) (set : cache_set) : Prop where
  tab : tab_inv c set
  present : ∀ l, in_set c set l → (c.line l).valid = true → stored set l
  nodup : set.list.Nodup
  order : ∀ l, l ∈ set.list ↔ in_set c set l

/-- The representation invariant of a cache. -/
structure cache_inv (c : cache) : Prop where
  assoc_pos : 0 < c.info.assoc
  nsets_len : c.sets.length = c.nsets
  idx_mask : u32 (1 <<< c.idx_bits) = 2 ^ c.idx_bits
  nsets_pow : c.nsets = 2 ^ c.idx_bits
  bits : c.off_bits + c.idx_bits < 32
  nlines : c.lines.length = c.nsets * c.info.assoc
  first : ∀ i, i < c.nsets → (c.set_at i).firstline = i * c.info.assoc
  sets : ∀ i, i < c.nsets → set_inv c (c.set_at i)
  tag_bound : ∀ l, (c.line l).tag < 2 ^ (32 - (c.off_bits + c.idx_bits))
  dirty_valid : ∀ l, (c.line l).dirty = true → (c.line l).valid = true

/-- The cache after the refill of line `v` of set `i` with tag `t`, the set's hash table
becoming `T`. -/
def refilled (c : cache) (i v t : Nat) (T : List (Option Nat)) : cache :=
  (c.set_line v { tag := t, valid := true, dirty := false }).put_set i
    { c.set_at i with hashtab := T }

/-- The set after `list_del` and `list_add` of line `l`. -/
def moved_front (set : cache_set) (l : Nat) : cache_set :=
  { set with list := list_add (list_del set.list l) l }

/-- The cache after setting the dirty bit of line `l` when writing. -/
def dirtied (c : cache) (writing : Bool) (l : Nat) : cache :=
  if writing then c.set_line l { c.line l with dirty := true } else c

/-- The result record that `cache_access` hands to its tail after a refill of line `v`. -/
def refill_result (c : cache) (i v t : Nat) (T : List (Option Nat)) : access_result :=
  { rc := if (c.line v).dirty then MISS_KICK else MISS_NOKICK
    kickout := if (c.line v).dirty then some (block_base c (c.line v).tag i) else none
    linep := some v
    c := refilled c i v t T }

/-- The cache states that arise from `cache_init` by calls of `cache_access` that return. -/
inductive Reachable (info : cache_info) : cache → Prop
  | init {c : cache} : cache_init info = .ok c → Reachable info c
  | step {c : cache} {fuel addr : Nat} {writing : Bool} {rnd : Nat} {out : access_result} :
      Reachable info c → addr < 2 ^ 32 → cache_access fuel c addr writing rnd = .ok out →
      Reachable info out.c

/-- The fields of a configuration are values of type `unsigned`, and the associativity is
below `2^31`, so that the shift `1U << hash_bits` is a defined one. -/
def config_ok (info : cache_info) : Prop :=
  info.assoc < 2 ^ 31 ∧ info.blksz < 2 ^ 32 ∧ info.cap < 2 ^ 32

/-- The block of the address is held by a valid line of the set the address maps to. -/
def resident (c : cache) (addr : Nat) : Prop :=
  ∃ k, k < c.info.assoc ∧
    (c.line ((c.set_at (addr_index c addr)).firstline + k)).valid = true ∧
    (c.line ((c.set_at (addr_index c addr)).firstline + k)).tag = addr_tag c addr

instance (c : cache) (addr : Nat) : Decidable (resident c addr) := by
  unfold resident; infer_instance

/-- Two caches have the same geometry. -/
def same_geom (c c' : cache) : Prop :=
  c'.info = c.info ∧ c'.idx_bits = c.idx_bits ∧ c'.off_bits = c.off_bits ∧
    c'.hash_bits = c.hash_bits ∧ c'.nsets = c.nsets ∧ c'.nlines = c.nlines

/-- One call of `cache_access`: the address, the `writing` flag, and the value that
`rand()` would return during the call. -/
structure access where
  addr : Nat
  writing : Bool
  rnd : Nat
  deriving DecidableEq, Repr

/-- A sequence of calls of `cache_access`, with the record of what each call left. -/
def run (fuel : Nat) : cache → List access → Except Fault (cache × List access_result)
  | c, [] => .ok (c, [])
  | c, a :: rest =>
    match cache_access fuel c a.addr a.writing a.rnd with
    | .error e => .error e
    | .ok out =>
      match run fuel out.c rest with
      | .error e => .error e
      | .ok (c', outs) => .ok (c', out :: outs)

/-- The cache built from `info` and driven through the accesses `accs`. -/
def cache_after (fuel : Nat) (info : cache_info) (accs : List access) : Except Fault cache :=
  match cache_init info with
  | .error e => .error e
  | .ok c0 =>
    match run fuel c0 accs with
    | .error e => .error e
    | .ok (c, _) => .ok c

/-- The scenario cache: two ways, blocks of 4 bytes, 16 bytes, write-allocate, LRU. -/
def scenario_info : cache_info := ⟨2, 4, 16, 1, 0o1⟩

/-- The scenario cache after writes to `0x00`, `0x08` and `0x10`. -/
def scenario_cache : cache :=
  { info := scenario_info, idx_bits := 1, off_bits := 2, hash_bits := 2, nlines := 4, nsets := 2
    sets := [{ list := [1, 0], firstline := 0, hashtab := [none, some 0, some 1, none] },
             { list := [2, 3], firstline := 2, hashtab := [none, none, none, none] }]
    lines := [{ tag := 1, dirty := true, valid := true }, { tag := 2, dirty := true, valid := true },
              { tag := 0, dirty := false, valid := false },
              { tag := 0, dirty := false, valid := false }] }

/-- The policy of a cache is one of the three the source knows. -/
def known_policy (c : cache) : Prop :=
  c.info.flags &&& REPLACE_MASK = LRU ∨ c.info.flags &&& REPLACE_MASK = RND ∨
    c.info.flags &&& REPLACE_MASK = FIFO

/-- The order list of set `j` after an access to set `i` that touched `linep` with
return code `rc`, under the policy of `c`. -/
def list_after (c : cache) (i : Nat) (linep : Option Nat) (rc : Nat) (j : Nat) : List Nat :=
  match linep with
  | none => (c.set_at j).list
  | some v =>
    if j = i ∧ (c.info.flags &&& REPLACE_MASK = LRU ∨ rc ≠ HIT) then
      v :: (c.set_at i).list.erase v
    else (c.set_at j).list

/-- What an access that returns does to a well-formed cache. -/
structure access_effect (c : cache) (addr rnd : Nat) (out : access_result) : Prop where
  inv : cache_inv out.c
  geom : same_geom c out.c
  policy : out.linep ≠ none → known_policy c
  lists : ∀ j, (out.c.set_at j).list = list_after c (addr_index c addr) out.linep out.rc j
  mem : ∀ v, out.linep = some v → in_set c (c.set_at (addr_index c addr)) v
  others : ∀ l, out.linep ≠ some l → out.c.line l = c.line l
  tag : ∀ v, out.linep = some v →
    (out.c.line v).valid = true ∧ (out.c.line v).tag = addr_tag c addr
  hit : ∀ v, out.linep = some v → out.rc = HIT →
    (c.line v).valid = true ∧ (c.line v).tag = addr_tag c addr
  miss : ∀ v, out.linep = some v → out.rc ≠ HIT →
    cache_find_victim c (c.set_at (addr_index c addr)) rnd = .ok v ∧
      ¬ resident c addr ∧
      out.rc = (if (c.line v).dirty then MISS_KICK else MISS_NOKICK) ∧
      out.kickout =
        (if (c.line v).dirty then some (block_base c (c.line v).tag (addr_index c addr))
          else none)
  bypass : out.linep = none → out.c = c ∧ out.rc = MISS_NOKICK ∧ out.kickout = none ∧
    ¬ resident c addr

/-- The call left `l` as its line: a hit on `l` or a refill of `l`. -/
def touches (l : Nat) (o : access_result) : Bool := o.linep == some l

/-- The call refilled line `l` on a miss. -/
def refills (l : Nat) (o : access_result) : Bool := o.linep == some l && o.rc != HIT

/-- The time of the last call that satisfies `p`, the clock standing at `n` and the last
such time so far being `s`. -/
def last_time_from (p : access_result → Bool) : Nat → Nat → List access_result → Nat
  | _, s, [] => s
  | n, s, o :: rest => last_time_from p (n + 1) (if p o then n + 1 else s) rest

/-- The position, counted from 1, of the last call among `outs` that satisfies `p`; 0 when
no call does. -/
def last_time (p : access_result → Bool) (outs : List access_result) : Nat :=
  last_time_from p 0 0 outs

/-- The order lists are sorted by decreasing stamp `T`, never stamped lines (stamp 0)
last, and every valid line has a stamp. -/
def order_inv (c : cache) (T : Nat → Nat) : Prop :=
  (∀ i, i < c.nsets → (c.set_at i).list.Pairwise (fun a b => T b = 0 ∨ T b < T a)) ∧
  (∀ l, (c.line l).valid = true → T l ≠ 0)

/-- The stamping `p` goes with the policy `pol`: a call stamps only its own line, it stamps
it exactly when the line moves to the head of its order list, and it stamps every line
that it makes valid. -/
def stamping (pol : Nat) (p : Nat → access_result → Bool) : Prop :=
  ∀ (c : cache) (addr rnd : Nat) (out : access_result), cache_inv c →
    c.info.flags &&& REPLACE_MASK = pol → access_effect c addr rnd out →
    (∀ l, p l out = true → out.linep = some l) ∧
    (∀ v, out.linep = some v →
      (p v out = true ↔ (c.info.flags &&& REPLACE_MASK = LRU ∨ out.rc ≠ HIT))) ∧
    (∀ l, (out.c.line l).valid = true → (c.line l).valid = false → p l out = true)

/-! ## the hierarchy driver -/

def DATA_R : Nat := 0

def DATA_W : Nat := 1

def INST_F : Nat := 2

def MAXLEVEL : Nat := 2

/-- The record `struct cache_pair`; `i` and `d` point into the heap of caches. -/
structure cache_pair where
  i : Option Nat
  d : Option Nat
  n : Int
  fetchcount : List Nat
  misscount : List Nat
  deriving DecidableEq, Repr

instance : Inhabited cache_pair := ⟨⟨none, none, 0, [0, 0, 0], [0, 0, 0]⟩⟩

/-- One call of `cache_pair_access`, as the `debug` line at its head prints it: the
position of the level in the array `L`, the address and the mode. -/
structure pair_event where
  cp : Nat
  addr : Nat
  mode : Nat
  deriving DecidableEq, Repr

/-- The memory of the simulator: the caches allocated by `make_cache`, the array `L` of
`main`, and the record of the calls of `cache_pair_access` so far. -/
structure machine where
  heap : List cache
  L : List cache_pair
  log : List pair_event
  deriving DecidableEq, Repr

/-- The level record `L[cp]`. -/
def machine.pair (m : machine) (cp : Nat) : cache_pair := m.L.getD cp default

/-- Dereference of a cache pointer. -/
def machine.cache_at (m : machine) (p : Nat) : cache :=
  m.heap.getD p ⟨⟨0, 0, 0, 0, 0⟩, 0, 0, 0, 0, 0, [], []⟩

/-- Store through a cache pointer. -/
def machine.put_cache (m : machine) (p : Nat) (c : cache) : machine :=
  { m with heap := m.heap.set p c }

/-- The statement `counter[mode]++` on an array of `unsigned`. -/
def bump (counter : List Nat) (mode : Nat) : List Nat :=
  counter.set mode (u32 (counter.getD mode 0 + 1))

/-- The statement `cp->fetchcount[mode]++`, with the record of the call. -/
def machine.count_fetch (m : machine) (cp addr mode : Nat) : machine :=
  { m with
    L := m.L.set cp { m.pair cp with fetchcount := bump (m.pair cp).fetchcount mode }
    log := m.log ++ [⟨cp, addr, mode⟩] }

/-- The statement `cp->misscount[mode]++`. -/
def machine.count_miss (m : machine) (cp mode : Nat) : machine :=
  { m with L := m.L.set cp { m.pair cp with misscount := bump (m.pair cp).misscount mode } }

/-- The cache that level `cp` uses for `mode`: `(mode == INST_F) ? cp->i : cp->d`. -/
def cache_pair.select (p : cache_pair) (mode : Nat) : Option Nat :=
  if mode = INST_F then p.i else p.d

/-- The step of the loop of `cache_pair_access_block`. -/
def next_blksz (m : machine) (cp block_start block_end mode : Nat) : Except Fault Nat :=
  match (m.pair cp).i with
  | none => .ok (u32 (block_end + 2 ^ 32 - block_start))
  | some _ =>
    match (m.pair cp).select mode with
    | none => .error .null
    | some p => .ok (m.cache_at p).info.blksz

mutual

/-- The function `cache_pair_access`; `rnd k` is the value that `rand()` returns if it is
called during the call of `cache_pair_access` number `k`. -/
def cache_pair_access (rnd : Nat → Nat) :
    Nat → machine → Nat → Nat → Nat → Except Fault machine
  | 0, _, _, _, _ => .error .fuel
  | fuel + 1, m, cp, addr, mode =>
    let m1 := m.count_fetch cp addr mode
    match (m.pair cp).i with
    | none => .ok m1
    | some _ =>
      match (m.pair cp).select mode with
      | none => .error .null
      | some p =>
        match cache_access fuel (m1.cache_at p) addr (mode == DATA_W) (rnd m.log.length) with
        | .error e => .error e
        | .ok out =>
          let m2 := m1.put_cache p out.c
          if out.rc = HIT then .ok m2
          else
            let m3 := m2.count_miss cp mode
            let block_start := u32 ((addr >>> out.c.off_bits) <<< out.c.off_bits)
            let block_end := u32 (block_start + out.c.info.blksz)
            let refill := if mode = INST_F then INST_F else DATA_R
            match next_blksz m3 (cp + 1) block_start block_end refill with
            | .error e => .error e
            | .ok step =>
              match block_loop rnd fuel m3 (cp + 1) block_start block_end step refill with
              | .error e => .error e
              | .ok m4 =>
                if out.rc = MISS_KICK then
                  let kickout := out.kickout.getD 0
                  let kick_end := u32 (kickout + out.c.info.blksz)
                  match next_blksz m4 (cp + 1) kickout kick_end DATA_W with
                  | .error e => .error e
                  | .ok step' => block_loop rnd fuel m4 (cp + 1) kickout kick_end step' DATA_W
                else .ok m4
termination_by structural fuel => fuel

/-- The loop `for (addr = block_start; addr < block_end; addr += nextblksz)` of
`cache_pair_access_block`. -/
def block_loop (rnd : Nat → Nat) :
    Nat → machine → Nat → Nat → Nat → Nat → Nat → Except Fault machine
  | 0, m, _, addr, block_end, _, _ => if addr < block_end then .error .fuel else .ok m
  | fuel + 1, m, cp, addr, block_end, step, mode =>
    if addr < block_end then
      match cache_pair_access rnd fuel m cp addr mode with
      | .error e => .error e
      | .ok m' => block_loop rnd fuel m' cp (u32 (addr + step)) block_end step mode
    else .ok m
termination_by structural fuel => fuel

end

/-- The function `cache_pair_access_block`. -/
def cache_pair_access_block (rnd : Nat → Nat) (fuel : Nat) (m : machine)
    (cp block_start block_end mode : Nat) : Except Fault machine :=
  match next_blksz m cp block_start block_end mode with
  | .error e => .error e
  | .ok step => block_loop rnd fuel m cp block_start block_end step mode

/-- The body of the inner loop of `cache_flush` for the line `linep` of set `index`. -/
def cache_flush_line (rnd : Nat → Nat) (fuel : Nat) (m : machine) (p next index linep : Nat) :
    Except Fault machine :=
  let c := m.cache_at p
  if (c.line linep).dirty = false then .ok m
  else
    let block_start := block_base c (c.line linep).tag index
    match cache_pair_access_block rnd fuel m next block_start
        (u32 (block_start + c.info.blksz)) DATA_W with
    | .error e => .error e
    | .ok m1 =>
      .ok (m1.put_cache p
        ((m1.cache_at p).set_line linep { (m1.cache_at p).line linep with dirty := false }))

/-- A loop over a list of loop indices with a body that can fail. -/
def for_each {α : Type} (body : machine → α → Except Fault machine) :
    machine → List α → Except Fault machine
  | m, [] => .ok m
  | m, x :: rest =>
    match body m x with
    | .error e => .error e
    | .ok m' => for_each body m' rest

/-- The function `cache_flush`: the sets in index order, the lines of a set in storage
order. -/
def cache_flush (rnd : Nat → Nat) (fuel : Nat) (m : machine) (p next : Nat) :
    Except Fault machine :=
  let nsets := (m.cache_at p).nsets
  let assoc := (m.cache_at p).info.assoc
  for_each (fun m index =>
      for_each (fun m k => cache_flush_line rnd fuel m p next index (index * assoc + k))
        m (List.range assoc))
    m (List.range nsets)

/-- The loop of `cache_pair_flush` over at most `levels` entries of `L` from `cp` on. -/
def cache_pair_flush_from (rnd : Nat → Nat) (fuel : Nat) :
    Nat → machine → Nat → Except Fault machine
  | 0, m, _ => .ok m
  | levels + 1, m, cp =>
    match (m.pair cp).i with
    | none => .ok m
    | some pi =>
      match cache_flush rnd fuel m pi (cp + 1) with
      | .error e => .error e
      | .ok m1 =>
        if (m1.pair cp).i ≠ (m1.pair cp).d then
          match (m1.pair cp).d with
          | none => .error .null
          | some pd =>
            match cache_flush rnd fuel m1 pd (cp + 1) with
            | .error e => .error e
            | .ok m2 => cache_pair_flush_from rnd fuel levels m2 (cp + 1)
        else cache_pair_flush_from rnd fuel levels m1 (cp + 1)

/-- The function `cache_pair_flush`, called on the array `L`. -/
def cache_pair_flush (rnd : Nat → Nat) (fuel : Nat) (m : machine) : Except Fault machine :=
  cache_pair_flush_from rnd fuel (MAXLEVEL + 1) m 0

/-! ## configuration -/

/-- A cache option of the command line: `-<type><n>,<A>,<B>,<C>,<T>,<flags>`. -/
structure cache_option where
  type : Char
  n : Int
  info : cache_info
  deriving DecidableEq, Repr

/-- The array `L` of `main` before `parse_args`, and no cache allocated. -/
def machine_init : machine :=
  { heap := [], L := List.replicate (MAXLEVEL + 1) ⟨none, none, 0, [0, 0, 0], [0, 0, 0]⟩, log := [] }

/-- The truth value of a C comparison as a number. -/
def c_bool (b : Bool) : Nat := if b then 1 else 0

/-- The function `make_cache`. -/
def make_cache (m : machine) (n : Int) (type : Char) (info : cache_info) :
    Except Fault machine :=
  if n ≤ 0 ∨ n > MAXLEVEL then .error .failure
  else
    let k := (n - 1).toNat
    let m1 := { m with L := m.L.set k { m.pair k with n := n } }
    match cache_init info with
    | .error e => .error e
    | .ok c =>
      let p := m1.heap.length
      let m2 := { m1 with heap := m1.heap ++ [c] }
      let assign := if type = 'I' then 1 else if type = 'D' then 2 else 3
      let conflict := assign &&&
        (c_bool (m2.pair k).i.isSome + 2 * c_bool (m2.pair k).d.isSome)
      if conflict ≠ 0 then .error .failure
      else
        let m3 := if assign &&& 1 ≠ 0 then
          { m2 with L := m2.L.set k { m2.pair k with i := some p } } else m2
        let m4 := if assign &&& 2 ≠ 0 then
          { m3 with L := m3.L.set k { m3.pair k with d := some p } } else m3
        .ok m4

/-- The loop of `removegaps` from `j` on, `i` entries kept so far. -/
def removegaps_loop : Nat → machine → Nat → Nat → Except Fault (machine × Nat)
  | 0, m, i, _ => .ok (m, i)
  | left + 1, m, i, j =>
    let present := c_bool (m.pair j).i.isSome + 2 * c_bool (m.pair j).d.isSome
    if present = 3 then
      removegaps_loop left { m with L := m.L.set i (m.pair j) } (i + 1) (j + 1)
    else if present ≠ 0 then .error .failure
    else removegaps_loop left m i (j + 1)

/-- The function `removegaps`. -/
def removegaps (m : machine) : Except Fault machine :=
  match removegaps_loop (MAXLEVEL + 1) m 0 0 with
  | .error e => .error e
  | .ok (m1, i) => .ok { m1 with L := m1.L.set i { m1.pair i with i := none, d := none } }

/-- The cache options of `parse_args`, in the order of the command line, then
`removegaps`. -/
def configure (opts : List cache_option) : Except Fault machine :=
  match for_each (fun m o => make_cache m o.n o.type o.info) machine_init opts with
  | .error e => .error e
  | .ok m => removegaps m

/-- A record of the trace file: `<mode> <hex_addr>`. -/
structure trace_record where
  mode : Nat
  addr : Nat
  deriving DecidableEq, Repr

/-- The trace loop of `main`. -/
def run_trace (rnd : Nat → Nat) (fuel : Nat) (m : machine) (trace : List trace_record) :
    Except Fault machine :=
  for_each (fun m r => cache_pair_access rnd fuel m 0 r.addr r.mode) m trace

/-- The scenario cache as `cache_init` builds it. -/
def scenario_init : cache :=
  { info := scenario_info, idx_bits := 1, off_bits := 2, hash_bits := 2, nlines := 4, nsets := 2
    sets := [{ list := [0, 1], firstline := 0, hashtab := [none, none, none, none] },
             { list := [2, 3], firstline := 2, hashtab := [none, none, none, none] }]
    lines := [{ tag := 0, dirty := false, valid := false },
              { tag := 0, dirty := false, valid := false },
              { tag := 0, dirty := false, valid := false },
              { tag := 0, dirty := false, valid := false }] }

/-- The scenario geometry with the FIFO policy: flags `021`. -/
def fifo_info : cache_info := ⟨2, 4, 16, 1, 0o21⟩

/-- The FIFO cache as `cache_init` builds it. -/
def fifo_init : cache := { scenario_init with info := fifo_info }

instance {ε α : Type} [DecidableEq ε] [DecidableEq α] : DecidableEq (Except ε α)
  | .ok a, .ok b =>
    if h : a = b then isTrue (by rw [h]) else isFalse (by intro hc; cases hc; exact h rfl)
  | .error a, .error b =>
    if h : a = b then isTrue (by rw [h]) else isFalse (by intro hc; cases hc; exact h rfl)
  | .ok _, .error _ => isFalse (by intro hc; cases hc)
  | .error _, .ok _ => isFalse (by intro hc; cases hc)

/-- The configuration and the trace loop of `main`. -/
def simulate (rnd : Nat → Nat) (fuel : Nat) (opts : List cache_option)
    (trace : List trace_record) : Except Fault machine :=
  match configure opts with
  | .error e => .error e
  | .ok m => run_trace rnd fuel m trace

/-- A source of random numbers that always returns 0. -/
def no_rand : Nat → Nat := fun _ => 0

/-- The option `-L1,2,4,16,1,<flags>`: one unified level in front of DRAM. -/
def single_level (flags : Nat) : List cache_option := [⟨'L', 1, ⟨2, 4, 16, 1, flags⟩⟩]

/-- The options `-L1,1,4,4,1,001 -I2,1,4,4,1,001 -D2,1,16,16,1,001`: a unified first
level over a split second level whose data cache has the larger blocks. -/
def split_second_level : List cache_option :=
  [⟨'L', 1, ⟨1, 4, 4, 1, 0o1⟩⟩, ⟨'I', 2, ⟨1, 4, 4, 1, 0o1⟩⟩, ⟨'D', 2, ⟨1, 16, 16, 1, 0o1⟩⟩]

/-- The state that the options `split_second_level` and the trace `2 fffffff8`,
`1 fffffff8` lead to: the block at `0xfffffff8` is dirty in L1. -/
def wrapped_state : machine :=
  { heap := [{ info := { assoc := 1, blksz := 4, cap := 4, hit_time := 1, flags := 1 },
               idx_bits := 0, off_bits := 2, hash_bits := 1, nlines := 1, nsets := 1,
               sets := [{ list := [0], firstline := 0, hashtab := [some 0, none] }],
               lines := [{ tag := 1073741822, dirty := true, valid := true }] },
             { info := { assoc := 1, blksz := 4, cap := 4, hit_time := 1, flags := 1 },
               idx_bits := 0, off_bits := 2, hash_bits := 1, nlines := 1, nsets := 1,
               sets := [{ list := [0], firstline := 0, hashtab := [some 0, none] }],
               lines := [{ tag := 1073741822, dirty := false, valid := true }] },
             { info := { assoc := 1, blksz := 16, cap := 16, hit_time := 1, flags := 1 },
               idx_bits := 0, off_bits := 4, hash_bits := 1, nlines := 1, nsets := 1,
               sets := [{ list := [0], firstline := 0, hashtab := [none, none] }],
               lines := [{ tag := 0, dirty := false, valid := false }] }],
    L := [{ i := some 0, d := some 0, n := 1, fetchcount := [0, 1, 1], misscount := [0, 0, 1] },
          { i := some 1, d := some 2, n := 2, fetchcount := [0, 0, 1], misscount := [0, 0, 1] },
          { i := none, d := none, n := 0, fetchcount := [0, 0, 1], misscount := [0, 0, 0] }],
    log := [{ cp := 0, addr := 4294967288, mode := 2 }, { cp := 1, addr := 4294967288, mode := 2 },
            { cp := 2, addr := 4294967288, mode := 2 }, { cp := 0, addr := 4294967288, mode := 1 }] }

/-- The tags of the valid lines of set `i`, in storage order. -/
def valid_tags (c : cache) (i : Nat) : List Nat :=
  (List.range c.info.assoc).filterMap (fun k =>
    if (c.line ((c.set_at i).firstline + k)).valid then
      some (c.line ((c.set_at i).firstline + k)).tag
    else none)

/-- The trace `2 0x00`, `2 0x10`, `2 0x20`, `2 0x30` of Scenario 1. -/
def cold_fetches : List trace_record :=
  [⟨INST_F, 0x00⟩, ⟨INST_F, 0x10⟩, ⟨INST_F, 0x20⟩, ⟨INST_F, 0x30⟩]

/-- The array `L` as `parse_args` leaves it before `removegaps`: `MAXLEVEL + 1` entries,
the last one never assigned, and `n = j + 1` in each entry `j` that holds a cache. -/
def parsed (m : machine) : Prop :=
  m.L.length = MAXLEVEL + 1 ∧ (m.pair 2).i = none ∧ (m.pair 2).d = none ∧
  ∀ j, j < MAXLEVEL → ((m.pair j).i.isSome ∨ (m.pair j).d.isSome) → (m.pair j).n = j + 1

/-- A configuration with the replacement bits `030`, which name no policy. -/
def odd_policy_info : cache_info := ⟨2, 4, 16, 1, 0o31⟩

/-- The conditions on a per-set table that the text about `hash_find` and `hash_del`
names: it has `hashsize c` slots, lines in different slots have different tags, every
slot on the probe path from the natural hash of a stored line up to its slot is occupied,
and some slot is empty. -/
structure tab_wf (c : cache) (set : cache_set) : Prop where
  len : set.hashtab.length = hashsize c
  tags : ∀ s s' l l', set.hashtab.getD s none = some l → set.hashtab.getD s' none = some l' →
    (c.line l).tag = (c.line l').tag → s = s'
  path : ∀ s l, set.hashtab.getD s none = some l → ∀ x, x < hashsize c →
    on_path ((c.line l).tag &&& (hashsize c - 1)) x s → set.hashtab.getD x none ≠ none
  empty : ∃ e, e < hashsize c ∧ set.hashtab.getD e none = none

/-- Every line that the table of `set` stores is valid. -/
def all_valid (c : cache) (set : cache_set) : Prop :=
  ∀ s l, set.hashtab.getD s none = some l → (c.line l).valid = true

/-- In the order list of every set no invalid line comes before a valid one. -/
def suffix_inv (c : cache) : Prop :=
  ∀ i, i < c.nsets →
    (c.set_at i).list.Pairwise (fun a b => (c.line b).valid = true → (c.line a).valid = true)

/-- The cache `scenario_cache` after a read of `0x18`: line 0, the tail of the order list
of set 0, is evicted dirty and refilled with tag 3. -/
def scenario_refill : access_result :=
  { rc := MISS_KICK, kickout := some 0x08, linep := some 0,
    c := { scenario_cache with
      sets := [{ list := [0, 1], firstline := 0, hashtab := [none, none, some 1, some 0] },
               { list := [2, 3], firstline := 2, hashtab := [none, none, none, none] }]
      lines := [{ tag := 3, dirty := false, valid := true },
                { tag := 2, dirty := true, valid := true },
                { tag := 0, dirty := false, valid := false },
                { tag := 0, dirty := false, valid := false }] } }

/-- Writes to `0x00` and `0x08`, which fill set 0, then a read of `0x00`. -/
def recency_trace : List access := [⟨0x00, true, 0⟩, ⟨0x08, true, 0⟩, ⟨0x00, false, 0⟩]

/-- The cache and the record of the calls after `recency_trace` under LRU. -/
def lru_run : cache × List access_result :=
  (run 4 scenario_init recency_trace).toOption.getD (scenario_init, [])

/-- The cache and the record of the calls after `recency_trace` under FIFO. -/
def fifo_run : cache × List access_result :=
  (run 4 fifo_init recency_trace).toOption.getD (fifo_init, [])

/-! ## theorems -/

theorem on_path_self (k x : Nat) : ¬ on_path k x k := by
  unfold on_path; omega

theorem on_path_next {M k s x e : Nat} (_hs : s < M) (hx : x < M) (_he : e < M) (hk : k < M)
    (_hes : ¬ on_path k e s) (_hne : e ≠ s) (h : on_path k x (next_slot M s)) :
    on_path k x s ∨ x = s := by
  unfold on_path next_slot at *
  split at h <;> omega

theorem not_on_path_next {M k s e : Nat} (hs : s < M) (he : e < M) (hk : k < M)
    (hes : ¬ on_path k e s) (hne : e ≠ s) : ¬ on_path k e (next_slot M s) := by
  unfold on_path next_slot at *
  split <;> omega

theorem next_slot_lt {M s : Nat} (hs : s < M) : next_slot M s < M := by
  unfold next_slot; split <;> omega

theorem probe_dist_next {M s e : Nat} (hs : s < M) (he : e < M) (hne : e ≠ s) :
    probe_dist M (next_slot M s) e + 1 = probe_dist M s e := by
  unfold probe_dist next_slot
  split <;> split <;> split <;> omega

theorem probe_dist_lt {M s e : Nat} (hs : s < M) (he : e < M) : probe_dist M s e < M := by
  unfold probe_dist; split <;> omega

theorem on_path_total {M k r s : Nat} (_hr : r < M) (_hs : s < M) (_hk : k < M) (hne : r ≠ s) :
    on_path k r s ∨ on_path k s r := by
  unfold on_path; omega

theorem getD_some_lt {T : List (Option Nat)} {s l : Nat} (h : T.getD s none = some l) :
    s < T.length := by
  by_contra hc
  rw [List.getD_eq_default _ _ (by omega)] at h
  cases h

theorem hash_find_loop_spec (c : cache) (set : cache_set) (tag M k e : Nat)
    (hvalid : ∀ s l, set.hashtab.getD s none = some l → (c.line l).valid = true)
    (hk : k < M) (he : e < M) (hstop : stops c set tag e) :
    ∀ (fuel slot : Nat), slot < M → probe_dist M slot e < fuel →
      ¬ on_path k e slot →
      (∀ x, x < M → on_path k x slot → passes c set tag x) →
      ∃ r, hash_find_loop c set tag M fuel slot = .ok r ∧ r < M ∧ stops c set tag r ∧
        ∀ x, x < M → on_path k x r → passes c set tag x := by
  intro fuel
  induction fuel with
  | zero => intro slot _ h; omega
  | succ fuel ih =>
    intro slot hslot hfuel hpath hpre
    unfold hash_find_loop
    cases hT : set.hashtab.getD slot none with
    | none => exact ⟨slot, rfl, hslot, Or.inl hT, hpre⟩
    | some l =>
      have hv := hvalid slot l hT
      by_cases htag : (c.line l).tag = tag
      · simp only [hv, htag]
        exact ⟨slot, by simp, hslot, Or.inr ⟨l, hT, htag⟩, hpre⟩
      · simp only [hv, htag]
        have hne : e ≠ slot := by
          rintro rfl
          rcases hstop with h | ⟨l', h, h'⟩
          · rw [hT] at h; cases h
          · rw [hT] at h; cases h; exact htag h'
        have hd := probe_dist_next hslot he hne
        have := ih (next_slot M slot) (next_slot_lt hslot) (by omega)
          (not_on_path_next hslot he hk hpath hne)
          (fun x hx hp => by
            rcases on_path_next hslot hx he hk hpath hne hp with h | rfl
            · exact hpre x hx h
            · exact ⟨l, hT, htag⟩)
        simpa [next_slot] using this

theorem getD_set_ne (T : List (Option Nat)) {a x : Nat} (v : Option Nat) (h : a ≠ x) :
    (T.set a v).getD x none = T.getD x none := by
  simp [List.getD_eq_getElem?_getD, List.getElem?_set_ne h]

theorem getD_set_eq (T : List (Option Nat)) {a : Nat} (v : Option Nat) (h : a < T.length) :
    (T.set a v).getD a none = v := by
  simp [List.getD_eq_getElem?_getD, List.getElem?_set_self, h]

theorem and_mask_lt (a b : Nat) (h : 0 < b) : a &&& (b - 1) < b := by
  have := @Nat.and_le_right a (b - 1)
  omega

theorem hash_del_moves_iff {i j : Nat} (k : Nat) (h : i ≠ j) :
    hash_del_moves i j k = true ↔ ¬ in_gap i k j := by
  unfold hash_del_moves in_gap
  split <;> split <;> split <;> simp <;> omega

theorem gap_path_absurd {i s k : Nat} (h2 : in_gap i k s) (h3 : on_path k i s) : False := by
  unfold in_gap on_path at *; omega

theorem path_reaches_next {M i s j k : Nat} (hi : i < M) (hj : j < M) (hs : s < M)
    (h1 : on_path k i s) (h2 : ¬ in_gap i s j) (h3 : s ≠ i) (h4 : s ≠ next_slot M j)
    (h5 : next_slot M j ≠ i) : on_path k (next_slot M j) s := by
  unfold in_gap on_path next_slot at *
  split at h4 <;> split <;> omega

theorem next_ne_hole {M i j e : Nat} (hi : i < M) (_hj : j < M) (he : e < M)
    (h1 : e ≠ i) (h2 : ¬ in_gap i e j) : next_slot M j ≠ i := by
  unfold in_gap next_slot at *
  split <;> omega

theorem in_gap_next {M i j x : Nat} (hi : i < M) (hj : j < M) (hx : x < M)
    (_h1 : next_slot M j ≠ i) (h : in_gap i x (next_slot M j)) :
    in_gap i x j ∨ x = next_slot M j := by
  unfold in_gap next_slot at *
  split at h <;> split <;> omega

theorem not_in_gap_next {M i j e : Nat} (hi : i < M) (hj : j < M) (he : e < M)
    (h1 : ¬ in_gap i e j) (h2 : e ≠ next_slot M j) (h3 : e ≠ i) :
    ¬ in_gap i e (next_slot M j) := by
  unfold in_gap next_slot at *
  split at h2 <;> split <;> omega

theorem path_before_hole {i n k x : Nat} (h1 : on_path k x i) (h2 : ¬ in_gap i k n)
    (h3 : i ≠ n) : on_path k x n ∧ x ≠ i := by
  unfold in_gap on_path at *; omega

theorem in_gap_self (i x : Nat) : ¬ in_gap i x i := by
  unfold in_gap; omega

theorem ne_of_not_in_gap {i j e : Nat} (h1 : e ≠ i) (h2 : ¬ in_gap i e j) : e ≠ j := by
  unfold in_gap at *; omega

theorem del_inv_exit {c : cache} {M : Nat} {T0 : List (Option Nat)} {l0 e0 : Nat}
    {T : List (Option Nat)} {i j : Nat} (h : del_inv c M T0 l0 e0 T i j)
    (hn : T.getD (next_slot M j) none = none) : del_post c M T0 l0 T := by
  refine ⟨h.len, ?_, h.content, h.inj⟩
  intro s l hs x hx hp
  by_cases hxi : x = i
  · subst hxi
    exfalso
    have hsM : s < M := h.len ▸ getD_some_lt hs
    by_cases hg : in_gap x s j
    · obtain ⟨l', hl', hg'⟩ := h.gap s hsM hg
      rw [hs] at hl'; cases hl'
      exact gap_path_absurd hg' hp
    · have h3 : s ≠ x := by rintro rfl; rw [h.hole] at hs; cases hs
      have h4 : s ≠ next_slot M j := by rintro rfl; rw [hn] at hs; cases hs
      have h5 := next_ne_hole h.hi h.hj h.he h.e_ne h.e_gap
      have := path_reaches_next h.hi h.hj hsM hp hg h3 h4 h5
      exact h.path s l hs _ (next_slot_lt h.hj) this h5 hn
  · exact h.path s l hs x hx hp hxi

theorem del_inv_stay {c : cache} {M : Nat} {T0 : List (Option Nat)} {l0 e0 : Nat}
    {T : List (Option Nat)} {i j l : Nat} (h : del_inv c M T0 l0 e0 T i j)
    (hn : T.getD (next_slot M j) none = some l)
    (hmv : hash_del_moves i (next_slot M j) ((c.line l).tag &&& (M - 1)) = false) :
    del_inv c M T0 l0 e0 T i (next_slot M j) := by
  have h5 := next_ne_hole h.hi h.hj h.he h.e_ne h.e_gap
  have hen : e0 ≠ next_slot M j := by
    intro hc; rw [← hc, h.empty] at hn; cases hn
  refine { h with hj := next_slot_lt h.hj, gap := ?_, e_gap := ?_ }
  · intro x hx hg
    rcases in_gap_next h.hi h.hj hx h5 hg with hg' | rfl
    · exact h.gap x hx hg'
    · refine ⟨l, hn, ?_⟩
      by_contra hc
      rw [(hash_del_moves_iff _ (Ne.symm h5)).mpr hc] at hmv
      cases hmv
  · exact not_in_gap_next h.hi h.hj h.he h.e_gap hen h.e_ne

theorem del_inv_move {c : cache} {M : Nat} {T0 : List (Option Nat)} {l0 e0 : Nat}
    {T : List (Option Nat)} {i j l : Nat} (h : del_inv c M T0 l0 e0 T i j)
    (hn : T.getD (next_slot M j) none = some l)
    (hmv : hash_del_moves i (next_slot M j) ((c.line l).tag &&& (M - 1)) = true) :
    del_inv c M T0 l0 e0 ((T.set i (some l)).set (next_slot M j) none)
      (next_slot M j) (next_slot M j) := by
  have h5 := next_ne_hole h.hi h.hj h.he h.e_ne h.e_gap
  have hnM := next_slot_lt h.hj
  have hen : e0 ≠ next_slot M j := by
    intro hc; rw [← hc, h.empty] at hn; cases hn
  have hng := (hash_del_moves_iff _ (Ne.symm h5)).mp hmv
  generalize hnd : next_slot M j = n at *
  have hin : i ≠ n := Ne.symm h5
  have get_n : ((T.set i (some l)).set n none).getD n none = none :=
    getD_set_eq _ _ (by simp [h.len, hnM])
  have get_i : ((T.set i (some l)).set n none).getD i none = some l := by
    rw [getD_set_ne _ _ h5, getD_set_eq _ _ (by simp [h.len, h.hi])]
  have get_o : ∀ x, x ≠ i → x ≠ n →
      ((T.set i (some l)).set n none).getD x none = T.getD x none := by
    intro x h1 h2
    rw [getD_set_ne _ _ (Ne.symm h2), getD_set_ne _ _ (Ne.symm h1)]
  refine ⟨by simp [h.len], hnM, hnM, get_n, ?_, ?_, ?_, ?_, h.he, ?_, hen, in_gap_self _ _⟩
  · intro x _ hg; exact absurd hg (in_gap_self _ _)
  · intro s l2 hs x hx hp hxn
    by_cases hsn : s = n
    · subst hsn; rw [get_n] at hs; cases hs
    by_cases hsi : s = i
    · subst hsi
      rw [get_i] at hs
      obtain rfl : l = l2 := Option.some.inj hs
      obtain ⟨hp', hxi⟩ := path_before_hole hp hng hin
      rw [get_o x hxi hxn]
      exact h.path n l hn x hx hp' hxi
    · rw [get_o s hsi hsn] at hs
      by_cases hxi : x = i
      · subst hxi; rw [get_i]; simp
      · rw [get_o x hxi hxn]
        exact h.path s l2 hs x hx hp hxi
  · intro l2
    rw [← h.content l2]
    constructor
    · rintro ⟨s, hs⟩
      by_cases hsn : s = n
      · subst hsn; rw [get_n] at hs; cases hs
      by_cases hsi : s = i
      · subst hsi; rw [get_i] at hs; cases hs; exact ⟨n, hn⟩
      · rw [get_o s hsi hsn] at hs; exact ⟨s, hs⟩
    · rintro ⟨s, hs⟩
      by_cases hsn : s = n
      · subst hsn; rw [hn] at hs; cases hs; exact ⟨i, get_i⟩
      by_cases hsi : s = i
      · subst hsi; rw [h.hole] at hs; cases hs
      · exact ⟨s, by rw [get_o s hsi hsn]; exact hs⟩
  · intro s s' l2 hs hs'
    have key : ∀ t, ((T.set i (some l)).set n none).getD t none = some l2 →
        T.getD (if t = i then n else t) none = some l2 := by
      intro t ht
      by_cases htn : t = n
      · subst htn; rw [get_n] at ht; cases ht
      by_cases hti : t = i
      · subst hti; rw [get_i] at ht; cases ht; simpa using hn
      · rw [get_o t hti htn] at ht; simpa [hti] using ht
    have hn1 : s ≠ n := by rintro rfl; rw [get_n] at hs; cases hs
    have hn2 : s' ≠ n := by rintro rfl; rw [get_n] at hs'; cases hs'
    have := h.inj _ _ l2 (key s hs) (key s' hs')
    split at this <;> split at this <;> omega
  · rw [get_o e0 h.e_ne hen]; exact h.empty

theorem hash_del_loop_spec (c : cache) (M : Nat) (T0 : List (Option Nat)) (l0 e0 : Nat) :
    ∀ (fuel : Nat) (T : List (Option Nat)) (i j : Nat), del_inv c M T0 l0 e0 T i j →
      probe_dist M j e0 ≤ fuel →
      ∃ T', hash_del_loop c M fuel T i j = .ok T' ∧ del_post c M T0 l0 T' := by
  intro fuel
  induction fuel with
  | zero =>
    intro T i j h hf
    exfalso
    have := ne_of_not_in_gap h.e_ne h.e_gap
    have h1 := h.he
    have h2 := h.hj
    unfold probe_dist at hf
    split at hf <;> omega
  | succ fuel ih =>
    intro T i j h hf
    have hej := ne_of_not_in_gap h.e_ne h.e_gap
    have hd := probe_dist_next h.hj h.he hej
    unfold hash_del_loop
    simp only
    rw [show (if j + 1 = M then 0 else j + 1) = next_slot M j from rfl]
    cases hn : T.getD (next_slot M j) none with
    | none => exact ⟨T, rfl, del_inv_exit h hn⟩
    | some l =>
      simp only
      cases hmv : hash_del_moves i (next_slot M j) ((c.line l).tag &&& (M - 1)) with
      | true => simpa using ih _ _ _ (del_inv_move h hn hmv) (by omega)
      | false => simpa using ih _ _ _ (del_inv_stay h hn hmv) (by omega)

theorem exists_empty_slot (T : List (Option Nat)) (f A : Nat)
    (hmem : ∀ s l, T.getD s none = some l → f ≤ l ∧ l < f + A)
    (hinj : ∀ s s' l, T.getD s none = some l → T.getD s' none = some l → s = s')
    (hlt : A < T.length) : ∃ e, e < T.length ∧ T.getD e none = none := by
  by_contra hc
  push_neg at hc
  have hsome : ∀ s, s < T.length → ∃ l, T.getD s none = some l := by
    intro s hs
    cases h : T.getD s none with
    | none => exact absurd h (hc s hs)
    | some l => exact ⟨l, rfl⟩
  have hcard := Finset.card_le_card_of_injOn (s := Finset.range T.length)
    (t := Finset.Ico f (f + A)) (fun s => (T.getD s none).getD 0)
    (by
      intro s hs
      obtain ⟨l, hl⟩ := hsome s (Finset.mem_range.mp hs)
      have := hmem s l hl
      show (T.getD s none).getD 0 ∈ Finset.Ico f (f + A)
      rw [hl]
      exact Finset.mem_Ico.mpr this)
    (by
      intro s hs s' hs'
      obtain ⟨l, hl⟩ := hsome s (Finset.mem_range.mp hs)
      obtain ⟨l', hl'⟩ := hsome s' (Finset.mem_range.mp hs')
      show (T.getD s none).getD 0 = (T.getD s' none).getD 0 → s = s'
      rw [hl, hl']
      intro h
      obtain rfl : l = l' := h
      exact hinj _ _ _ hl hl')
  simp at hcard
  omega

theorem tab_inv.pos {c : cache} {set : cache_set} (h : tab_inv c set) : 0 < hashsize c := by
  have := h.room; omega

theorem tab_inv.empty {c : cache} {set : cache_set} (h : tab_inv c set) :
    ∃ e, e < hashsize c ∧ set.hashtab.getD e none = none := by
  have := exists_empty_slot set.hashtab set.firstline c.info.assoc h.mem h.inj
    (by rw [h.len]; exact h.room)
  rwa [h.len] at this

theorem hash_find_eq (fuel : Nat) (c : cache) (set : cache_set) (tag : Nat) :
    hash_find fuel c set tag =
      hash_find_loop c set tag (hashsize c) fuel (tag &&& (hashsize c - 1)) := rfl

theorem hash_find_stored {c : cache} {set : cache_set} (h : tab_inv c set) {s l fuel : Nat}
    (hs : set.hashtab.getD s none = some l) (hf : hashsize c ≤ fuel) :
    hash_find fuel c set (c.line l).tag = .ok s := by
  have hsM : s < hashsize c := h.len ▸ getD_some_lt hs
  have hk := and_mask_lt (c.line l).tag (hashsize c) h.pos
  obtain ⟨r, hr, hrM, hstop, hpass⟩ := hash_find_loop_spec c set (c.line l).tag (hashsize c)
    ((c.line l).tag &&& (hashsize c - 1)) s h.valid hk hsM (Or.inr ⟨l, hs, rfl⟩) fuel
    ((c.line l).tag &&& (hashsize c - 1)) hk
    (lt_of_lt_of_le (probe_dist_lt hk hsM) hf) (on_path_self _ _)
    (fun x _ hp => absurd hp (on_path_self _ _))
  rw [hash_find_eq, hr]
  by_cases hrs : r = s
  · rw [hrs]
  exfalso
  rcases on_path_total hrM hsM hk hrs with hp | hp
  · have hocc := h.path s l hs r hrM hp
    rcases hstop with h0 | ⟨l', hl', ht⟩
    · exact hocc h0
    · have := h.tags r s l' l hl' hs ht
      subst this
      exact hrs (h.inj _ _ _ hl' hs)
  · obtain ⟨l', hl', hne⟩ := hpass s hsM hp
    rw [hs] at hl'
    cases hl'
    exact hne rfl

theorem hash_find_absent {c : cache} {set : cache_set} (h : tab_inv c set) {tag fuel : Nat}
    (habs : ∀ s l, set.hashtab.getD s none = some l → (c.line l).tag ≠ tag)
    (hf : hashsize c ≤ fuel) :
    ∃ r, hash_find fuel c set tag = .ok r ∧ r < hashsize c ∧ set.hashtab.getD r none = none ∧
      ∀ x, x < hashsize c → on_path (tag &&& (hashsize c - 1)) x r →
        set.hashtab.getD x none ≠ none := by
  obtain ⟨e, he, hE⟩ := h.empty
  have hk := and_mask_lt tag (hashsize c) h.pos
  obtain ⟨r, hr, hrM, hstop, hpass⟩ := hash_find_loop_spec c set tag (hashsize c)
    (tag &&& (hashsize c - 1)) e h.valid hk he (Or.inl hE) fuel
    (tag &&& (hashsize c - 1)) hk
    (lt_of_lt_of_le (probe_dist_lt hk he) hf) (on_path_self _ _)
    (fun x _ hp => absurd hp (on_path_self _ _))
  refine ⟨r, by rw [hash_find_eq, hr], hrM, ?_, ?_⟩
  · rcases hstop with h0 | ⟨l', hl', ht⟩
    · exact h0
    · exact absurd ht (habs r l' hl')
  · intro x hx hp
    obtain ⟨l', hl', _⟩ := hpass x hx hp
    rw [hl']; simp

/-- The hash lookup finds a line exactly when the table stores a line with the tag. -/
theorem cache_find_tag_spec {c : cache} {set : cache_set} (h : tab_inv c set) (tag : Nat)
    {fuel : Nat} (hf : hashsize c ≤ fuel) :
    (∃ l, cache_find_tag fuel c set tag = .ok (some l) ∧ stored set l ∧
        (c.line l).tag = tag) ∨
    (cache_find_tag fuel c set tag = .ok none ∧
        ∀ s l, set.hashtab.getD s none = some l → (c.line l).tag ≠ tag) := by
  by_cases hex : ∃ s l, set.hashtab.getD s none = some l ∧ (c.line l).tag = tag
  · obtain ⟨s, l, hs, ht⟩ := hex
    left
    refine ⟨l, ?_, ⟨s, hs⟩, ht⟩
    have := hash_find_stored h hs hf
    rw [ht] at this
    unfold cache_find_tag
    rw [this]
    simp only [bind, Except.bind]
    rw [hs]
    simp [h.valid s l hs, ht]
  · right
    have habs : ∀ s l, set.hashtab.getD s none = some l → (c.line l).tag ≠ tag :=
      fun s l hs ht => hex ⟨s, l, hs, ht⟩
    refine ⟨?_, habs⟩
    obtain ⟨r, hr, _, hnone, _⟩ := hash_find_absent h habs hf
    unfold cache_find_tag
    rw [hr]
    simp only [bind, Except.bind]
    rw [hnone]

theorem hash_del_spec {c : cache} {set : cache_set} (h : tab_inv c set) {v fuel : Nat}
    (hv : stored set v) (hf : hashsize c ≤ fuel) :
    ∃ T, hash_del fuel c set v = .ok { set with hashtab := T } ∧
      del_post c (hashsize c) set.hashtab v T := by
  obtain ⟨s0, hs0⟩ := hv
  obtain ⟨e0, he0, hE⟩ := h.empty
  have hs0M : s0 < hashsize c := h.len ▸ getD_some_lt hs0
  have hne : e0 ≠ s0 := by rintro rfl; rw [hE] at hs0; cases hs0
  have get_o : ∀ x, x ≠ s0 → (set.hashtab.set s0 none).getD x none = set.hashtab.getD x none :=
    fun x hx => getD_set_ne _ _ (Ne.symm hx)
  have get_s : (set.hashtab.set s0 none).getD s0 none = none :=
    getD_set_eq _ _ (by rw [h.len]; exact hs0M)
  have hinit : del_inv c (hashsize c) set.hashtab v e0 (set.hashtab.set s0 none) s0 s0 := by
    refine ⟨by simp [h.len], hs0M, hs0M, get_s, ?_, ?_, ?_, ?_, he0, ?_, hne, in_gap_self _ _⟩
    · intro x _ hg; exact absurd hg (in_gap_self _ _)
    · intro s l hs x hx hp hxs
      have hss : s ≠ s0 := by rintro rfl; rw [get_s] at hs; cases hs
      rw [get_o s hss] at hs
      rw [get_o x hxs]
      exact h.path s l hs x hx hp
    · intro l
      constructor
      · rintro ⟨s, hs⟩
        have hss : s ≠ s0 := by rintro rfl; rw [get_s] at hs; cases hs
        rw [get_o s hss] at hs
        refine ⟨⟨s, hs⟩, ?_⟩
        rintro rfl
        exact hss (h.inj _ _ _ hs hs0)
      · rintro ⟨⟨s, hs⟩, hl⟩
        have hss : s ≠ s0 := by rintro rfl; rw [hs0] at hs; cases hs; exact hl rfl
        exact ⟨s, by rw [get_o s hss]; exact hs⟩
    · intro s s' l hs hs'
      have hss : s ≠ s0 := by rintro rfl; rw [get_s] at hs; cases hs
      have hss' : s' ≠ s0 := by rintro rfl; rw [get_s] at hs'; cases hs'
      rw [get_o s hss] at hs
      rw [get_o s' hss'] at hs'
      exact h.inj _ _ _ hs hs'
    · rw [get_o e0 hne]; exact hE
  obtain ⟨T, hT, hpost⟩ := hash_del_loop_spec c (hashsize c) set.hashtab v e0 fuel _ _ _ hinit
    (le_trans (le_of_lt (probe_dist_lt hs0M he0)) hf)
  refine ⟨T, ?_, hpost⟩
  unfold hash_del
  rw [hash_find_stored h hs0 hf]
  simp only [bind, Except.bind]
  rw [hs0]
  simp only [ne_eq, not_true_eq_false, ↓reduceIte]
  rw [show u32 (1 <<< c.hash_bits) = hashsize c from rfl, hT]

theorem tab_inv_of_del_post {c : cache} {set : cache_set} (h : tab_inv c set) {v : Nat}
    {T : List (Option Nat)} (hp : del_post c (hashsize c) set.hashtab v T) :
    tab_inv c { set with hashtab := T } := by
  have old : ∀ s l, T.getD s none = some l → ∃ s', set.hashtab.getD s' none = some l :=
    fun s l hs => ((hp.content l).mp ⟨s, hs⟩).1
  refine ⟨hp.len, h.room, ?_, ?_, hp.inj, ?_, hp.path⟩
  · intro s l hs
    obtain ⟨s', hs'⟩ := old s l hs
    exact h.valid s' l hs'
  · intro s l hs
    obtain ⟨s', hs'⟩ := old s l hs
    exact h.mem s' l hs'
  · intro s s' l l' hs hs' ht
    obtain ⟨t, ht1⟩ := old s l hs
    obtain ⟨t', ht2⟩ := old s' l' hs'
    exact h.tags t t' l l' ht1 ht2 ht

theorem hash_add_spec {c : cache} {set : cache_set} (h : tab_inv c set) {v fuel : Nat}
    (hmem : in_set c set v) (hvalid : (c.line v).valid = true)
    (hnew : ∀ s l, set.hashtab.getD s none = some l → l ≠ v ∧ (c.line l).tag ≠ (c.line v).tag)
    (hf : hashsize c ≤ fuel) :
    ∃ r, hash_add fuel c set v = .ok { set with hashtab := set.hashtab.set r (some v) } ∧
      r < hashsize c ∧ set.hashtab.getD r none = none ∧
      tab_inv c { set with hashtab := set.hashtab.set r (some v) } := by
  obtain ⟨r, hr, hrM, hnone, hpath⟩ := hash_find_absent h (fun s l hs => (hnew s l hs).2) hf
  refine ⟨r, ?_, hrM, hnone, ?_⟩
  · unfold hash_add
    rw [hr]
    simp only [bind, Except.bind]
    rw [hnone]
    simp
  have get_r : (set.hashtab.set r (some v)).getD r none = some v :=
    getD_set_eq _ _ (by rw [h.len]; exact hrM)
  have get_o : ∀ x, x ≠ r → (set.hashtab.set r (some v)).getD x none = set.hashtab.getD x none :=
    fun x hx => getD_set_ne _ _ (Ne.symm hx)
  have cases_of : ∀ s l, (set.hashtab.set r (some v)).getD s none = some l →
      (s = r ∧ l = v) ∨ (s ≠ r ∧ set.hashtab.getD s none = some l) := by
    intro s l hs
    by_cases hsr : s = r
    · subst hsr; rw [get_r] at hs; cases hs; exact Or.inl ⟨rfl, rfl⟩
    · rw [get_o s hsr] at hs; exact Or.inr ⟨hsr, hs⟩
  refine ⟨by simp [h.len], h.room, ?_, ?_, ?_, ?_, ?_⟩
  · intro s l hs
    rcases cases_of s l hs with ⟨_, rfl⟩ | ⟨_, hs'⟩
    · exact hvalid
    · exact h.valid s l hs'
  · intro s l hs
    rcases cases_of s l hs with ⟨_, rfl⟩ | ⟨_, hs'⟩
    · exact hmem
    · exact h.mem s l hs'
  · intro s s' l hs hs'
    rcases cases_of s l hs with ⟨e1, e2⟩ | ⟨_, h1⟩ <;>
      rcases cases_of s' l hs' with ⟨e3, e4⟩ | ⟨_, h2⟩
    · rw [e1, e3]
    · exact absurd e2 (hnew _ _ h2).1
    · exact absurd e4 (hnew _ _ h1).1
    · exact h.inj _ _ _ h1 h2
  · intro s s' l l' hs hs' ht
    rcases cases_of s l hs with ⟨_, rfl⟩ | ⟨_, h1⟩ <;>
      rcases cases_of s' l' hs' with ⟨_, rfl⟩ | ⟨_, h2⟩
    · rfl
    · exact absurd ht.symm (hnew _ _ h2).2
    · exact absurd ht (hnew _ _ h1).2
    · exact h.tags _ _ _ _ h1 h2 ht
  · intro s l hs x hx hp
    have hold : set.hashtab.getD x none ≠ none := by
      rcases cases_of s l hs with ⟨rfl, rfl⟩ | ⟨_, h1⟩
      · exact hpath x hx hp
      · exact h.path s l h1 x hx hp
    by_cases hxr : x = r
    · subst hxr; exact absurd hnone hold
    · rw [get_o x hxr]; exact hold

theorem getLastD_mem {l : List Nat} (d : Nat) (h : l ≠ []) : l.getLastD d ∈ l := by
  cases l with
  | nil => exact absurd rfl h
  | cons a as =>
    rw [List.getLastD_cons]
    induction as generalizing a with
    | nil => simp
    | cons b bs ih =>
      rw [List.getLastD_cons]
      exact List.mem_cons_of_mem _ (ih b (by simp))

@[simp] theorem line_set_line_ne (c : cache) {v l : Nat} (x : cache_line) (h : l ≠ v) :
    (c.set_line v x).line l = c.line l := by
  unfold cache.set_line cache.line
  simp only [List.getD_eq_getElem?_getD, List.getElem?_set_ne (Ne.symm h)]

theorem line_set_line_eq (c : cache) {v : Nat} (x : cache_line) (h : v < c.lines.length) :
    (c.set_line v x).line v = x := by
  unfold cache.set_line cache.line
  simp [List.getD_eq_getElem?_getD, List.getElem?_set_self, h]

theorem set_at_put_set_ne (c : cache) {i j : Nat} (s : cache_set) (h : j ≠ i) :
    (c.put_set i s).set_at j = c.set_at j := by
  unfold cache.put_set cache.set_at
  simp only [List.getD_eq_getElem?_getD, List.getElem?_set_ne (Ne.symm h)]

theorem set_at_put_set_eq (c : cache) {i : Nat} (s : cache_set) (h : i < c.sets.length) :
    (c.put_set i s).set_at i = s := by
  unfold cache.put_set cache.set_at
  simp [List.getD_eq_getElem?_getD, List.getElem?_set_self, h]

@[simp] theorem line_put_set (c : cache) (i : Nat) (s : cache_set) (l : Nat) :
    (c.put_set i s).line l = c.line l := rfl

@[simp] theorem set_at_set_line (c : cache) (v : Nat) (x : cache_line) (i : Nat) :
    (c.set_line v x).set_at i = c.set_at i := rfl

@[simp] theorem hashsize_set_line (c : cache) (v : Nat) (x : cache_line) :
    hashsize (c.set_line v x) = hashsize c := rfl

@[simp] theorem hashsize_put_set (c : cache) (i : Nat) (s : cache_set) :
    hashsize (c.put_set i s) = hashsize c := rfl

@[simp] theorem info_set_line (c : cache) (v : Nat) (x : cache_line) :
    (c.set_line v x).info = c.info := rfl

@[simp] theorem info_put_set (c : cache) (i : Nat) (s : cache_set) :
    (c.put_set i s).info = c.info := rfl

theorem tab_inv_frame {c c' : cache} {set : cache_set} (h : tab_inv c set)
    (hinfo : c'.info = c.info) (hsize : hashsize c' = hashsize c)
    (hlines : ∀ l, stored set l →
      (c'.line l).tag = (c.line l).tag ∧ (c'.line l).valid = (c.line l).valid) :
    tab_inv c' set := by
  refine ⟨by rw [hsize]; exact h.len, by rw [hsize, hinfo]; exact h.room, ?_, ?_, h.inj, ?_, ?_⟩
  · intro s l hs; rw [(hlines l ⟨s, hs⟩).2]; exact h.valid s l hs
  · intro s l hs
    have := h.mem s l hs
    unfold in_set at *
    rwa [hinfo]
  · intro s s' l l' hs hs'
    rw [(hlines l ⟨s, hs⟩).1, (hlines l' ⟨s', hs'⟩).1]
    exact h.tags s s' l l' hs hs'
  · intro s l hs x hx
    rw [(hlines l ⟨s, hs⟩).1, hsize]
    rw [hsize] at hx
    exact h.path s l hs x hx

theorem tab_inv_congr {c : cache} {set set' : cache_set} (h : tab_inv c set)
    (h1 : set'.hashtab = set.hashtab) (h2 : set'.firstline = set.firstline) :
    tab_inv c set' := by
  refine ⟨by rw [h1]; exact h.len, h.room, ?_, ?_, ?_, ?_, ?_⟩
  · rw [h1]; exact h.valid
  · intro s l hs
    rw [h1] at hs
    have := h.mem s l hs
    unfold in_set at *
    rwa [h2]
  · rw [h1]; exact h.inj
  · rw [h1]; exact h.tags
  · rw [h1]; exact h.path

theorem set_inv_frame {c c' : cache} {set : cache_set} (h : set_inv c set)
    (hinfo : c'.info = c.info) (hsize : hashsize c' = hashsize c)
    (hlines : ∀ l, in_set c set l →
      (c'.line l).tag = (c.line l).tag ∧ (c'.line l).valid = (c.line l).valid) :
    set_inv c' set := by
  have hin : ∀ l, in_set c' set l ↔ in_set c set l := by
    intro l; unfold in_set; rw [hinfo]
  refine ⟨tab_inv_frame h.tab hinfo hsize ?_, ?_, h.nodup, ?_⟩
  · rintro l ⟨s, hs⟩; exact hlines l (h.tab.mem s l hs)
  · intro l hl hv
    rw [hin] at hl
    rw [(hlines l hl).2] at hv
    exact h.present l hl hv
  · intro l; rw [hin]; exact h.order l

theorem in_set_lt {c : cache} (h : cache_inv c) {i l : Nat} (hi : i < c.nsets)
    (hl : in_set c (c.set_at i) l) : l < c.lines.length := by
  unfold in_set at hl
  rw [h.first i hi] at hl
  rw [h.nlines]
  calc l < i * c.info.assoc + c.info.assoc := hl.2
    _ = (i + 1) * c.info.assoc := by ring
    _ ≤ c.nsets * c.info.assoc := Nat.mul_le_mul_right _ hi

theorem in_set_disjoint {c : cache} (h : cache_inv c) {i j l : Nat} (hi : i < c.nsets)
    (hj : j < c.nsets) (hl : in_set c (c.set_at i) l) (hl' : in_set c (c.set_at j) l) :
    i = j := by
  unfold in_set at hl hl'
  rw [h.first i hi] at hl
  rw [h.first j hj] at hl'
  by_contra hne
  rcases Nat.lt_or_gt_of_ne hne with hlt | hlt
  · have : (i + 1) * c.info.assoc ≤ j * c.info.assoc := Nat.mul_le_mul_right _ hlt
    have e : (i + 1) * c.info.assoc = i * c.info.assoc + c.info.assoc := by ring
    omega
  · have : (j + 1) * c.info.assoc ≤ i * c.info.assoc := Nat.mul_le_mul_right _ hlt
    have e : (j + 1) * c.info.assoc = j * c.info.assoc + c.info.assoc := by ring
    omega

theorem cache_find_victim_in_set {c : cache} {set : cache_set} (h : set_inv c set)
    (hpos : 0 < c.info.assoc) {rnd v : Nat} (hv : cache_find_victim c set rnd = .ok v) :
    in_set c set v := by
  have hne : set.list ≠ [] := by
    intro hnil
    have := (h.order set.firstline).mpr ⟨le_refl _, by omega⟩
    rw [hnil] at this
    cases this
  have htail : in_set c set (set.list.getLastD set.firstline) :=
    (h.order _).mp (getLastD_mem _ hne)
  unfold cache_find_victim at hv
  simp only at hv
  split at hv
  · cases hv; exact htail
  · split at hv
    · split at hv
      · cases hv
        exact ⟨Nat.le_add_right _ _, Nat.add_lt_add_left (Nat.mod_lt _ hpos) _⟩
      · cases hv; exact htail
    · cases hv

theorem stored_mk (set : cache_set) (T : List (Option Nat)) (l : Nat) :
    stored { set with hashtab := T } l ↔ ∃ s, T.getD s none = some l := Iff.rfl

theorem evict_spec {c : cache} {set : cache_set} (h : set_inv c set) {v fuel : Nat}
    (hv : in_set c set v) (hf : hashsize c ≤ fuel) :
    ∃ T, (if (c.line v).valid = true then hash_del fuel c set v else .ok set) =
        .ok { set with hashtab := T } ∧
      tab_inv c { set with hashtab := T } ∧
      ∀ l, (∃ s, T.getD s none = some l) ↔ (stored set l ∧ l ≠ v) := by
  by_cases hval : (c.line v).valid = true
  · obtain ⟨T, hT, hpost⟩ := hash_del_spec h.tab (h.present v hv hval) hf
    refine ⟨T, by rw [if_pos hval, hT], tab_inv_of_del_post h.tab hpost, hpost.content⟩
  · refine ⟨set.hashtab, by rw [if_neg hval], h.tab, ?_⟩
    intro l
    constructor
    · rintro ⟨s, hs⟩
      refine ⟨⟨s, hs⟩, ?_⟩
      rintro rfl
      exact hval (h.tab.valid s l hs)
    · rintro ⟨hs, _⟩; exact hs

theorem cache_allocate_spec {c : cache} (h : cache_inv c) {i t rnd fuel v : Nat}
    (hi : i < c.nsets) (ht : t < 2 ^ (32 - (c.off_bits + c.idx_bits)))
    (habs : ∀ s l, (c.set_at i).hashtab.getD s none = some l → (c.line l).tag ≠ t)
    (hf : hashsize c ≤ fuel) (hv : cache_find_victim c (c.set_at i) rnd = .ok v) :
    in_set c (c.set_at i) v ∧
    ∃ T, cache_allocate fuel c i t rnd = .ok
        { rc := if (c.line v).dirty then MISS_KICK else MISS_NOKICK
          kickout := if (c.line v).dirty then some (block_base c (c.line v).tag i) else none
          linep := some v
          c := refilled c i v t T } ∧
      cache_inv (refilled c i v t T) := by
  have hs := h.sets i hi
  have hvin := cache_find_victim_in_set hs h.assoc_pos hv
  have hvlt := in_set_lt h hi hvin
  refine ⟨hvin, ?_⟩
  obtain ⟨T1, hT1, htab1, hcont1⟩ := evict_spec hs hvin hf
  -- the line is rewritten
  have hline_v : (c.set_line v { tag := t, valid := true, dirty := false }).line v =
      { tag := t, valid := true, dirty := false } := line_set_line_eq c _ hvlt
  have htab1' : tab_inv (c.set_line v { tag := t, valid := true, dirty := false })
      { c.set_at i with hashtab := T1 } := by
    refine tab_inv_frame htab1 rfl rfl ?_
    rintro l ⟨s, hs⟩
    have := ((hcont1 l).mp ⟨s, hs⟩).2
    rw [line_set_line_ne c _ this]
    exact ⟨rfl, rfl⟩
  obtain ⟨r, hadd, hrM, hrnone, htab2⟩ := @hash_add_spec
    (c.set_line v { tag := t, valid := true, dirty := false })
    { c.set_at i with hashtab := T1 } htab1' v fuel
    hvin (by rw [hline_v]) (by
      intro s l hs
      obtain ⟨hst, hne⟩ := (hcont1 l).mp ⟨s, hs⟩
      refine ⟨hne, ?_⟩
      rw [line_set_line_ne c _ hne, hline_v]
      obtain ⟨s', hs'⟩ := hst
      exact habs s' l hs') hf
  refine ⟨T1.set r (some v), ?_, ?_⟩
  · unfold cache_allocate
    dsimp only
    rw [hv]
    dsimp only [bind, Except.bind]
    rw [hT1]
    dsimp only
    rw [hadd]
    rfl
  · have hilen : i < c.sets.length := by rw [h.nsets_len]; exact hi
    have hset_i : (refilled c i v t (T1.set r (some v))).set_at i =
        { c.set_at i with hashtab := T1.set r (some v) } := set_at_put_set_eq _ _ hilen
    have hset_o : ∀ j, j ≠ i → (refilled c i v t (T1.set r (some v))).set_at j = c.set_at j :=
      fun j hj => set_at_put_set_ne _ _ hj
    have hline_o : ∀ l, l ≠ v → (refilled c i v t (T1.set r (some v))).line l = c.line l :=
      fun l hl => line_set_line_ne c _ hl
    have hline_n : (refilled c i v t (T1.set r (some v))).line v =
        { tag := t, valid := true, dirty := false } := hline_v
    refine ⟨h.assoc_pos, ?_, h.idx_mask, h.nsets_pow, h.bits, ?_, ?_, ?_, ?_, ?_⟩
    · show (c.sets.set i _).length = c.nsets
      rw [List.length_set]; exact h.nsets_len
    · show (c.lines.set v _).length = c.nsets * c.info.assoc
      rw [List.length_set]; exact h.nlines
    · intro j hj
      by_cases hji : j = i
      · subst hji; rw [hset_i]; exact h.first j hj
      · rw [hset_o j hji]; exact h.first j hj
    · intro j hj
      by_cases hji : j = i
      · subst hji
        rw [hset_i]
        refine ⟨tab_inv_frame htab2 rfl rfl (fun _ _ => ⟨rfl, rfl⟩), ?_, hs.nodup, hs.order⟩
        intro l hl hval
        by_cases hlv : l = v
        · subst hlv
          exact ⟨r, getD_set_eq _ _ (by rw [htab1.len]; exact hrM)⟩
        · rw [hline_o l hlv] at hval
          obtain ⟨s, hs'⟩ := (hcont1 l).mpr ⟨hs.present l hl hval, hlv⟩
          have hsr : s ≠ r := by
            rintro rfl
            have e : T1.getD s none = none := hrnone
            rw [e] at hs'; cases hs'
          exact ⟨s, by
            show (T1.set r (some v)).getD s none = some l
            rw [getD_set_ne _ _ (Ne.symm hsr)]; exact hs'⟩
      · rw [hset_o j hji]
        refine set_inv_frame (h.sets j hj) rfl rfl ?_
        intro l hl
        rw [hline_o l (by rintro rfl; exact hji (in_set_disjoint h hj hi hl hvin))]
        exact ⟨rfl, rfl⟩
    · intro l
      by_cases hlv : l = v
      · subst hlv; rw [hline_n]; exact ht
      · rw [hline_o l hlv]; exact h.tag_bound l
    · intro l
      by_cases hlv : l = v
      · subst hlv; rw [hline_n]; intro hd; cases hd
      · rw [hline_o l hlv]; exact h.dirty_valid l

theorem cache_inv_dirty {c : cache} (h : cache_inv c) {l : Nat}
    (hv : (c.line l).valid = true) :
    cache_inv (c.set_line l { c.line l with dirty := true }) := by
  have key : ∀ l', ((c.set_line l { c.line l with dirty := true }).line l').tag = (c.line l').tag ∧
      ((c.set_line l { c.line l with dirty := true }).line l').valid = (c.line l').valid := by
    intro l'
    by_cases hl : l' = l
    · subst hl
      by_cases hlt : l' < c.lines.length
      · rw [line_set_line_eq c _ hlt]; exact ⟨rfl, rfl⟩
      · have : c.set_line l' { c.line l' with dirty := true } = c := by
          unfold cache.set_line
          rw [List.set_eq_of_length_le (by omega)]
        rw [this]; exact ⟨rfl, rfl⟩
    · rw [line_set_line_ne c _ hl]; exact ⟨rfl, rfl⟩
  refine ⟨h.assoc_pos, h.nsets_len, h.idx_mask, h.nsets_pow, h.bits, ?_, h.first, ?_, ?_, ?_⟩
  · show (c.lines.set l _).length = c.nsets * c.info.assoc
    rw [List.length_set]; exact h.nlines
  · intro i hi
    exact set_inv_frame (h.sets i hi) rfl rfl (fun l' _ => key l')
  · intro l'; rw [(key l').1]; exact h.tag_bound l'
  · intro l' _
    rw [(key l').2]
    by_cases hl : l' = l
    · subst hl; exact hv
    · apply h.dirty_valid
      rw [← line_set_line_ne c { c.line l with dirty := true } hl]
      assumption

theorem cache_inv_move {c : cache} (h : cache_inv c) {i l : Nat} (hi : i < c.nsets)
    (hl : in_set c (c.set_at i) l) :
    cache_inv (c.put_set i (moved_front (c.set_at i) l)) := by
  have hilen : i < c.sets.length := by rw [h.nsets_len]; exact hi
  have hs := h.sets i hi
  refine ⟨h.assoc_pos, ?_, h.idx_mask, h.nsets_pow, h.bits, h.nlines, ?_, ?_,
    h.tag_bound, h.dirty_valid⟩
  · show (c.sets.set i _).length = c.nsets
    rw [List.length_set]; exact h.nsets_len
  · intro j hj
    by_cases hji : j = i
    · subst hji; rw [set_at_put_set_eq _ _ hilen]; exact h.first j hj
    · rw [set_at_put_set_ne _ _ hji]; exact h.first j hj
  · intro j hj
    by_cases hji : j = i
    · subst hji
      rw [set_at_put_set_eq _ _ hilen]
      have hmem : l ∈ (c.set_at j).list := (hs.order l).mpr hl
      refine ⟨tab_inv_frame (tab_inv_congr hs.tab rfl rfl) rfl rfl (fun _ _ => ⟨rfl, rfl⟩),
        hs.present, ?_, ?_⟩
      · show (l :: (c.set_at j).list.erase l).Nodup
        exact List.nodup_cons.mpr ⟨hs.nodup.not_mem_erase, hs.nodup.erase l⟩
      · intro l'
        show l' ∈ l :: (c.set_at j).list.erase l ↔ in_set c (c.set_at j) l'
        rw [← hs.order l']
        by_cases hll : l' = l
        · subst hll; simp [hmem]
        · simp [hll, List.mem_erase_of_ne hll]
    · rw [set_at_put_set_ne _ _ hji]
      exact set_inv_frame (h.sets j hj) rfl rfl (fun _ _ => ⟨rfl, rfl⟩)

theorem cache_touch_some (index : Nat) (writing : Bool) (r : access_result) (l : Nat)
    (hl : r.linep = some l) :
    cache_touch index writing r =
      let c1 := dirtied r.c writing l
      let policy := c1.info.flags &&& REPLACE_MASK
      let moved := c1.put_set index (moved_front (c1.set_at index) l)
      if policy = RND ∨ policy = FIFO then
        if r.rc = HIT then .ok { r with c := c1 } else .ok { r with c := moved }
      else if policy = LRU then .ok { r with c := moved }
      else .error .failure := by
  unfold cache_touch
  rw [hl]
  rfl

theorem dirtied_info (c : cache) (w : Bool) (l : Nat) : (dirtied c w l).info = c.info := by
  unfold dirtied; split <;> rfl

theorem dirtied_sets (c : cache) (w : Bool) (l : Nat) : (dirtied c w l).sets = c.sets := by
  unfold dirtied; split <;> rfl

theorem dirtied_set_at (c : cache) (w : Bool) (l i : Nat) :
    (dirtied c w l).set_at i = c.set_at i := by
  unfold dirtied; split <;> rfl

theorem dirtied_nsets (c : cache) (w : Bool) (l : Nat) : (dirtied c w l).nsets = c.nsets := by
  unfold dirtied; split <;> rfl

theorem cache_inv_dirtied {c : cache} (h : cache_inv c) (w : Bool) {l : Nat}
    (hv : (c.line l).valid = true) : cache_inv (dirtied c w l) := by
  unfold dirtied
  split
  · exact cache_inv_dirty h hv
  · exact h

theorem cache_touch_inv {r out : access_result} (h : cache_inv r.c) {i l : Nat} {w : Bool}
    (hi : i < r.c.nsets) (hl : r.linep = some l) (hin : in_set r.c (r.c.set_at i) l)
    (hv : (r.c.line l).valid = true) (ho : cache_touch i w r = .ok out) :
    cache_inv out.c := by
  rw [cache_touch_some i w r l hl] at ho
  have h1 := cache_inv_dirtied h w hv
  have hin1 : in_set (dirtied r.c w l) ((dirtied r.c w l).set_at i) l := by
    rw [dirtied_set_at]; unfold in_set; rw [dirtied_info]; exact hin
  have hi1 : i < (dirtied r.c w l).nsets := by rw [dirtied_nsets]; exact hi
  have h2 := cache_inv_move h1 hi1 hin1
  dsimp only at ho
  split at ho
  · split at ho <;> (cases ho; assumption)
  · split at ho
    · cases ho; assumption
    · cases ho

theorem bind_ok {α β : Type} {x : Except Fault α} {f : α → Except Fault β} {r : β}
    (h : (x >>= f) = .ok r) : ∃ a, x = .ok a ∧ f a = .ok r := by
  cases x with
  | error e => cases h
  | ok a => exact ⟨a, rfl, h⟩

theorem hash_find_loop_mono (c : cache) (set : cache_set) (tag M : Nat) :
    ∀ (f f' slot r : Nat), f ≤ f' → hash_find_loop c set tag M f slot = .ok r →
      hash_find_loop c set tag M f' slot = .ok r := by
  intro f
  induction f with
  | zero => intro f' slot r _ h; cases h
  | succ f ih =>
    intro f' slot r hle h
    obtain ⟨g, rfl⟩ : ∃ g, f' = g + 1 := ⟨f' - 1, by omega⟩
    unfold hash_find_loop at h ⊢
    cases hT : set.hashtab.getD slot none with
    | none => rw [hT] at h; exact h
    | some l =>
      rw [hT] at h
      dsimp only at h ⊢
      split
      · rename_i hv; rw [if_pos hv] at h; exact h
      · rename_i hv
        rw [if_neg hv] at h
        split
        · rename_i ht; rw [if_pos ht] at h; exact h
        · rename_i ht
          rw [if_neg ht] at h
          exact ih g _ r (by omega) h

theorem hash_del_loop_mono (c : cache) (M : Nat) :
    ∀ (f f' : Nat) (T : List (Option Nat)) (i j : Nat) (r : List (Option Nat)), f ≤ f' →
      hash_del_loop c M f T i j = .ok r → hash_del_loop c M f' T i j = .ok r := by
  intro f
  induction f with
  | zero => intro f' T i j r _ h; cases h
  | succ f ih =>
    intro f' T i j r hle h
    obtain ⟨g, rfl⟩ : ∃ g, f' = g + 1 := ⟨f' - 1, by omega⟩
    unfold hash_del_loop at h ⊢
    dsimp only at h ⊢
    generalize (if j + 1 = M then 0 else j + 1) = j' at h ⊢
    cases hT : T.getD j' none with
    | none => rw [hT] at h; exact h
    | some l =>
      rw [hT] at h
      dsimp only at h ⊢
      split
      · rename_i hv; rw [if_pos hv] at h; exact ih g _ _ _ r (by omega) h
      · rename_i hv; rw [if_neg hv] at h; exact ih g _ _ _ r (by omega) h

theorem hash_find_mono {f f' : Nat} (hle : f ≤ f') {c : cache} {set : cache_set} {tag r : Nat}
    (h : hash_find f c set tag = .ok r) : hash_find f' c set tag = .ok r :=
  hash_find_loop_mono c set tag _ f f' _ r hle h

theorem hash_add_mono {f f' : Nat} (hle : f ≤ f') {c : cache} {set r : cache_set} {l : Nat}
    (h : hash_add f c set l = .ok r) : hash_add f' c set l = .ok r := by
  unfold hash_add at h ⊢
  obtain ⟨s, hs, h2⟩ := bind_ok h
  rw [hash_find_mono hle hs]
  exact h2

theorem hash_del_mono {f f' : Nat} (hle : f ≤ f') {c : cache} {set r : cache_set} {l : Nat}
    (h : hash_del f c set l = .ok r) : hash_del f' c set l = .ok r := by
  unfold hash_del at h ⊢
  obtain ⟨s, hs, h2⟩ := bind_ok h
  rw [hash_find_mono hle hs]
  dsimp only [bind, Except.bind] at h2 ⊢
  split at h2
  · cases h2
  · rename_i hn
    rw [if_neg hn]
    cases hd : hash_del_loop c (u32 (1 <<< c.hash_bits)) f (set.hashtab.set s none) s s with
    | error e => rw [hd] at h2; cases h2
    | ok T =>
      rw [hd] at h2
      rw [hash_del_loop_mono c _ f f' _ _ _ T hle hd]
      exact h2

theorem cache_find_tag_mono {f f' : Nat} (hle : f ≤ f') {c : cache} {set : cache_set}
    {tag : Nat} {r : Option Nat} (h : cache_find_tag f c set tag = .ok r) :
    cache_find_tag f' c set tag = .ok r := by
  unfold cache_find_tag at h ⊢
  obtain ⟨s, hs, h2⟩ := bind_ok h
  rw [hash_find_mono hle hs]
  exact h2

theorem cache_allocate_mono {f f' : Nat} (hle : f ≤ f') {c : cache} {i t rnd : Nat}
    {r : access_result} (h : cache_allocate f c i t rnd = .ok r) :
    cache_allocate f' c i t rnd = .ok r := by
  unfold cache_allocate at h ⊢
  dsimp only at h ⊢
  obtain ⟨v, hv, h2⟩ := bind_ok h
  rw [hv]
  obtain ⟨s1, hs1, h3⟩ := bind_ok h2
  obtain ⟨s2, hs2, h4⟩ := bind_ok h3
  have e1 : (if (c.line v).valid = true then hash_del f' c (c.set_at i) v
      else Except.ok (c.set_at i)) = .ok s1 := by
    split
    · rename_i hval; rw [if_pos hval] at hs1; exact hash_del_mono hle hs1
    · rename_i hval; rw [if_neg hval] at hs1; exact hs1
  dsimp only [bind, Except.bind]
  rw [e1]
  dsimp only
  rw [hash_add_mono hle hs2]
  exact h4

theorem cache_access_mono {f f' : Nat} (hle : f ≤ f') {c : cache} {addr rnd : Nat} {w : Bool}
    {r : access_result} (h : cache_access f c addr w rnd = .ok r) :
    cache_access f' c addr w rnd = .ok r := by
  unfold cache_access at h ⊢
  dsimp only at h ⊢
  obtain ⟨found, hfound, h2⟩ := bind_ok h
  rw [cache_find_tag_mono hle hfound]
  cases found with
  | some l => exact h2
  | none =>
    dsimp only [bind, Except.bind] at h2 ⊢
    by_cases ha : (!w || c.info.flags &&& WRITE_ALLOC != 0) = true
    · rw [if_pos ha] at h2 ⊢
      cases hal : cache_allocate f c (addr_index c addr) (addr_tag c addr) rnd with
      | error e => rw [hal] at h2; cases h2
      | ok r1 =>
        rw [hal] at h2
        rw [cache_allocate_mono hle hal]
        exact h2
    · rw [if_neg ha] at h2 ⊢
      exact h2

theorem addr_index_lt {c : cache} (h : cache_inv c) (addr : Nat) :
    addr_index c addr < c.nsets := by
  unfold addr_index
  rw [h.idx_mask, h.nsets_pow]
  exact and_mask_lt _ _ (Nat.pos_pow_of_pos _ (by decide))

theorem addr_tag_lt {c : cache} (h : cache_inv c) {addr : Nat} (ha : addr < 2 ^ 32) :
    addr_tag c addr < 2 ^ (32 - (c.off_bits + c.idx_bits)) := by
  unfold addr_tag
  rw [Nat.shiftRight_eq_div_pow]
  apply Nat.div_lt_of_lt_mul
  rw [← Nat.pow_add]
  have := h.bits
  rw [show c.off_bits + c.idx_bits + (32 - (c.off_bits + c.idx_bits)) = 32 by omega]
  exact ha

/-- The three ways through `cache_access` on a well-formed cache: hit, bypass, refill. -/
theorem cache_access_spec {c : cache} (h : cache_inv c) {addr : Nat} (ha : addr < 2 ^ 32)
    (w : Bool) (rnd : Nat) {fuel : Nat} (hf : hashsize c ≤ fuel) :
    (∃ l, stored (c.set_at (addr_index c addr)) l ∧ (c.line l).tag = addr_tag c addr ∧
      cache_access fuel c addr w rnd = cache_touch (addr_index c addr) w
        { rc := HIT, kickout := none, linep := some l, c := c }) ∨
    ((∀ s l, (c.set_at (addr_index c addr)).hashtab.getD s none = some l →
        (c.line l).tag ≠ addr_tag c addr) ∧
      (((!w || (c.info.flags &&& WRITE_ALLOC != 0)) = false ∧
        cache_access fuel c addr w rnd =
          .ok { rc := MISS_NOKICK, kickout := none, linep := none, c := c }) ∨
       ((!w || (c.info.flags &&& WRITE_ALLOC != 0)) = true ∧
        ((cache_find_victim c (c.set_at (addr_index c addr)) rnd = .error .failure ∧
          cache_access fuel c addr w rnd = .error .failure) ∨
         (∃ v T, cache_find_victim c (c.set_at (addr_index c addr)) rnd = .ok v ∧
          in_set c (c.set_at (addr_index c addr)) v ∧
          cache_inv (refilled c (addr_index c addr) v (addr_tag c addr) T) ∧
          cache_access fuel c addr w rnd = cache_touch (addr_index c addr) w
            (refill_result c (addr_index c addr) v (addr_tag c addr) T)))))) := by
  have hi := addr_index_lt h addr
  have ht := addr_tag_lt h ha
  rcases cache_find_tag_spec (h.sets _ hi).tab (addr_tag c addr) hf with
    ⟨l, hfind, hst, htag⟩ | ⟨hfind, habs⟩
  · left
    refine ⟨l, hst, htag, ?_⟩
    unfold cache_access
    dsimp only
    rw [hfind]
    rfl
  · right
    refine ⟨habs, ?_⟩
    by_cases hal : (!w || (c.info.flags &&& WRITE_ALLOC != 0)) = true
    · right
      refine ⟨hal, ?_⟩
      cases hv : cache_find_victim c (c.set_at (addr_index c addr)) rnd with
      | error e =>
        left
        have he : e = Fault.failure := by
          unfold cache_find_victim at hv
          dsimp only at hv
          split at hv
          · cases hv
          · split at hv
            · split at hv <;> cases hv
            · cases hv; rfl
        subst he
        refine ⟨rfl, ?_⟩
        unfold cache_access
        dsimp only
        rw [hfind]
        dsimp only [bind, Except.bind]
        rw [if_pos hal]
        unfold cache_allocate
        dsimp only
        rw [hv]
        rfl
      | ok v =>
        right
        obtain ⟨hvin, T, hT, hinv⟩ := cache_allocate_spec h hi ht habs hf hv
        refine ⟨v, T, rfl, hvin, hinv, ?_⟩
        unfold cache_access
        dsimp only
        rw [hfind]
        dsimp only [bind, Except.bind]
        rw [if_pos hal, hT]
        rfl
    · left
      have hal' : (!w || (c.info.flags &&& WRITE_ALLOC != 0)) = false := by
        simpa using hal
      refine ⟨hal', ?_⟩
      unfold cache_access
      dsimp only
      rw [hfind]
      dsimp only [bind, Except.bind]
      rw [if_neg hal]
      rfl

theorem refilled_nsets (c : cache) (i v t : Nat) (T : List (Option Nat)) :
    (refilled c i v t T).nsets = c.nsets := rfl

theorem refilled_info (c : cache) (i v t : Nat) (T : List (Option Nat)) :
    (refilled c i v t T).info = c.info := rfl

theorem refilled_line_eq {c : cache} (i : Nat) {v : Nat} (t : Nat) (T : List (Option Nat))
    (hv : v < c.lines.length) :
    (refilled c i v t T).line v = { tag := t, valid := true, dirty := false } :=
  line_set_line_eq c _ hv

theorem refilled_line_ne (c : cache) (i : Nat) {v l : Nat} (t : Nat) (T : List (Option Nat))
    (hl : l ≠ v) : (refilled c i v t T).line l = c.line l :=
  line_set_line_ne c _ hl

theorem refilled_set_at_eq {c : cache} {i : Nat} (v t : Nat) (T : List (Option Nat))
    (hi : i < c.sets.length) :
    (refilled c i v t T).set_at i = { c.set_at i with hashtab := T } :=
  set_at_put_set_eq _ _ hi

theorem refilled_set_at_ne (c : cache) {i j : Nat} (v t : Nat) (T : List (Option Nat))
    (hj : j ≠ i) : (refilled c i v t T).set_at j = c.set_at j :=
  set_at_put_set_ne _ _ hj

/-- Every access that returns leaves a well-formed cache. -/
theorem cache_access_inv {c : cache} (h : cache_inv c) {addr : Nat} (ha : addr < 2 ^ 32)
    {w : Bool} {rnd fuel : Nat} {out : access_result}
    (ho : cache_access fuel c addr w rnd = .ok out) : cache_inv out.c := by
  have ho' := cache_access_mono (Nat.le_max_left fuel (hashsize c)) ho
  have hi := addr_index_lt h addr
  have hilen : addr_index c addr < c.sets.length := by rw [h.nsets_len]; exact hi
  rcases cache_access_spec h ha w rnd (Nat.le_max_right fuel (hashsize c)) with
    ⟨l, ⟨s, hs⟩, _, heq⟩ | ⟨_, ⟨_, heq⟩ | ⟨_, ⟨_, heq⟩ | ⟨v, T, _, hvin, hinv, heq⟩⟩⟩
  · rw [heq] at ho'
    exact cache_touch_inv h hi rfl ((h.sets _ hi).tab.mem s l hs)
      ((h.sets _ hi).tab.valid s l hs) ho'
  · rw [heq] at ho'; cases ho'; exact h
  · rw [heq] at ho'; cases ho'
  · rw [heq] at ho'
    refine cache_touch_inv (r := refill_result c _ v _ T) hinv hi rfl ?_ ?_ ho'
    · show in_set (refilled c _ v _ T) ((refilled c _ v _ T).set_at _) v
      rw [refilled_set_at_eq _ _ _ hilen]
      exact hvin
    · show ((refilled c _ v _ T).line v).valid = true
      rw [refilled_line_eq _ _ _ (in_set_lt h hi hvin)]

theorem pow_two_of_and_pred : ∀ n : Nat, n ≠ 0 → n &&& (n - 1) = 0 → ∃ l, n = 2 ^ l := by
  intro n
  induction n using Nat.strong_induction_on with
  | _ n ih =>
    intro hn hand
    by_cases h1 : n = 1
    · exact ⟨0, by simp [h1]⟩
    have hdiv : (n / 2) &&& ((n - 1) / 2) = 0 := by
      rw [← Nat.and_div_two, hand]
    by_cases hodd : n % 2 = 1
    · exfalso
      have : (n - 1) / 2 = n / 2 := by omega
      rw [this, Nat.and_self] at hdiv
      omega
    · have e : (n - 1) / 2 = n / 2 - 1 := by omega
      rw [e] at hdiv
      obtain ⟨l, hl⟩ := ih (n / 2) (by omega) (by omega) hdiv
      refine ⟨l + 1, ?_⟩
      rw [Nat.pow_succ, ← hl]
      omega

theorem logbase2_loop_pow : ∀ (l fuel acc : Nat), l ≤ fuel →
    logbase2_loop fuel (2 ^ l) acc = acc + l := by
  intro l
  induction l with
  | zero =>
    intro fuel acc _
    cases fuel with
    | zero => rfl
    | succ f => simp [logbase2_loop]
  | succ l ih =>
    intro fuel acc hle
    obtain ⟨f, rfl⟩ : ∃ f, fuel = f + 1 := ⟨fuel - 1, by omega⟩
    unfold logbase2_loop
    have e : 2 ^ (l + 1) >>> 1 = 2 ^ l := by
      rw [Nat.shiftRight_eq_div_pow, Nat.pow_succ]
      simp
    rw [e, if_neg (by positivity), ih f (acc + 1) (by omega)]
    omega

/-- `logbase2` returns the exponent of the power of two it is given. -/
theorem logbase2_ok {n l : Nat} (hn : n < 2 ^ 32) (h : logbase2 n = .ok l) :
    n = 2 ^ l ∧ l < 32 := by
  unfold logbase2 at h
  split at h
  · cases h
  · rename_i hc
    push_neg at hc
    obtain ⟨k, rfl⟩ := pow_two_of_and_pred n hc.1 hc.2
    have hk : k < 32 := (Nat.pow_lt_pow_iff_right (by decide : 1 < 2)).mp hn
    rw [logbase2_loop_pow k 32 0 (by omega)] at h
    cases h
    simp [hk]

theorem init_list_eq (f A : Nat) : init_list f A = (List.range A).map (f + ·) := by
  unfold init_list list_init list_add_tail
  have : ∀ (xs : List Nat) (acc : List Nat),
      xs.foldl (fun l k => l ++ [f + k]) acc = acc ++ xs.map (f + ·) := by
    intro xs
    induction xs with
    | nil => intro acc; simp
    | cons x xs ih => intro acc; simp [ih]
  rw [this]
  simp

theorem one_shiftLeft_u32 {n : Nat} (h : n < 32) : u32 (1 <<< n) = 2 ^ n := by
  unfold u32
  rw [Nat.one_shiftLeft]
  exact Nat.mod_eq_of_lt (Nat.pow_lt_pow_right (by decide) h)

theorem getD_replicate_none (n s : Nat) :
    (List.replicate n (none : Option Nat)).getD s none = none := by
  rw [List.getD_eq_getElem?_getD]
  by_cases h : s < n
  · simp [List.getElem?_replicate, h]
  · simp [List.getElem?_replicate, h]

theorem getD_replicate_line (n l : Nat) (x : cache_line) (hx : x = default) :
    (List.replicate n x).getD l default = x := by
  rw [List.getD_eq_getElem?_getD]
  by_cases h : l < n
  · simp [List.getElem?_replicate, h]
  · simp [List.getElem?_replicate, h, hx]

/-- The shape of the cache that `cache_init` builds. -/
theorem cache_init_shape {info : cache_info} {c : cache} (hcap : info.cap < 2 ^ 32)
    (hblk : info.blksz < 2 ^ 32) (hA : info.assoc < 2 ^ 31) (h : cache_init info = .ok c) :
    ∃ logA logB logC, info.assoc = 2 ^ logA ∧ info.blksz = 2 ^ logB ∧ info.cap = 2 ^ logC ∧
      logA + logB ≤ logC ∧ logC < 32 ∧ logA < 31 ∧
      c = cache_init_sets
        { info := info
          off_bits := logB
          idx_bits := logC - logA - logB
          nlines := 2 ^ (logC - logB)
          nsets := 2 ^ (logC - logA - logB)
          hash_bits := logA + 1
          sets := []
          lines := List.replicate (2 ^ (logC - logB)) ⟨0, false, false⟩ } := by
  unfold cache_init at h
  obtain ⟨logB, hB, h⟩ := bind_ok h
  obtain ⟨logA, hA', h⟩ := bind_ok h
  obtain ⟨logC, hC, h⟩ := bind_ok h
  obtain ⟨eB, lB⟩ := logbase2_ok hblk hB
  obtain ⟨eA, lA⟩ := logbase2_ok (by omega) hA'
  obtain ⟨eC, lC⟩ := logbase2_ok hcap hC
  have lA' : logA < 31 := by
    rw [eA] at hA
    exact (Nat.pow_lt_pow_iff_right (by decide : 1 < 2)).mp hA
  split at h
  · cases h
  · rename_i hle
    refine ⟨logA, logB, logC, eA, eB, eC, by omega, lC, lA', ?_⟩
    have e1 : (logC - logA - logB) % 32 = logC - logA - logB := Nat.mod_eq_of_lt (by omega)
    have e2 : logB % 32 = logB := Nat.mod_eq_of_lt lB
    have e3 : (logA + 1) % 64 = logA + 1 := Nat.mod_eq_of_lt (by omega)
    dsimp only at h
    rw [e1, e2, e3, one_shiftLeft_u32 (show logC - logB < 32 by omega),
      one_shiftLeft_u32 (show logC - logA - logB < 32 by omega)] at h
    cases h
    rfl

theorem cache_init_sets_set_at (c0 : cache) {i : Nat} (hi : i < c0.nsets) :
    (cache_init_sets c0).set_at i =
      { list := init_list (i * c0.info.assoc) c0.info.assoc
        firstline := i * c0.info.assoc
        hashtab := List.replicate (hashsize c0) none } := by
  unfold cache.set_at cache_init_sets hashsize
  simp [List.getD_eq_getElem?_getD, hi]

theorem cache_init_sets_inv (c0 : cache) (hpos : 0 < c0.info.assoc)
    (hmask : u32 (1 <<< c0.idx_bits) = 2 ^ c0.idx_bits) (hnsets : c0.nsets = 2 ^ c0.idx_bits)
    (hbits : c0.off_bits + c0.idx_bits < 32)
    (hnlines : c0.lines.length = c0.nsets * c0.info.assoc)
    (hroom : c0.info.assoc < hashsize c0)
    (hlines : ∀ l, c0.line l = ⟨0, false, false⟩) : cache_inv (cache_init_sets c0) := by
  have hline : ∀ l, (cache_init_sets c0).line l = ⟨0, false, false⟩ := hlines
  have hempty : ∀ s, (List.replicate (hashsize c0) (none : Option Nat)).getD s none = none :=
    fun s => getD_replicate_none _ _
  refine ⟨hpos, ?_, hmask, hnsets, hbits, hnlines, ?_, ?_, ?_, ?_⟩
  · show ((List.range _).map _).length = _
    simp
    rfl
  · intro i hi
    rw [cache_init_sets_set_at c0 hi]
    rfl
  · intro i hi
    rw [cache_init_sets_set_at c0 hi]
    refine ⟨⟨?_, hroom, ?_, ?_, ?_, ?_, ?_⟩, ?_, ?_, ?_⟩
    · show (List.replicate _ _).length = _
      rw [List.length_replicate]; rfl
    · intro s l hs; rw [show (List.replicate (hashsize c0) (none : Option Nat)).getD s none = none from hempty s] at hs; cases hs
    · intro s l hs; rw [show (List.replicate (hashsize c0) (none : Option Nat)).getD s none = none from hempty s] at hs; cases hs
    · intro s s' l hs; rw [show (List.replicate (hashsize c0) (none : Option Nat)).getD s none = none from hempty s] at hs; cases hs
    · intro s s' l l' hs; rw [show (List.replicate (hashsize c0) (none : Option Nat)).getD s none = none from hempty s] at hs; cases hs
    · intro s l hs; rw [show (List.replicate (hashsize c0) (none : Option Nat)).getD s none = none from hempty s] at hs; cases hs
    · intro l _ hv; rw [hline l] at hv; cases hv
    · show (init_list _ _).Nodup
      rw [init_list_eq]
      exact (List.nodup_range _).map (fun a b hab => by simpa using hab)
    · intro l
      show l ∈ init_list _ _ ↔ (i * c0.info.assoc ≤ l ∧ l < i * c0.info.assoc + c0.info.assoc)
      rw [init_list_eq]
      simp only [List.mem_map, List.mem_range]
      constructor
      · rintro ⟨k, hk, rfl⟩; omega
      · rintro ⟨h1, h2⟩; exact ⟨l - i * c0.info.assoc, by omega, by omega⟩
  · intro l; rw [hline l]; positivity
  · intro l hd; rw [hline l] at hd; cases hd

theorem cache_init_inv {info : cache_info} {c : cache} (hcap : info.cap < 2 ^ 32)
    (hblk : info.blksz < 2 ^ 32) (hA : info.assoc < 2 ^ 31) (h : cache_init info = .ok c) :
    cache_inv c ∧ c.info = info ∧ hashsize c = 2 * info.assoc := by
  obtain ⟨logA, logB, logC, eA, eB, eC, hle, lC, lA, rfl⟩ := cache_init_shape hcap hblk hA h
  have hsize : u32 (1 <<< (logA + 1)) = 2 * info.assoc := by
    rw [one_shiftLeft_u32 (by omega), eA, Nat.pow_succ]; ring
  have hpos : 0 < info.assoc := by rw [eA]; positivity
  refine ⟨cache_init_sets_inv _ hpos ?_ rfl ?_ ?_ ?_ ?_, rfl, hsize⟩
  · exact one_shiftLeft_u32 (show logC - logA - logB < 32 by omega)
  · show logB + (logC - logA - logB) < 32
    omega
  · show (List.replicate _ _).length = 2 ^ (logC - logA - logB) * info.assoc
    rw [List.length_replicate, eA, ← Nat.pow_add]
    congr 1; omega
  · show info.assoc < u32 (1 <<< (logA + 1))
    omega
  · exact fun l => getD_replicate_line _ l _ rfl

theorem resident_iff (c : cache) (addr : Nat) :
    resident c addr ↔ ∃ l, in_set c (c.set_at (addr_index c addr)) l ∧
      (c.line l).valid = true ∧ (c.line l).tag = addr_tag c addr := by
  unfold resident in_set
  constructor
  · rintro ⟨k, hk, hv, ht⟩
    exact ⟨_, ⟨Nat.le_add_right _ _, Nat.add_lt_add_left hk _⟩, hv, ht⟩
  · rintro ⟨l, ⟨h1, h2⟩, hv, ht⟩
    refine ⟨l - (c.set_at (addr_index c addr)).firstline, by omega, ?_, ?_⟩
    · rw [Nat.add_sub_cancel' h1]; exact hv
    · rw [Nat.add_sub_cancel' h1]; exact ht

theorem same_geom_refl (c : cache) : same_geom c c := ⟨rfl, rfl, rfl, rfl, rfl, rfl⟩

theorem same_geom_trans {a b c : cache} (h1 : same_geom a b) (h2 : same_geom b c) :
    same_geom a c := by
  unfold same_geom at *
  refine ⟨?_, ?_, ?_, ?_, ?_, ?_⟩
  · rw [h2.1, h1.1]
  · rw [h2.2.1, h1.2.1]
  · rw [h2.2.2.1, h1.2.2.1]
  · rw [h2.2.2.2.1, h1.2.2.2.1]
  · rw [h2.2.2.2.2.1, h1.2.2.2.2.1]
  · rw [h2.2.2.2.2.2, h1.2.2.2.2.2]

theorem same_geom_dirtied (c : cache) (w : Bool) (l : Nat) : same_geom c (dirtied c w l) := by
  unfold dirtied; split
  · exact ⟨rfl, rfl, rfl, rfl, rfl, rfl⟩
  · exact same_geom_refl c

/-- What the tail of `cache_access` returns for a line `l`. -/
theorem cache_touch_ok {i : Nat} {w : Bool} {r out : access_result} {l : Nat}
    (hl : r.linep = some l) (h : cache_touch i w r = .ok out) :
    out.rc = r.rc ∧ out.kickout = r.kickout ∧ out.linep = some l ∧
    ((out.c = dirtied r.c w l ∧ r.rc = HIT ∧
        (r.c.info.flags &&& REPLACE_MASK = RND ∨ r.c.info.flags &&& REPLACE_MASK = FIFO)) ∨
     (out.c = (dirtied r.c w l).put_set i (moved_front ((dirtied r.c w l).set_at i) l) ∧
        ((r.rc ≠ HIT ∧ (r.c.info.flags &&& REPLACE_MASK = RND ∨
            r.c.info.flags &&& REPLACE_MASK = FIFO)) ∨
          r.c.info.flags &&& REPLACE_MASK = LRU))) := by
  rw [cache_touch_some i w r l hl] at h
  dsimp only at h
  rw [dirtied_info] at h
  split at h
  · rename_i hp
    split at h
    · rename_i hrc
      cases h
      exact ⟨rfl, rfl, hl, Or.inl ⟨rfl, hrc, hp⟩⟩
    · rename_i hrc
      cases h
      exact ⟨rfl, rfl, hl, Or.inr ⟨rfl, Or.inl ⟨hrc, hp⟩⟩⟩
  · split at h
    · rename_i hp
      cases h
      exact ⟨rfl, rfl, hl, Or.inr ⟨rfl, Or.inr hp⟩⟩
    · cases h

theorem cache_touch_geom {i : Nat} {w : Bool} {r out : access_result} {l : Nat}
    (hl : r.linep = some l) (h : cache_touch i w r = .ok out) : same_geom r.c out.c := by
  obtain ⟨_, _, _, ⟨hc, _⟩ | ⟨hc, _⟩⟩ := cache_touch_ok hl h
  · rw [hc]; exact same_geom_dirtied _ _ _
  · rw [hc]
    exact same_geom_trans (same_geom_dirtied r.c w l) ⟨rfl, rfl, rfl, rfl, rfl, rfl⟩

theorem cache_access_geom {c : cache} (h : cache_inv c) {addr : Nat} (ha : addr < 2 ^ 32)
    {w : Bool} {rnd fuel : Nat} {out : access_result}
    (ho : cache_access fuel c addr w rnd = .ok out) : same_geom c out.c := by
  have ho' := cache_access_mono (Nat.le_max_left fuel (hashsize c)) ho
  rcases cache_access_spec h ha w rnd (Nat.le_max_right fuel (hashsize c)) with
    ⟨l, _, _, heq⟩ | ⟨_, ⟨_, heq⟩ | ⟨_, ⟨_, heq⟩ | ⟨v, T, _, _, _, heq⟩⟩⟩
  · rw [heq] at ho'
    exact cache_touch_geom rfl ho'
  · rw [heq] at ho'; cases ho'; exact same_geom_refl c
  · rw [heq] at ho'; cases ho'
  · rw [heq] at ho'
    exact same_geom_trans (b := refilled c (addr_index c addr) v (addr_tag c addr) T)
      ⟨rfl, rfl, rfl, rfl, rfl, rfl⟩ (cache_touch_geom (r := refill_result c _ v _ T) rfl ho')

/-- Every reachable cache is well formed and keeps the geometry of its construction. -/
theorem reachable_inv {info : cache_info} (hcfg : config_ok info) {c : cache}
    (hr : Reachable info c) : cache_inv c ∧ c.info = info ∧ hashsize c = 2 * info.assoc := by
  induction hr with
  | init h => exact cache_init_inv hcfg.2.2 hcfg.2.1 hcfg.1 h
  | step _ ha ho ih =>
    obtain ⟨hinv, hinfo, hsize⟩ := ih
    have hg := cache_access_geom hinv ha ho
    refine ⟨cache_access_inv hinv ha ho, hg.1.trans hinfo, ?_⟩
    rw [← hsize]
    unfold hashsize
    rw [hg.2.2.2.1]

theorem set_inv.unique {c : cache} {set : cache_set} (h : set_inv c set) {l l' : Nat}
    (h1 : in_set c set l) (h2 : (c.line l).valid = true) (h3 : in_set c set l')
    (h4 : (c.line l').valid = true) (h5 : (c.line l).tag = (c.line l').tag) : l = l' := by
  obtain ⟨s, hs⟩ := h.present l h1 h2
  obtain ⟨s', hs'⟩ := h.present l' h3 h4
  exact h.tab.tags s s' l l' hs hs' h5

/-- The hash lookup and the linear search of the order list agree on a well-formed set. -/
theorem cache_find_tag_eq_linear {c : cache} {set : cache_set} (h : set_inv c set)
    (tag : Nat) {fuel : Nat} (hf : hashsize c ≤ fuel) :
    cache_find_tag fuel c set tag = .ok (cache_find_tag_linear c set tag) := by
  rcases cache_find_tag_spec h.tab tag hf with ⟨l, hfind, ⟨s, hs⟩, htag⟩ | ⟨hfind, habs⟩
  · rw [hfind]
    have hin := h.tab.mem s l hs
    have hval := h.tab.valid s l hs
    cases hlin : cache_find_tag_linear c set tag with
    | none =>
      exfalso
      unfold cache_find_tag_linear at hlin
      have := List.find?_eq_none.mp hlin l ((h.order l).mpr hin)
      simp [hval, htag] at this
    | some l' =>
      unfold cache_find_tag_linear at hlin
      have hp := List.find?_some hlin
      have hm := List.mem_of_find?_eq_some hlin
      simp only [Bool.and_eq_true, beq_iff_eq] at hp
      have := h.unique hin hval ((h.order l').mp hm) hp.1 (htag.trans hp.2.symm)
      rw [this]
  · rw [hfind]
    cases hlin : cache_find_tag_linear c set tag with
    | none => rfl
    | some l' =>
      exfalso
      unfold cache_find_tag_linear at hlin
      have hp := List.find?_some hlin
      have hm := List.mem_of_find?_eq_some hlin
      simp only [Bool.and_eq_true, beq_iff_eq] at hp
      obtain ⟨s, hs⟩ := h.present l' ((h.order l').mp hm) hp.1
      exact habs s l' hs hp.2

theorem cache_find_tag_linear_some {c : cache} {set : cache_set} (h : set_inv c set)
    {tag l : Nat} (h1 : in_set c set l) (h2 : (c.line l).valid = true)
    (h3 : (c.line l).tag = tag) : cache_find_tag_linear c set tag = some l := by
  cases hlin : cache_find_tag_linear c set tag with
  | none =>
    exfalso
    unfold cache_find_tag_linear at hlin
    have := List.find?_eq_none.mp hlin l ((h.order l).mpr h1)
    simp [h2, h3] at this
  | some l' =>
    unfold cache_find_tag_linear at hlin
    have hp := List.find?_some hlin
    have hm := List.mem_of_find?_eq_some hlin
    simp only [Bool.and_eq_true, beq_iff_eq] at hp
    rw [h.unique h1 h2 ((h.order l').mp hm) hp.1 (h3.trans hp.2.symm)]

theorem cache_find_tag_linear_none {c : cache} {set : cache_set} (h : set_inv c set)
    {tag : Nat} (h1 : ¬ ∃ l, in_set c set l ∧ (c.line l).valid = true ∧ (c.line l).tag = tag) :
    cache_find_tag_linear c set tag = none := by
  unfold cache_find_tag_linear
  rw [List.find?_eq_none]
  intro l hl hp
  simp only [Bool.and_eq_true, beq_iff_eq] at hp
  exact h1 ⟨l, (h.order l).mp hl, hp.1, hp.2⟩

/-- On a well-formed cache an access returns `HIT` exactly for a resident block. -/
theorem cache_access_hit_iff {c : cache} (h : cache_inv c) {addr : Nat} (ha : addr < 2 ^ 32)
    {w : Bool} {rnd fuel : Nat} {out : access_result}
    (ho : cache_access fuel c addr w rnd = .ok out) : out.rc = HIT ↔ resident c addr := by
  have ho' := cache_access_mono (Nat.le_max_left fuel (hashsize c)) ho
  have hi := addr_index_lt h addr
  have hs := h.sets _ hi
  have hmiss : (∀ s l, (c.set_at (addr_index c addr)).hashtab.getD s none = some l →
      (c.line l).tag ≠ addr_tag c addr) → ¬ resident c addr := by
    intro habs hres
    obtain ⟨l, hin, hv, ht⟩ := (resident_iff c addr).mp hres
    obtain ⟨s, hs'⟩ := hs.present l hin hv
    exact habs s l hs' ht
  rcases cache_access_spec h ha w rnd (Nat.le_max_right fuel (hashsize c)) with
    ⟨l, ⟨s, hst⟩, htag, heq⟩ | ⟨habs, ⟨_, heq⟩ | ⟨_, ⟨_, heq⟩ | ⟨v, T, _, _, _, heq⟩⟩⟩
  · rw [heq] at ho'
    have := (cache_touch_ok rfl ho').1
    exact ⟨fun _ => (resident_iff c addr).mpr
      ⟨l, hs.tab.mem s l hst, hs.tab.valid s l hst, htag⟩, fun _ => this⟩
  · rw [heq] at ho'; cases ho'
    exact ⟨fun hc => (by cases hc), fun hc => absurd hc (hmiss habs)⟩
  · rw [heq] at ho'; cases ho'
  · rw [heq] at ho'
    have hrc := (cache_touch_ok (r := refill_result c _ v _ T) rfl ho').1
    have hne : out.rc ≠ HIT := by
      rw [hrc]
      unfold refill_result
      dsimp only
      split <;> decide
    exact ⟨fun hc => absurd hc hne, fun hc => absurd hc (hmiss habs)⟩

theorem run_reachable {info : cache_info} {fuel : Nat} :
    ∀ (accs : List access) (c c' : cache) (outs : List access_result), Reachable info c →
      (∀ a ∈ accs, a.addr < 2 ^ 32) → run fuel c accs = .ok (c', outs) → Reachable info c' := by
  intro accs
  induction accs with
  | nil =>
    intro c c' outs hr _ h
    unfold run at h
    cases h
    exact hr
  | cons a rest ih =>
    intro c c' outs hr ha h
    unfold run at h
    cases ho : cache_access fuel c a.addr a.writing a.rnd with
    | error e => rw [ho] at h; cases h
    | ok out =>
      rw [ho] at h
      dsimp only at h
      cases hrest : run fuel out.c rest with
      | error e => rw [hrest] at h; cases h
      | ok p =>
        obtain ⟨c2, outs2⟩ := p
        rw [hrest] at h
        cases h
        exact ih out.c _ outs2 (Reachable.step hr (ha a (List.mem_cons_self _ _)) ho)
          (fun b hb => ha b (List.mem_cons_of_mem _ hb)) hrest

theorem cache_after_reachable {info : cache_info} (fuel : Nat) (accs : List access) {c : cache}
    (ha : ∀ a ∈ accs, a.addr < 2 ^ 32) (h : cache_after fuel info accs = .ok c) :
    Reachable info c := by
  unfold cache_after at h
  cases h0 : cache_init info with
  | error e => rw [h0] at h; cases h
  | ok c0 =>
    rw [h0] at h
    dsimp only at h
    cases hrun : run fuel c0 accs with
    | error e => rw [hrun] at h; cases h
    | ok p =>
      obtain ⟨c2, outs2⟩ := p
      rw [hrun] at h
      cases h
      exact run_reachable accs c0 _ outs2 (Reachable.init h0) ha hrun

/-- Claim C1: in every state reachable from a freshly initialised cache by calls of
`cache_access`, for every set and every tag, the hash lookup `cache_find_tag` returns
(with a step budget of at least the table size) exactly what the linear search of the
set's lines for a valid line with the tag returns; a valid line holding the tag is found,
nothing is found when no valid line of the set holds the tag, and `cache_access` returns
`HIT` exactly when the addressed block is resident in its set. -/
theorem cache_find_tag_refines_linear_search (info : cache_info) (hcfg : config_ok info)
    (c : cache) (hr : Reachable info c) (index tag fuel : Nat) (hi : index < c.nsets)
    (hf : 2 * info.assoc ≤ fuel) :
    cache_find_tag fuel c (c.set_at index) tag =
        .ok (cache_find_tag_linear c (c.set_at index) tag) ∧
      (∀ l, in_set c (c.set_at index) l → (c.line l).valid = true → (c.line l).tag = tag →
        cache_find_tag fuel c (c.set_at index) tag = .ok (some l)) ∧
      ((¬ ∃ l, in_set c (c.set_at index) l ∧ (c.line l).valid = true ∧ (c.line l).tag = tag) →
        cache_find_tag fuel c (c.set_at index) tag = .ok none) ∧
      (∀ (addr : Nat) (w : Bool) (rnd : Nat) (out : access_result), addr < 2 ^ 32 →
        cache_access fuel c addr w rnd = .ok out → (out.rc = HIT ↔ resident c addr)) := by
  obtain ⟨hinv, _, hsize⟩ := reachable_inv hcfg hr
  have hf' : hashsize c ≤ fuel := by rw [hsize]; exact hf
  have hs := hinv.sets index hi
  have heq := cache_find_tag_eq_linear hs tag hf'
  refine ⟨heq, ?_, ?_, ?_⟩
  · intro l h1 h2 h3
    rw [heq, cache_find_tag_linear_some hs h1 h2 h3]
  · intro h1
    rw [heq, cache_find_tag_linear_none hs h1]
  · intro addr w rnd out ha ho
    exact cache_access_hit_iff hinv ha ho

theorem scenario_cache_reachable : Reachable scenario_info scenario_cache :=
  cache_after_reachable 4 [⟨0x00, true, 0⟩, ⟨0x08, true, 0⟩, ⟨0x10, true, 0⟩] (by decide) rfl

theorem cache_find_tag_refines_linear_search_witness :
    cache_find_tag 4 scenario_cache (scenario_cache.set_at 0) 2 =
        .ok (cache_find_tag_linear scenario_cache (scenario_cache.set_at 0) 2) ∧
      cache_find_tag_linear scenario_cache (scenario_cache.set_at 0) 2 = some 1 :=
  ⟨(cache_find_tag_refines_linear_search scenario_info (by unfold config_ok; decide)
      scenario_cache scenario_cache_reachable 0 2 4 (by decide) (by decide)).1, by decide⟩

theorem reachable_blksz {info : cache_info} (hcfg : config_ok info) {c : cache}
    (hr : Reachable info c) : c.info.blksz = 2 ^ c.off_bits := by
  induction hr with
  | init h =>
    obtain ⟨logA, logB, logC, _, eB, _, _, _, _, rfl⟩ :=
      cache_init_shape hcfg.2.2 hcfg.2.1 hcfg.1 h
    exact eB
  | step hr' ha ho ih =>
    obtain ⟨hinv, _, _⟩ := reachable_inv hcfg hr'
    have hg := cache_access_geom hinv ha ho
    rw [hg.1, hg.2.2.1]
    exact ih

theorem addr_index_eq {c : cache} (h : cache_inv c) (addr : Nat) :
    addr_index c addr = addr / 2 ^ c.off_bits % 2 ^ c.idx_bits := by
  unfold addr_index
  rw [h.idx_mask, Nat.and_pow_two_sub_one_eq_mod, Nat.shiftRight_eq_div_pow]

theorem addr_tag_eq (c : cache) (addr : Nat) :
    addr_tag c addr = addr / 2 ^ c.off_bits / 2 ^ c.idx_bits := by
  unfold addr_tag
  rw [Nat.shiftRight_eq_div_pow, Nat.pow_add, Nat.div_div_eq_div_mul]

/-- The block base of a tag and an index that fit their fields, without wrap-around. -/
theorem block_base_eq {c : cache} (h : cache_inv c) {t i : Nat}
    (ht : t < 2 ^ (32 - (c.off_bits + c.idx_bits))) (hi : i < 2 ^ c.idx_bits) :
    block_base c t i = (t * 2 ^ c.idx_bits + i) * 2 ^ c.off_bits ∧
      (t * 2 ^ c.idx_bits + i) * 2 ^ c.off_bits < 2 ^ 32 := by
  have hb := h.bits
  have h1 : t * 2 ^ c.idx_bits + i < 2 ^ (32 - c.off_bits) := by
    have e : 2 ^ (32 - c.off_bits) = 2 ^ (32 - (c.off_bits + c.idx_bits)) * 2 ^ c.idx_bits := by
      rw [← Nat.pow_add]; congr 1; omega
    rw [e]
    have : (t + 1) * 2 ^ c.idx_bits ≤ 2 ^ (32 - (c.off_bits + c.idx_bits)) * 2 ^ c.idx_bits :=
      Nat.mul_le_mul_right _ ht
    have e2 : (t + 1) * 2 ^ c.idx_bits = t * 2 ^ c.idx_bits + 2 ^ c.idx_bits := by ring
    omega
  have h2 : (t * 2 ^ c.idx_bits + i) * 2 ^ c.off_bits < 2 ^ 32 := by
    have e : 2 ^ 32 = 2 ^ (32 - c.off_bits) * 2 ^ c.off_bits := by
      rw [← Nat.pow_add]; congr 1; omega
    rw [e]
    exact Nat.mul_lt_mul_of_pos_right h1 (by positivity)
  have h3 : t * 2 ^ c.idx_bits < 2 ^ 32 := by
    have : 2 ^ (32 - c.off_bits) ≤ 2 ^ 32 := Nat.pow_le_pow_right (by decide) (by omega)
    omega
  refine ⟨?_, h2⟩
  unfold block_base u32
  rw [Nat.shiftLeft_eq, Nat.shiftLeft_eq, Nat.mod_eq_of_lt h3]
  have e4 : t * 2 ^ c.idx_bits ||| i = t * 2 ^ c.idx_bits + i := by
    rw [Nat.mul_comm, ← Nat.mul_add_lt_is_or hi]
  rw [e4, Nat.mod_eq_of_lt h2]

theorem block_base_fields {c : cache} (h : cache_inv c) {t i : Nat}
    (ht : t < 2 ^ (32 - (c.off_bits + c.idx_bits))) (hi : i < 2 ^ c.idx_bits) :
    addr_tag c (block_base c t i) = t ∧ addr_index c (block_base c t i) = i ∧
      block_base c t i % 2 ^ c.off_bits = 0 ∧ block_base c t i < 2 ^ 32 := by
  obtain ⟨e, hlt⟩ := block_base_eq h ht hi
  have hdiv : block_base c t i / 2 ^ c.off_bits = t * 2 ^ c.idx_bits + i := by
    rw [e]; exact Nat.mul_div_cancel _ (by positivity)
  refine ⟨?_, ?_, ?_, e ▸ hlt⟩
  · rw [addr_tag_eq, hdiv, Nat.mul_comm, Nat.mul_add_div (by positivity),
      Nat.div_eq_of_lt hi]
    rfl
  · rw [addr_index_eq h, hdiv, Nat.mul_comm, Nat.mul_add_mod, Nat.mod_eq_of_lt hi]
  · rw [e]; exact Nat.mul_mod_left _ _

theorem block_base_of_addr {c : cache} (h : cache_inv c) {addr : Nat} (ha : addr < 2 ^ 32) :
    block_base c (addr_tag c addr) (addr_index c addr) = addr - addr % 2 ^ c.off_bits := by
  have hi : addr_index c addr < 2 ^ c.idx_bits := by
    rw [← h.nsets_pow]; exact addr_index_lt h addr
  rw [(block_base_eq h (addr_tag_lt h ha) hi).1, addr_tag_eq, addr_index_eq h,
    Nat.div_add_mod' (addr / 2 ^ c.off_bits) (2 ^ c.idx_bits)]
  have := Nat.div_add_mod' addr (2 ^ c.off_bits)
  omega

theorem and_not_mask {a o : Nat} (ha : a < 2 ^ 32) (ho : o < 32) :
    a &&& (2 ^ 32 - 2 ^ o) = a - a % 2 ^ o := by
  have e1 : 2 ^ 32 - 2 ^ o = (2 ^ (32 - o) - 1) <<< o := by
    rw [Nat.shiftLeft_eq, Nat.sub_mul, ← Nat.pow_add, Nat.one_mul]
    congr 2; omega
  have e2 : a - a % 2 ^ o = (a >>> o) <<< o := by
    rw [Nat.shiftLeft_eq, Nat.shiftRight_eq_div_pow]
    have := Nat.div_add_mod' a (2 ^ o)
    omega
  rw [e1, e2]
  apply Nat.eq_of_testBit_eq
  intro j
  simp only [Nat.testBit_and, Nat.testBit_shiftLeft, Nat.testBit_two_pow_sub_one,
    Nat.testBit_shiftRight]
  by_cases hj : o ≤ j
  · have e3 : o + (j - o) = j := by omega
    simp only [ge_iff_le, hj, decide_True, Bool.true_and, e3]
    by_cases hj2 : j - o < 32 - o
    · simp [hj2]
    · have : a.testBit j = false := by
        apply Nat.testBit_lt_two_pow
        calc a < 2 ^ 32 := ha
          _ ≤ 2 ^ j := Nat.pow_le_pow_right (by decide) (by omega)
      simp [this]
  · simp [hj]

/-- Claim C6: with write-allocate off, in every reachable state a write to an address whose
block is not resident returns `MISS_NOKICK`, stores no kickout address, touches no line,
and leaves the cache exactly as it was (lines, order lists and hash tables). -/
theorem write_miss_no_allocate_leaves_cache (info : cache_info) (hcfg : config_ok info)
    (hwa : info.flags &&& WRITE_ALLOC = 0) (c : cache) (hr : Reachable info c)
    (addr rnd fuel : Nat) (ha : addr < 2 ^ 32) (hmiss : ¬ resident c addr)
    (hf : 2 * info.assoc ≤ fuel) :
    cache_access fuel c addr true rnd =
      .ok { rc := MISS_NOKICK, kickout := none, linep := none, c := c } := by
  obtain ⟨hinv, hinfo, hsize⟩ := reachable_inv hcfg hr
  have hf' : hashsize c ≤ fuel := by rw [hsize]; exact hf
  have hi := addr_index_lt hinv addr
  have hs := hinv.sets _ hi
  rcases cache_access_spec hinv ha true rnd hf' with
    ⟨l, ⟨s, hst⟩, htag, _⟩ | ⟨_, ⟨_, heq⟩ | ⟨hal, _⟩⟩
  · exact absurd ((resident_iff c addr).mpr
      ⟨l, hs.tab.mem s l hst, hs.tab.valid s l hst, htag⟩) hmiss
  · exact heq
  · rw [hinfo, hwa] at hal
    cases hal

theorem write_miss_no_allocate_leaves_cache_witness :
    cache_access 4 { scenario_cache with info := { scenario_info with flags := 0 } }
        0x20 true 0 =
      .ok { rc := MISS_NOKICK, kickout := none, linep := none
            c := { scenario_cache with info := { scenario_info with flags := 0 } } } :=
  write_miss_no_allocate_leaves_cache { scenario_info with flags := 0 }
    (by unfold config_ok; decide) (by decide)
    { scenario_cache with info := { scenario_info with flags := 0 } }
    (cache_after_reachable 4
      ([⟨0x00, false, 0⟩, ⟨0x00, true, 0⟩, ⟨0x08, false, 0⟩, ⟨0x08, true, 0⟩,
        ⟨0x10, false, 0⟩, ⟨0x10, true, 0⟩]) (by decide) rfl)
    0x20 0 4 (by decide) (by decide) (by decide)

/-- Claim C10: address decomposition and block-base recomposition are inverse.  In every
reachable cache (`off_bits + idx_bits < 32`) and for every 32-bit address, the block base
recomputed from the tag and the index of the address is the address with its low
`off_bits` cleared (`a & ~(B-1)`), and it decomposes into the same index and tag; hence a
kickout address stored by `cache_access` is the block base of the dirty victim line: it
is block-aligned, maps to the set of the address that caused the eviction, and carries
the tag that the victim line held. -/
theorem block_base_inverts_decomposition (info : cache_info) (hcfg : config_ok info)
    (c : cache) (hr : Reachable info c) (addr : Nat) (ha : addr < 2 ^ 32) :
    c.off_bits + c.idx_bits < 32 ∧
    block_base c (addr_tag c addr) (addr_index c addr) = addr - addr % c.info.blksz ∧
    block_base c (addr_tag c addr) (addr_index c addr) = addr &&& (2 ^ 32 - c.info.blksz) ∧
    addr_index c (block_base c (addr_tag c addr) (addr_index c addr)) = addr_index c addr ∧
    addr_tag c (block_base c (addr_tag c addr) (addr_index c addr)) = addr_tag c addr ∧
    ∀ (w : Bool) (rnd fuel : Nat) (out : access_result) (k : Nat),
      cache_access fuel c addr w rnd = .ok out → out.kickout = some k →
      ∃ v, out.linep = some v ∧ in_set c (c.set_at (addr_index c addr)) v ∧
        (c.line v).dirty = true ∧ out.rc = MISS_KICK ∧
        k = block_base c (c.line v).tag (addr_index c addr) ∧
        k % c.info.blksz = 0 ∧ k < 2 ^ 32 ∧
        addr_index c k = addr_index c addr ∧ addr_tag c k = (c.line v).tag := by
  obtain ⟨hinv, _, _⟩ := reachable_inv hcfg hr
  have hB := reachable_blksz hcfg hr
  have hi : addr_index c addr < 2 ^ c.idx_bits := by
    rw [← hinv.nsets_pow]; exact addr_index_lt hinv addr
  have hfields := block_base_fields hinv (addr_tag_lt hinv ha) hi
  have hbase := block_base_of_addr hinv ha
  refine ⟨hinv.bits, ?_, ?_, hfields.2.1, hfields.1, ?_⟩
  · rw [hB]; exact hbase
  · rw [hB, and_not_mask ha (by have := hinv.bits; omega)]; exact hbase
  · intro w rnd fuel out k ho hk
    have ho' := cache_access_mono (Nat.le_max_left fuel (hashsize c)) ho
    rcases cache_access_spec hinv ha w rnd (Nat.le_max_right fuel (hashsize c)) with
      ⟨l, _, _, heq⟩ | ⟨_, ⟨_, heq⟩ | ⟨_, ⟨_, heq⟩ | ⟨v, T, _, hvin, _, heq⟩⟩⟩
    · rw [heq] at ho'
      have := (cache_touch_ok rfl ho').2.1
      rw [hk] at this
      cases this
    · rw [heq] at ho'; cases ho'; cases hk
    · rw [heq] at ho'; cases ho'
    · rw [heq] at ho'
      obtain ⟨hrc, hkick, hlp, _⟩ := cache_touch_ok (r := refill_result c _ v _ T) rfl ho'
      rw [hk] at hkick
      unfold refill_result at hkick hrc
      dsimp only at hkick hrc
      by_cases hd : (c.line v).dirty = true
      · rw [if_pos hd] at hkick hrc
        have hk' : k = block_base c (c.line v).tag (addr_index c addr) := Option.some.inj hkick
        have hf := block_base_fields hinv (hinv.tag_bound v) hi
        rw [← hk'] at hf
        refine ⟨v, hlp, hvin, hd, hrc, hk', ?_, hf.2.2.2, hf.2.1, hf.1⟩
        rw [hB]; exact hf.2.2.1
      · rw [if_neg hd] at hkick
        cases hkick

theorem block_base_inverts_decomposition_witness :
    block_base scenario_cache (addr_tag scenario_cache 0x1b) (addr_index scenario_cache 0x1b) =
        0x1b - 0x1b % 4 ∧
      (cache_access 4 scenario_cache 0x1b false 0).toOption.bind (·.kickout) = some 8 :=
  ⟨(block_base_inverts_decomposition scenario_info (by unfold config_ok; decide)
      scenario_cache scenario_cache_reachable 0x1b (by decide)).2.1, by decide⟩

theorem dirtied_line (c : cache) (w : Bool) (l l' : Nat) :
    ((dirtied c w l).line l').tag = (c.line l').tag ∧
      ((dirtied c w l).line l').valid = (c.line l').valid := by
  unfold dirtied
  split
  · by_cases hl : l' = l
    · subst hl
      by_cases hlt : l' < c.lines.length
      · rw [line_set_line_eq c _ hlt]; exact ⟨rfl, rfl⟩
      · have : c.set_line l' { c.line l' with dirty := true } = c := by
          unfold cache.set_line
          rw [List.set_eq_of_length_le (by omega)]
        rw [this]; exact ⟨rfl, rfl⟩
    · rw [line_set_line_ne c _ hl]; exact ⟨rfl, rfl⟩
  · exact ⟨rfl, rfl⟩

theorem dirtied_line_ne (c : cache) (w : Bool) {l l' : Nat} (h : l' ≠ l) :
    (dirtied c w l).line l' = c.line l' := by
  unfold dirtied
  split
  · exact line_set_line_ne c _ h
  · rfl

theorem dirtied_sets_length (c : cache) (w : Bool) (l : Nat) :
    (dirtied c w l).sets.length = c.sets.length := by rw [dirtied_sets]

theorem known_policy_of_touch {i : Nat} {w : Bool} {r out : access_result} {l : Nat}
    (hl : r.linep = some l) (h : cache_touch i w r = .ok out) : known_policy r.c := by
  obtain ⟨_, _, _, ⟨_, _, hp⟩ | ⟨_, ⟨_, hp⟩ | hp⟩⟩ := cache_touch_ok hl h
  · rcases hp with hp | hp
    · exact Or.inr (Or.inl hp)
    · exact Or.inr (Or.inr hp)
  · rcases hp with hp | hp
    · exact Or.inr (Or.inl hp)
    · exact Or.inr (Or.inr hp)
  · exact Or.inl hp

theorem policy_lru_cases {c : cache} (h : c.info.flags &&& REPLACE_MASK = LRU) :
    ¬ (c.info.flags &&& REPLACE_MASK = RND ∨ c.info.flags &&& REPLACE_MASK = FIFO) := by
  rw [h]; decide

/-- The order lists after the tail of `cache_access`. -/
theorem cache_touch_lists {i : Nat} {w : Bool} {r out : access_result} {l : Nat}
    (hi : i < r.c.sets.length) (hl : r.linep = some l) (h : cache_touch i w r = .ok out)
    (j : Nat) :
    (out.c.set_at j).list = list_after r.c i (some l) r.rc j := by
  unfold list_after
  dsimp only
  obtain ⟨_, _, _, ⟨hc, hrc, hp⟩ | ⟨hc, hp⟩⟩ := cache_touch_ok hl h
  · rw [hc, dirtied_set_at, if_neg]
    rintro ⟨_, h1 | h1⟩
    · exact policy_lru_cases h1 hp
    · exact h1 hrc
  · rw [hc]
    have hcond : r.c.info.flags &&& REPLACE_MASK = LRU ∨ r.rc ≠ HIT := by
      rcases hp with ⟨h1, _⟩ | h1
      · exact Or.inr h1
      · exact Or.inl h1
    by_cases hji : j = i
    · subst hji
      rw [set_at_put_set_eq _ _ (by rw [dirtied_sets_length]; exact hi), if_pos ⟨rfl, hcond⟩,
        dirtied_set_at]
      rfl
    · rw [set_at_put_set_ne _ _ hji, dirtied_set_at, if_neg (fun hc' => hji hc'.1)]

theorem cache_touch_line {i : Nat} {w : Bool} {r out : access_result} {l : Nat}
    (hl : r.linep = some l) (h : cache_touch i w r = .ok out) (l' : Nat) :
    (out.c.line l').tag = (r.c.line l').tag ∧ (out.c.line l').valid = (r.c.line l').valid ∧
      (l' ≠ l → out.c.line l' = r.c.line l') := by
  obtain ⟨_, _, _, ⟨hc, _⟩ | ⟨hc, _⟩⟩ := cache_touch_ok hl h
  · rw [hc]
    exact ⟨(dirtied_line _ _ _ _).1, (dirtied_line _ _ _ _).2, fun hne => dirtied_line_ne _ _ hne⟩
  · rw [hc]
    exact ⟨(dirtied_line _ _ _ _).1, (dirtied_line _ _ _ _).2, fun hne => dirtied_line_ne _ _ hne⟩

theorem cache_access_effect {c : cache} (h : cache_inv c) {addr : Nat} (ha : addr < 2 ^ 32)
    {w : Bool} {rnd fuel : Nat} {out : access_result}
    (ho : cache_access fuel c addr w rnd = .ok out) : access_effect c addr rnd out := by
  have ho' := cache_access_mono (Nat.le_max_left fuel (hashsize c)) ho
  have hi := addr_index_lt h addr
  have hilen : addr_index c addr < c.sets.length := by rw [h.nsets_len]; exact hi
  have hs := h.sets _ hi
  have hres : (∀ s l, (c.set_at (addr_index c addr)).hashtab.getD s none = some l →
      (c.line l).tag ≠ addr_tag c addr) → ¬ resident c addr := by
    intro habs hr
    obtain ⟨l, hin, hv, ht⟩ := (resident_iff c addr).mp hr
    obtain ⟨s, hs'⟩ := hs.present l hin hv
    exact habs s l hs' ht
  refine ⟨cache_access_inv h ha ho, cache_access_geom h ha ho, ?_, ?_, ?_, ?_, ?_, ?_, ?_, ?_⟩ <;>
  rcases cache_access_spec h ha w rnd (Nat.le_max_right fuel (hashsize c)) with
    ⟨l, ⟨s, hst⟩, htag, heq⟩ | ⟨habs, ⟨_, heq⟩ | ⟨_, ⟨_, heq⟩ | ⟨v, T, hv, hvin, _, heq⟩⟩⟩ <;>
  rw [heq] at ho'
  -- policy
  · intro _; exact known_policy_of_touch rfl ho'
  · cases ho'; intro hc; exact absurd rfl hc
  · cases ho'
  · intro _; exact known_policy_of_touch (r := refill_result c _ v _ T) rfl ho'
  -- lists
  · intro j
    obtain ⟨hrc, _, hlp, _⟩ := cache_touch_ok rfl ho'
    rw [hlp, hrc]
    exact cache_touch_lists hilen rfl ho' j
  · cases ho'; intro j; rfl
  · cases ho'
  · intro j
    obtain ⟨hrc, _, hlp, _⟩ := cache_touch_ok (r := refill_result c _ v _ T) rfl ho'
    rw [hlp, hrc, cache_touch_lists (r := refill_result c _ v _ T)
      (by show (c.sets.set _ _).length > _; rw [List.length_set]; exact hilen) rfl ho' j]
    unfold list_after refill_result
    dsimp only
    rw [refilled_info]
    by_cases hji : j = addr_index c addr
    · subst hji
      rw [refilled_set_at_eq _ _ _ hilen]
    · rw [refilled_set_at_ne _ _ _ _ hji]
      simp only [hji, false_and, if_false]
  -- mem
  · intro v' hv'
    rw [(cache_touch_ok rfl ho').2.2.1] at hv'
    cases hv'
    exact hs.tab.mem s l hst
  · cases ho'; intro v' hv'; cases hv'
  · cases ho'
  · intro v' hv'
    rw [(cache_touch_ok (r := refill_result c _ v _ T) rfl ho').2.2.1] at hv'
    cases hv'
    exact hvin
  -- others
  · intro l' hl'
    rw [(cache_touch_ok rfl ho').2.2.1] at hl'
    exact (cache_touch_line rfl ho' l').2.2 (fun hc => hl' (by rw [hc]))
  · cases ho'; intro _ _; rfl
  · cases ho'
  · intro l' hl'
    rw [(cache_touch_ok (r := refill_result c _ v _ T) rfl ho').2.2.1] at hl'
    have hne : l' ≠ v := fun hc => hl' (by rw [hc])
    rw [(cache_touch_line (r := refill_result c _ v _ T) rfl ho' l').2.2 hne]
    exact refilled_line_ne c _ _ _ hne
  -- tag
  · intro v' hv'
    rw [(cache_touch_ok rfl ho').2.2.1] at hv'
    cases hv'
    obtain ⟨h1, h2, _⟩ := cache_touch_line rfl ho' l
    rw [h1, h2]
    exact ⟨hs.tab.valid s l hst, htag⟩
  · cases ho'; intro v' hv'; cases hv'
  · cases ho'
  · intro v' hv'
    rw [(cache_touch_ok (r := refill_result c _ v _ T) rfl ho').2.2.1] at hv'
    cases hv'
    obtain ⟨h1, h2, _⟩ := cache_touch_line (r := refill_result c _ v _ T) rfl ho' v
    rw [h1, h2]
    show ((refilled c _ v _ T).line v).valid = true ∧ ((refilled c _ v _ T).line v).tag = _
    rw [refilled_line_eq _ _ _ (in_set_lt h hi hvin)]
    exact ⟨rfl, rfl⟩
  -- hit
  · intro v' hv' _
    rw [(cache_touch_ok rfl ho').2.2.1] at hv'
    cases hv'
    exact ⟨hs.tab.valid s l hst, htag⟩
  · cases ho'; intro v' hv'; cases hv'
  · cases ho'
  · intro v' _ hrc
    exfalso
    rw [(cache_touch_ok (r := refill_result c _ v _ T) rfl ho').1] at hrc
    unfold refill_result at hrc
    dsimp only at hrc
    split at hrc <;> cases hrc
  -- miss
  · intro v' _ hrc
    exact absurd (cache_touch_ok rfl ho').1 hrc
  · cases ho'; intro v' hv'; cases hv'
  · cases ho'
  · intro v' hv' _
    obtain ⟨hrc, hk, hlp, _⟩ := cache_touch_ok (r := refill_result c _ v _ T) rfl ho'
    rw [hlp] at hv'
    cases hv'
    exact ⟨hv, hres habs, hrc, hk⟩
  -- bypass
  · intro hn
    rw [(cache_touch_ok rfl ho').2.2.1] at hn
    cases hn
  · cases ho'; intro _; exact ⟨rfl, rfl, rfl, hres habs⟩
  · cases ho'
  · intro hn
    rw [(cache_touch_ok (r := refill_result c _ v _ T) rfl ho').2.2.1] at hn
    cases hn

theorem stamping_touches : stamping LRU touches := by
  intro c addr rnd out _ hpol he
  refine ⟨?_, ?_, ?_⟩
  · intro l hl
    unfold touches at hl
    exact eq_of_beq hl
  · intro v hv
    unfold touches
    rw [hv]
    simp [hpol]
  · intro l hv hnv
    unfold touches
    by_contra hc
    have : out.linep ≠ some l := by
      intro heq; rw [heq] at hc; simp at hc
    rw [he.others l this, hnv] at hv
    cases hv

theorem stamping_refills : stamping FIFO refills := by
  intro c addr rnd out _ hpol he
  refine ⟨?_, ?_, ?_⟩
  · intro l hl
    unfold refills at hl
    simp only [Bool.and_eq_true] at hl
    exact eq_of_beq hl.1
  · intro v hv
    unfold refills
    rw [hv, hpol]
    simp [FIFO, LRU]
  · intro l hv hnv
    unfold refills
    by_cases hlp : out.linep = some l
    · rw [hlp]
      by_cases hrc : out.rc = HIT
      · have := (he.hit l hlp hrc).1
        rw [hnv] at this
        cases this
      · simp [hrc]
    · rw [he.others l hlp, hnv] at hv
      cases hv

theorem pairwise_stamp_same {p : Nat → access_result → Bool} {out : access_result}
    {T : Nat → Nat} {n : Nat} {L : List Nat} (hL : ∀ b ∈ L, p b out = false)
    (h : L.Pairwise (fun a b => T b = 0 ∨ T b < T a)) :
    L.Pairwise (fun a b => (if p b out = true then n + 1 else T b) = 0 ∨
      (if p b out = true then n + 1 else T b) < (if p a out = true then n + 1 else T a)) := by
  refine h.imp_of_mem ?_
  intro a b ha hb hab
  rw [hL a ha, hL b hb]
  simpa using hab

theorem order_inv_step {pol : Nat} {p : Nat → access_result → Bool} (hp : stamping pol p)
    {c : cache} {addr rnd : Nat} {out : access_result} (h : cache_inv c)
    (hpol : c.info.flags &&& REPLACE_MASK = pol) (he : access_effect c addr rnd out)
    {T : Nat → Nat} {n : Nat} (hT : ∀ l, T l ≤ n) (ho : order_inv c T) :
    order_inv out.c (fun l => if p l out = true then n + 1 else T l) := by
  obtain ⟨hp1, hp2, hp3⟩ := hp c addr rnd out h hpol he
  have hi := addr_index_lt h addr
  refine ⟨?_, ?_⟩
  · intro j hj
    rw [he.geom.2.2.2.2.1] at hj
    rw [he.lists j]
    unfold list_after
    cases hlp : out.linep with
    | none =>
      dsimp only
      refine pairwise_stamp_same ?_ (ho.1 j hj)
      intro b _
      by_contra hc
      have := hp1 b (by simpa using hc)
      rw [hlp] at this
      cases this
    | some v =>
      dsimp only
      have hvin := he.mem v hlp
      have honly : ∀ b, b ≠ v → p b out = false := by
        intro b hb
        by_contra hc
        have := hp1 b (by simpa using hc)
        rw [hlp] at this
        exact hb (Option.some.inj this).symm
      split
      · rename_i hcond
        obtain ⟨hji, hmv⟩ := hcond
        have hpv : p v out = true := (hp2 v hlp).mpr hmv
        have hnd := (h.sets _ hi).nodup
        refine List.pairwise_cons.mpr ⟨?_, ?_⟩
        · intro b hb
          have hbv : b ≠ v := fun hc => hnd.not_mem_erase (hc ▸ hb)
          rw [honly b hbv, hpv]
          right
          simp only [Bool.false_eq_true, if_false, if_true]
          have := hT b
          omega
        · refine pairwise_stamp_same ?_ ((ho.1 _ hi).sublist (List.erase_sublist _ _))
          intro b hb
          exact honly b (fun hc => hnd.not_mem_erase (hc ▸ hb))
      · rename_i hcond
        refine pairwise_stamp_same ?_ (ho.1 j hj)
        intro b hb
        by_cases hbv : b = v
        · subst hbv
          by_cases hji : j = addr_index c addr
          · have : ¬ (c.info.flags &&& REPLACE_MASK = LRU ∨ out.rc ≠ HIT) :=
              fun hc => hcond ⟨hji, hc⟩
            by_contra hc
            exact this ((hp2 b hlp).mp (by simpa using hc))
          · exfalso
            have hbj := ((h.sets j hj).order b).mp hb
            exact hji (in_set_disjoint h hj hi hbj hvin)
        · exact honly b hbv
  · intro l hv
    dsimp only
    by_cases hpl : p l out = true
    · rw [if_pos hpl]; omega
    · rw [if_neg hpl]
      apply ho.2
      by_contra hc
      exact hpl (hp3 l hv (by simpa using hc))

theorem last_time_from_le (p : access_result → Bool) :
    ∀ (outs : List access_result) (n s : Nat), s ≤ n →
      last_time_from p n s outs ≤ n + outs.length := by
  intro outs
  induction outs with
  | nil => intro n s h; simpa [last_time_from] using h
  | cons o rest ih =>
    intro n s h
    unfold last_time_from
    have := ih (n + 1) (if p o = true then n + 1 else s) (by split <;> omega)
    simp only [List.length_cons]
    omega

/-- A run keeps the order invariant, the stamps being the last times of the stamping. -/
theorem order_inv_run {pol : Nat} {p : Nat → access_result → Bool} (hp : stamping pol p)
    {fuel : Nat} :
    ∀ (accs : List access) (c c' : cache) (outs : List access_result) (n : Nat)
      (T : Nat → Nat), cache_inv c → c.info.flags &&& REPLACE_MASK = pol → order_inv c T →
      (∀ l, T l ≤ n) → (∀ a ∈ accs, a.addr < 2 ^ 32) → run fuel c accs = .ok (c', outs) →
      cache_inv c' ∧ same_geom c c' ∧
        order_inv c' (fun l => last_time_from (p l) n (T l) outs) := by
  intro accs
  induction accs with
  | nil =>
    intro c c' outs n T h _ ho _ _ hrun
    unfold run at hrun
    cases hrun
    exact ⟨h, same_geom_refl c, ho⟩
  | cons a rest ih =>
    intro c c' outs n T h hpol ho hT ha hrun
    unfold run at hrun
    cases hacc : cache_access fuel c a.addr a.writing a.rnd with
    | error e => rw [hacc] at hrun; cases hrun
    | ok out =>
      rw [hacc] at hrun
      dsimp only at hrun
      cases hrest : run fuel out.c rest with
      | error e => rw [hrest] at hrun; cases hrun
      | ok q =>
        obtain ⟨c2, outs2⟩ := q
        rw [hrest] at hrun
        cases hrun
        have he := cache_access_effect h (ha a (List.mem_cons_self _ _)) hacc
        have hstep := order_inv_step hp h hpol he hT ho
        have hpol' : out.c.info.flags &&& REPLACE_MASK = pol := by rw [he.geom.1]; exact hpol
        obtain ⟨h1, h2, h3⟩ := ih out.c _ outs2 (n + 1) _ he.inv hpol' hstep
          (fun l => by have := hT l; split <;> omega)
          (fun b hb => ha b (List.mem_cons_of_mem _ hb)) hrest
        exact ⟨h1, same_geom_trans he.geom h2, h3⟩

theorem cache_touch_total (i : Nat) (w : Bool) (r : access_result) (h : known_policy r.c) :
    ∃ out, cache_touch i w r = .ok out := by
  cases hl : r.linep with
  | none => exact ⟨r, by unfold cache_touch; rw [hl]⟩
  | some l =>
    rw [cache_touch_some i w r l hl]
    dsimp only
    rw [dirtied_info]
    split
    · split
      · exact ⟨_, rfl⟩
      · exact ⟨_, rfl⟩
    · rename_i hp
      split
      · exact ⟨_, rfl⟩
      · rename_i hl
        rcases h with h | h | h
        · exact absurd h hl
        · exact absurd (Or.inl h) hp
        · exact absurd (Or.inr h) hp

theorem cache_find_victim_total (c : cache) (set : cache_set) (rnd : Nat)
    (h : known_policy c) : ∃ v, cache_find_victim c set rnd = .ok v := by
  unfold cache_find_victim
  dsimp only
  split
  · exact ⟨_, rfl⟩
  · rename_i hp
    split
    · split
      · exact ⟨_, rfl⟩
      · exact ⟨_, rfl⟩
    · rename_i hr
      rcases h with h | h | h
      · exact absurd (Or.inl h) hp
      · exact absurd h hr
      · exact absurd (Or.inr h) hp

/-- With a known policy and a step budget of the table size, every access returns. -/
theorem cache_access_total {c : cache} (h : cache_inv c) (hp : known_policy c) {addr : Nat}
    (ha : addr < 2 ^ 32) (w : Bool) (rnd : Nat) {fuel : Nat} (hf : hashsize c ≤ fuel) :
    ∃ out, cache_access fuel c addr w rnd = .ok out := by
  rcases cache_access_spec h ha w rnd hf with
    ⟨l, _, _, heq⟩ | ⟨_, ⟨_, heq⟩ | ⟨_, ⟨hv, _⟩ | ⟨v, T, _, _, _, heq⟩⟩⟩
  · rw [heq]; exact cache_touch_total _ _ _ hp
  · exact ⟨_, heq⟩
  · obtain ⟨v, hv'⟩ := cache_find_victim_total c (c.set_at (addr_index c addr)) rnd hp
    rw [hv'] at hv
    cases hv
  · rw [heq]; exact cache_touch_total _ _ _ hp

theorem hashsize_geom {c c' : cache} (h : same_geom c c') : hashsize c' = hashsize c := by
  unfold hashsize; rw [h.2.2.2.1]

theorem known_policy_geom {c c' : cache} (h : same_geom c c') (hp : known_policy c) :
    known_policy c' := by
  unfold known_policy; rw [h.1]; exact hp

theorem run_total {fuel : Nat} :
    ∀ (accs : List access) (c : cache), cache_inv c → known_policy c → hashsize c ≤ fuel →
      (∀ a ∈ accs, a.addr < 2 ^ 32) → ∃ c' outs, run fuel c accs = .ok (c', outs) := by
  intro accs
  induction accs with
  | nil => intro c _ _ _ _; exact ⟨c, [], rfl⟩
  | cons a rest ih =>
    intro c h hp hf ha
    obtain ⟨out, ho⟩ := cache_access_total h hp (ha a (List.mem_cons_self _ _)) a.writing a.rnd hf
    have he := cache_access_effect h (ha a (List.mem_cons_self _ _)) ho
    obtain ⟨c', outs, hrun⟩ := ih out.c he.inv (known_policy_geom he.geom hp)
      (by rw [hashsize_geom he.geom]; exact hf) (fun b hb => ha b (List.mem_cons_of_mem _ hb))
    refine ⟨c', out :: outs, ?_⟩
    unfold run
    rw [ho]
    dsimp only
    rw [hrun]

theorem pairwise_getLastD {R : Nat → Nat → Prop} :
    ∀ (L : List Nat) (d : Nat), L.Pairwise R → L.Nodup →
      ∀ a ∈ L, a ≠ L.getLastD d → R a (L.getLastD d) := by
  intro L
  induction L with
  | nil => intro d _ _ a ha; cases ha
  | cons x xs ih =>
    intro d hpw hnd a ha hne
    rw [List.getLastD_cons] at hne ⊢
    rw [List.pairwise_cons] at hpw
    rw [List.nodup_cons] at hnd
    by_cases hxs : xs = []
    · subst hxs
      simp only [List.getLastD_nil] at hne
      simp only [List.mem_singleton] at ha
      exact absurd ha hne
    · rcases List.mem_cons.mp ha with rfl | hmem
      · exact hpw.1 _ (getLastD_mem _ hxs)
      · exact ih x hpw.2 hnd.2 a hmem hne

theorem cache_init_lines {info : cache_info} {c : cache} (hcfg : config_ok info)
    (h : cache_init info = .ok c) (l : Nat) : c.line l = ⟨0, false, false⟩ := by
  obtain ⟨logA, logB, logC, _, _, _, _, _, _, rfl⟩ :=
    cache_init_shape hcfg.2.2 hcfg.2.1 hcfg.1 h
  exact getD_replicate_line _ l _ rfl

theorem order_inv_init {info : cache_info} {c : cache} (hcfg : config_ok info)
    (h : cache_init info = .ok c) : order_inv c (fun _ => 0) := by
  refine ⟨fun i _ => ?_, fun l hv => ?_⟩
  · exact List.pairwise_of_forall (fun _ _ => Or.inl rfl)
  · rw [cache_init_lines hcfg h l] at hv
    cases hv

/-- The victim of a miss in a full set is the line with the oldest stamp, under `LRU` and
under `FIFO`, where `cache_find_victim` takes the tail of the order list. -/
theorem victim_oldest {c : cache} (h : cache_inv c) {T : Nat → Nat} (ho : order_inv c T)
    (hpol : c.info.flags &&& REPLACE_MASK = LRU ∨ c.info.flags &&& REPLACE_MASK = FIFO)
    {addr rnd v : Nat} {out : access_result} (he : access_effect c addr rnd out)
    (hrc : out.rc ≠ HIT) (hv : out.linep = some v)
    (hfull : ∀ l, in_set c (c.set_at (addr_index c addr)) l → (c.line l).valid = true) :
    v = (c.set_at (addr_index c addr)).list.getLastD (c.set_at (addr_index c addr)).firstline ∧
      ∀ l, in_set c (c.set_at (addr_index c addr)) l → l ≠ v → T v < T l := by
  have hi := addr_index_lt h addr
  have hs := h.sets _ hi
  have hvic := (he.miss v hv hrc).1
  have hv' : v = (c.set_at (addr_index c addr)).list.getLastD
      (c.set_at (addr_index c addr)).firstline := by
    unfold cache_find_victim at hvic
    dsimp only at hvic
    rw [if_pos hpol] at hvic
    cases hvic
    rfl
  refine ⟨hv', ?_⟩
  intro l hl hne
  have hR := pairwise_getLastD _ (c.set_at (addr_index c addr)).firstline (ho.1 _ hi) hs.nodup
    l ((hs.order l).mpr hl) (by rw [← hv']; exact hne)
  rw [← hv'] at hR
  rcases hR with h0 | hlt
  · exact absurd h0 (ho.2 v (hfull v (he.mem v hv)))
  · exact hlt

theorem stamped_sorted {L : List Nat} {T : Nat → Nat}
    (h : L.Pairwise (fun a b => T b = 0 ∨ T b < T a)) :
    (L.filter (fun l => T l != 0)).Pairwise (fun a b => T b < T a) := by
  refine (h.filter _).imp_of_mem ?_
  intro a b _ hb hab
  have hb0 : T b ≠ 0 := by simpa using (List.mem_filter.mp hb).2
  rcases hab with h0 | hlt
  · exact absurd h0 hb0
  · exact hlt

theorem last_time_from_snoc (p : access_result → Bool) (o : access_result) :
    ∀ (outs : List access_result) (n s : Nat),
      last_time_from p n s (outs ++ [o]) =
        if p o = true then n + outs.length + 1 else last_time_from p n s outs := by
  intro outs
  induction outs with
  | nil => intro n s; simp [last_time_from]
  | cons x rest ih =>
    intro n s
    rw [List.cons_append]
    unfold last_time_from
    rw [ih, List.length_cons]
    split <;> [omega; rfl]

/-- An access to a resident block, and an access that may allocate, leave a line in
`linep`: the line hit, or the victim refilled. -/
theorem access_takes_line {c : cache} (h : cache_inv c) {addr : Nat} (ha : addr < 2 ^ 32)
    {w : Bool} {rnd fuel : Nat} {out : access_result}
    (ho : cache_access fuel c addr w rnd = .ok out)
    (hcase : resident c addr ∨ (w = false ∨ c.info.flags &&& WRITE_ALLOC ≠ 0)) :
    ∃ v, out.linep = some v := by
  have ho' := cache_access_mono (Nat.le_max_left fuel (hashsize c)) ho
  have hi := addr_index_lt h addr
  have hs := h.sets _ hi
  rcases cache_access_spec h ha w rnd (Nat.le_max_right fuel (hashsize c)) with
    ⟨l, _, _, heq⟩ | ⟨habs, ⟨hal, _⟩ | ⟨_, ⟨_, heq⟩ | ⟨v, T, _, _, _, heq⟩⟩⟩
  · rw [heq] at ho'
    exact ⟨l, (cache_touch_ok rfl ho').2.2.1⟩
  · exfalso
    rcases hcase with hres | hw | hwa
    · obtain ⟨l, hin, hv, ht⟩ := (resident_iff c addr).mp hres
      obtain ⟨s, hs'⟩ := hs.present l hin hv
      exact habs s l hs' ht
    · rw [hw] at hal
      cases hal
    · cases w <;> simp [hwa] at hal
  · rw [heq] at ho'
    cases ho'
  · rw [heq] at ho'
    have hlp : (refill_result c (addr_index c addr) v (addr_tag c addr) T).linep = some v := rfl
    exact ⟨v, (cache_touch_ok hlp ho').2.2.1⟩

/-- Claim C2: under the LRU policy every sequence of accesses to a freshly initialised cache
runs through, the order list of every set then lists the touched lines in decreasing order
of their last access time, and every further access returns.  When the further access is
an allocating miss (the block is not resident, and it is a read or write-allocate is on),
it returns a miss and does take a victim of the set, which then holds the tag of the
address, and no other line has changed; when all lines of the set are valid, the victim
is the tail of the order list, a valid line whose last access (hit or refill) is older
than that of every other line of the set. -/
theorem lru_victim_least_recently_used (info : cache_info) (hcfg : config_ok info)
    (hlru : info.flags &&& REPLACE_MASK = LRU) (c0 : cache) (h0 : cache_init info = .ok c0)
    (accs : List access) (haddr : ∀ a ∈ accs, a.addr < 2 ^ 32) (fuel : Nat)
    (hf : 2 * info.assoc ≤ fuel) :
    ∃ c outs, run fuel c0 accs = .ok (c, outs) ∧
      (∀ i, i < c.nsets →
        ((c.set_at i).list.filter (fun l => last_time (touches l) outs != 0)).Pairwise
          (fun a b => last_time (touches b) outs < last_time (touches a) outs)) ∧
      ∀ (addr : Nat) (w : Bool) (rnd : Nat), addr < 2 ^ 32 →
        ∃ out, cache_access fuel c addr w rnd = .ok out ∧
          (∀ v, out.rc ≠ HIT → out.linep = some v →
            (∀ l, in_set c (c.set_at (addr_index c addr)) l → (c.line l).valid = true) →
            v = (c.set_at (addr_index c addr)).list.getLastD
                  (c.set_at (addr_index c addr)).firstline ∧
              ∀ l, in_set c (c.set_at (addr_index c addr)) l → l ≠ v →
                last_time (touches v) outs < last_time (touches l) outs) ∧
          (¬ resident c addr → (w = false ∨ info.flags &&& WRITE_ALLOC ≠ 0) →
            ∃ v, out.linep = some v ∧ out.rc ≠ HIT ∧
              in_set c (c.set_at (addr_index c addr)) v ∧
              (out.c.line v).valid = true ∧ (out.c.line v).tag = addr_tag c addr ∧
              (∀ l, l ≠ v → out.c.line l = c.line l) ∧
              ((∀ l, in_set c (c.set_at (addr_index c addr)) l → (c.line l).valid = true) →
                v = (c.set_at (addr_index c addr)).list.getLastD
                      (c.set_at (addr_index c addr)).firstline ∧
                (c.line v).valid = true ∧
                ∀ l, in_set c (c.set_at (addr_index c addr)) l → l ≠ v →
                  last_time (touches v) outs < last_time (touches l) outs)) := by
  obtain ⟨hinv0, hinfo0, hsize0⟩ := cache_init_inv hcfg.2.2 hcfg.2.1 hcfg.1 h0
  have hpol0 : c0.info.flags &&& REPLACE_MASK = LRU := by rw [hinfo0]; exact hlru
  have hf0 : hashsize c0 ≤ fuel := by rw [hsize0]; exact hf
  obtain ⟨c, outs, hrun⟩ := run_total accs c0 hinv0 (Or.inl hpol0) hf0 haddr
  obtain ⟨hinv, hgeom, hord⟩ := order_inv_run stamping_touches accs c0 c outs 0 (fun _ => 0)
    hinv0 hpol0 (order_inv_init hcfg h0) (fun _ => le_refl _) haddr hrun
  have hpol : c.info.flags &&& REPLACE_MASK = LRU := by rw [hgeom.1]; exact hpol0
  refine ⟨c, outs, hrun, fun i hi => stamped_sorted (hord.1 i hi), ?_⟩
  intro addr w rnd ha
  have hfc : hashsize c ≤ fuel := by rw [hashsize_geom hgeom]; exact hf0
  obtain ⟨out, ho⟩ := cache_access_total hinv (Or.inl hpol) ha w rnd hfc
  have he := cache_access_effect hinv ha ho
  refine ⟨out, ho, ?_, ?_⟩
  · intro v hrc hv hfull
    exact victim_oldest hinv hord (Or.inl hpol) he hrc hv hfull
  · intro hmiss hal
    obtain ⟨v, hv⟩ := access_takes_line hinv ha ho
      (Or.inr (by rw [hgeom.1, hinfo0]; exact hal))
    have hrc : out.rc ≠ HIT := fun hc => hmiss ((cache_access_hit_iff hinv ha ho).mp hc)
    have hvin := he.mem v hv
    refine ⟨v, hv, hrc, hvin, (he.tag v hv).1, (he.tag v hv).2, ?_, ?_⟩
    · intro l hne
      apply he.others
      rw [hv]
      intro hc
      exact hne (Option.some.inj hc).symm
    · intro hfull
      obtain ⟨htail, hold⟩ := victim_oldest hinv hord (Or.inl hpol) he hrc hv hfull
      exact ⟨htail, hfull v hvin, hold⟩

/-- Claim C3: under the FIFO policy every sequence of accesses to a freshly initialised cache
runs through and every further access returns.  When the further access is an allocating
miss (the block is not resident, and it is a read or write-allocate is on), it returns a
miss and does take a victim of the set, which then holds the tag of the address, and no
other line has changed; when all lines of the set are valid, the victim is the tail of
the order list, a valid line whose last refill is older than that of every other line of
the set.  When the
block is resident, the access returns `HIT` on the line that holds the tag and leaves
every order list and every last refill time as they were. -/
theorem fifo_victim_oldest_refill (info : cache_info) (hcfg : config_ok info)
    (hfifo : info.flags &&& REPLACE_MASK = FIFO) (c0 : cache) (h0 : cache_init info = .ok c0)
    (accs : List access) (haddr : ∀ a ∈ accs, a.addr < 2 ^ 32) (fuel : Nat)
    (hf : 2 * info.assoc ≤ fuel) :
    ∃ c outs, run fuel c0 accs = .ok (c, outs) ∧
      ∀ (addr : Nat) (w : Bool) (rnd : Nat), addr < 2 ^ 32 →
        ∃ out, cache_access fuel c addr w rnd = .ok out ∧
          (∀ v, out.rc ≠ HIT → out.linep = some v →
            (∀ l, in_set c (c.set_at (addr_index c addr)) l → (c.line l).valid = true) →
            v = (c.set_at (addr_index c addr)).list.getLastD
                  (c.set_at (addr_index c addr)).firstline ∧
              ∀ l, in_set c (c.set_at (addr_index c addr)) l → l ≠ v →
                last_time (refills v) outs < last_time (refills l) outs) ∧
          (out.rc = HIT →
            (∀ j, (out.c.set_at j).list = (c.set_at j).list) ∧
            ∀ l, last_time (refills l) (outs ++ [out]) = last_time (refills l) outs) ∧
          (¬ resident c addr → (w = false ∨ info.flags &&& WRITE_ALLOC ≠ 0) →
            ∃ v, out.linep = some v ∧ out.rc ≠ HIT ∧
              in_set c (c.set_at (addr_index c addr)) v ∧
              (out.c.line v).valid = true ∧ (out.c.line v).tag = addr_tag c addr ∧
              (∀ l, l ≠ v → out.c.line l = c.line l) ∧
              ((∀ l, in_set c (c.set_at (addr_index c addr)) l → (c.line l).valid = true) →
                v = (c.set_at (addr_index c addr)).list.getLastD
                      (c.set_at (addr_index c addr)).firstline ∧
                (c.line v).valid = true ∧
                ∀ l, in_set c (c.set_at (addr_index c addr)) l → l ≠ v →
                  last_time (refills v) outs < last_time (refills l) outs)) ∧
          (resident c addr →
            out.rc = HIT ∧
            (∃ v, out.linep = some v ∧ (c.line v).valid = true ∧
              (c.line v).tag = addr_tag c addr) ∧
            (∀ j, (out.c.set_at j).list = (c.set_at j).list) ∧
            ∀ l, last_time (refills l) (outs ++ [out]) = last_time (refills l) outs) := by
  obtain ⟨hinv0, hinfo0, hsize0⟩ := cache_init_inv hcfg.2.2 hcfg.2.1 hcfg.1 h0
  have hpol0 : c0.info.flags &&& REPLACE_MASK = FIFO := by rw [hinfo0]; exact hfifo
  have hf0 : hashsize c0 ≤ fuel := by rw [hsize0]; exact hf
  obtain ⟨c, outs, hrun⟩ := run_total accs c0 hinv0 (Or.inr (Or.inr hpol0)) hf0 haddr
  obtain ⟨hinv, hgeom, hord⟩ := order_inv_run stamping_refills accs c0 c outs 0 (fun _ => 0)
    hinv0 hpol0 (order_inv_init hcfg h0) (fun _ => le_refl _) haddr hrun
  have hpol : c.info.flags &&& REPLACE_MASK = FIFO := by rw [hgeom.1]; exact hpol0
  refine ⟨c, outs, hrun, ?_⟩
  intro addr w rnd ha
  have hfc : hashsize c ≤ fuel := by rw [hashsize_geom hgeom]; exact hf0
  obtain ⟨out, ho⟩ := cache_access_total hinv (Or.inr (Or.inr hpol)) ha w rnd hfc
  have he := cache_access_effect hinv ha ho
  have hhit : out.rc = HIT →
      (∀ j, (out.c.set_at j).list = (c.set_at j).list) ∧
      ∀ l, last_time (refills l) (outs ++ [out]) = last_time (refills l) outs := by
    intro hrc
    refine ⟨?_, ?_⟩
    · intro j
      rw [he.lists j]
      unfold list_after
      cases out.linep with
      | none => rfl
      | some v =>
        dsimp only
        rw [if_neg]
        rintro ⟨_, h1 | h1⟩
        · rw [hpol] at h1; cases h1
        · exact h1 hrc
    · intro l
      unfold last_time
      rw [last_time_from_snoc, if_neg]
      unfold refills
      simp [hrc]
  refine ⟨out, ho, ?_, hhit, ?_, ?_⟩
  · intro v hrc hv hfull
    exact victim_oldest hinv hord (Or.inr hpol) he hrc hv hfull
  · intro hmiss hal
    obtain ⟨v, hv⟩ := access_takes_line hinv ha ho
      (Or.inr (by rw [hgeom.1, hinfo0]; exact hal))
    have hrc : out.rc ≠ HIT := fun hc => hmiss ((cache_access_hit_iff hinv ha ho).mp hc)
    have hvin := he.mem v hv
    refine ⟨v, hv, hrc, hvin, (he.tag v hv).1, (he.tag v hv).2, ?_, ?_⟩
    · intro l hne
      apply he.others
      rw [hv]
      intro hc
      exact hne (Option.some.inj hc).symm
    · intro hfull
      obtain ⟨htail, hold⟩ := victim_oldest hinv hord (Or.inr hpol) he hrc hv hfull
      exact ⟨htail, hfull v hvin, hold⟩
  · intro hres
    have hrc : out.rc = HIT := (cache_access_hit_iff hinv ha ho).mpr hres
    obtain ⟨v, hv⟩ := access_takes_line hinv ha ho (Or.inl hres)
    exact ⟨hrc, ⟨v, hv, he.hit v hv hrc⟩, hhit hrc⟩

/-- Claim C5, at an input where the code departs from it: one level without write-allocate
(`flags = 000`) in front of DRAM and the trace `1 0x00`.  The write misses at L1 (miss counters `[0, 1, 0]`), and DRAM receives
one access, but in mode `DataRead`: its fetch counters are `[1, 0, 0]`, so its `DataWrite`
fetch count is 0 and its `DataRead` fetch count is 1. -/
theorem write_miss_no_allocate_reads_next_level :
    (simulate no_rand 8 (single_level 0o0) [⟨DATA_W, 0x00⟩]).map
        (fun m => ((m.pair 0).misscount, (m.pair 1).fetchcount, m.log)) =
      .ok ([0, 1, 0], [1, 0, 0], [⟨0, 0x00, DATA_W⟩, ⟨1, 0x00, DATA_R⟩]) := by
  decide!

/-- Claim C4, at an input where the code departs from it: one write-allocate level
(`flags = 001`) in front of DRAM and the trace `1 fffffffc`.  The write misses at L1 and line 3 is allocated dirty with the tag of the
address, but `block_end` wraps to 0 and DRAM receives no `DataRead`: its fetch counters
stay `[0, 0, 0]` and the only call recorded is the one on L1. -/
theorem write_miss_top_block_no_refill :
    (simulate no_rand 8 (single_level 0o1) [⟨DATA_W, 0xfffffffc⟩]).map
        (fun m => ((m.pair 0).misscount, (m.cache_at 0).line 3, (m.pair 1).fetchcount, m.log)) =
      .ok ([0, 1, 0], ⟨0x1fffffff, true, true⟩, [0, 0, 0], [⟨0, 0xfffffffc, DATA_W⟩]) := by
  decide!

/-- The scenario of a dirty eviction: writes to `0x00`, `0x08`, `0x10` give 3 misses at L1 and, at DRAM,
3 `DataRead` and then 1 `DataWrite` of block `0x00`, the refill before the writeback. -/
theorem scenario_dirty_eviction :
    (simulate no_rand 8 (single_level 0o1)
        [⟨DATA_W, 0x00⟩, ⟨DATA_W, 0x08⟩, ⟨DATA_W, 0x10⟩]).map
        (fun m => ((m.pair 0).misscount, (m.pair 1).fetchcount, m.log)) =
      .ok ([0, 3, 0], [3, 1, 0],
        [⟨0, 0x00, DATA_W⟩, ⟨1, 0x00, DATA_R⟩, ⟨0, 0x08, DATA_W⟩, ⟨1, 0x08, DATA_R⟩,
          ⟨0, 0x10, DATA_W⟩, ⟨1, 0x10, DATA_R⟩, ⟨1, 0x00, DATA_W⟩]) := by
  decide!

/-- Claim C7, at an input where the code departs from it: one level with blocks of 4 bytes
in front of DRAM and a read of `0xfffffffc`.  The read misses at L1, and the refill by `cache_pair_access_block` of the
block that starts at `0xfffffffc` makes no call on DRAM, where one is due: the record of
calls holds the call on L1 only, and `cache_pair_access_block` on DRAM with that block
returns the state as it was. -/
theorem refill_top_block_makes_no_call :
    ((configure (single_level 0o1)).bind
        (fun m0 => cache_pair_access no_rand 8 m0 0 0xfffffffc DATA_R)).map
        (fun m => ((m.pair 0).misscount, m.log,
          cache_pair_access_block no_rand 8 m 1 0xfffffffc (u32 (0xfffffffc + 4)) DATA_R
            == .ok m)) =
      .ok ([1, 0, 0], [⟨0, 0xfffffffc, DATA_R⟩], true) := by
  decide!

/-- The scenario of a block expansion: L1 with blocks of 16 bytes, L2 with blocks of 4 bytes; a miss on
`0x00` gives four accesses of L2, at `0x00`, `0x04`, `0x08`, `0x0C`. -/
theorem scenario_block_expansion :
    (simulate no_rand 8 [⟨'L', 1, ⟨2, 16, 64, 1, 0o1⟩⟩, ⟨'L', 2, ⟨2, 4, 64, 1, 0o1⟩⟩]
        [⟨DATA_R, 0x00⟩]).map (fun m => m.log.filter (fun e => e.cp = 1)) =
      .ok [⟨1, 0x00, DATA_R⟩, ⟨1, 0x04, DATA_R⟩, ⟨1, 0x08, DATA_R⟩, ⟨1, 0x0c, DATA_R⟩] := by
  decide!

/-- Claim C8, at an input where the code departs from it: one write-allocate level in
front of DRAM after the trace `1 fffffffc`.  Line 3 is dirty and caches the block at `0xfffffffc` of set 1;
`cache_flush` clears its dirty bit but issues no `DataWrite` to DRAM: the record of calls
and the fetch counters of DRAM are as before the flush. -/
theorem flush_top_block_issues_no_write :
    ((simulate no_rand 8 (single_level 0o1) [⟨DATA_W, 0xfffffffc⟩]).bind
        (fun m => (cache_flush no_rand 8 m 0 1).map
          (fun m' => (((m.cache_at 0).line 3).dirty,
            block_base (m.cache_at 0) ((m.cache_at 0).line 3).tag 1,
            ((m'.cache_at 0).line 3).dirty, m'.log == m.log, (m'.pair 1).fetchcount)))) =
      .ok (true, 0xfffffffc, false, true, [0, 0, 0]) := by
  decide!

theorem for_each_cons_ok {α : Type} {body : machine → α → Except Fault machine} {m m' : machine}
    {x : α} {rest : List α} (h : for_each body m (x :: rest) = .ok m') :
    ∃ m1, body m x = .ok m1 ∧ for_each body m1 rest = .ok m' := by
  unfold for_each at h
  cases hb : body m x with
  | error e => rw [hb] at h; cases h
  | ok m1 => rw [hb] at h; exact ⟨m1, rfl, h⟩

theorem cache_flush_line_clean {rnd : Nat → Nat} {fuel : Nat} {m m' : machine}
    {p next index linep : Nat} (hd : ((m.cache_at p).line linep).dirty = false)
    (h : cache_flush_line rnd fuel m p next index linep = .ok m') : m' = m := by
  unfold cache_flush_line at h
  dsimp only at h
  rw [if_pos hd] at h
  cases h
  rfl

theorem cache_flush_line_dirty {rnd : Nat → Nat} {fuel : Nat} {m m' : machine}
    {p next index linep : Nat} (hd : ((m.cache_at p).line linep).dirty = true)
    (h : cache_flush_line rnd fuel m p next index linep = .ok m') :
    ∃ m1, cache_pair_access_block rnd fuel m next
      (block_base (m.cache_at p) ((m.cache_at p).line linep).tag index)
      (u32 (block_base (m.cache_at p) ((m.cache_at p).line linep).tag index +
        (m.cache_at p).info.blksz)) DATA_W = .ok m1 := by
  unfold cache_flush_line at h
  dsimp only at h
  rw [if_neg (by rw [hd]; decide)] at h
  cases hb : cache_pair_access_block rnd fuel m next
      (block_base (m.cache_at p) ((m.cache_at p).line linep).tag index)
      (u32 (block_base (m.cache_at p) ((m.cache_at p).line linep).tag index +
        (m.cache_at p).info.blksz)) DATA_W with
  | error e => rw [hb] at h; cases h
  | ok m1 => exact ⟨m1, rfl⟩

theorem cache_pair_access_block_ok {rnd : Nat → Nat} {fuel : Nat} {m m' : machine}
    {cp s e mode : Nat} (step : Nat) (hs : next_blksz m cp s e mode = .ok step)
    (h : cache_pair_access_block rnd fuel m cp s e mode = .ok m') :
    block_loop rnd fuel m cp s e step mode = .ok m' := by
  unfold cache_pair_access_block at h
  rw [hs] at h
  exact h

/-- The loop of `cache_pair_access_block` with a block end of `0xfffffffc` and a step of 16
never ends from an address that is 8 modulo 16: the address wraps around and stays below
the block end. -/
theorem block_loop_diverges (rnd : Nat → Nat) (cp mode : Nat) :
    ∀ (fuel : Nat) (m : machine) (addr : Nat), addr % 16 = 8 → addr < 2 ^ 32 →
      ∀ m', block_loop rnd fuel m cp addr 0xfffffffc 16 mode ≠ .ok m' := by
  intro fuel
  induction fuel with
  | zero =>
    intro m addr h1 h2 m' h
    unfold block_loop at h
    rw [if_pos (by omega)] at h
    cases h
  | succ fuel ih =>
    intro m addr h1 h2 m' h
    unfold block_loop at h
    rw [if_pos (by omega)] at h
    cases hacc : cache_pair_access rnd fuel m cp addr mode with
    | error e => rw [hacc] at h; cases h
    | ok m1 =>
      rw [hacc] at h
      exact ih m1 (u32 (addr + 16)) (by unfold u32; omega) (by unfold u32; omega) m' h

theorem cache_pair_flush_from_ok {rnd : Nat → Nat} {fuel levels cp p : Nat} {m m' : machine}
    (hp : (m.pair cp).i = some p)
    (h : cache_pair_flush_from rnd fuel (levels + 1) m cp = .ok m') :
    ∃ m1, cache_flush rnd fuel m p (cp + 1) = .ok m1 := by
  unfold cache_pair_flush_from at h
  rw [hp] at h
  dsimp only at h
  cases hf : cache_flush rnd fuel m p (cp + 1) with
  | error e => rw [hf] at h; cases h
  | ok m1 => exact ⟨m1, rfl⟩

/-- Claim C9, at an input where the code departs from it: a unified L1 with blocks of 4
bytes over a split L2 whose data cache has blocks of 16 bytes, after the trace `2 fffffff8`, `1 fffffff8`.  The trace runs
through and leaves the block at `0xfffffff8` dirty in L1; `cache_pair_flush` then never
returns, whatever the step budget and the random numbers: the writeback loop over
`[0xfffffff8, 0xfffffffc)` in steps of 16 wraps around and never reaches the block end. -/
theorem flush_diverges_on_reachable_state :
    simulate no_rand 8 split_second_level [⟨INST_F, 0xfffffff8⟩, ⟨DATA_W, 0xfffffff8⟩] =
        .ok wrapped_state ∧
      ((wrapped_state.cache_at 0).line 0).dirty = true ∧
      ∀ (rnd : Nat → Nat) (fuel : Nat) (m' : machine),
        cache_pair_flush rnd fuel wrapped_state ≠ .ok m' := by
  refine ⟨by decide!, by decide, ?_⟩
  intro rnd fuel m' h
  obtain ⟨m1, h1⟩ := cache_pair_flush_from_ok (p := 0) (by decide) h
  have h2 : for_each (fun m index =>
      for_each (fun m k => cache_flush_line rnd fuel m 0 1 index (index * 1 + k)) m [0])
      wrapped_state [0] = .ok m1 := h1
  obtain ⟨m2, h3, _⟩ := for_each_cons_ok h2
  obtain ⟨m3, h4, _⟩ := for_each_cons_ok h3
  obtain ⟨m4, h5⟩ := cache_flush_line_dirty (by decide) h4
  have h6 : cache_pair_access_block rnd fuel wrapped_state 1 0xfffffff8 0xfffffffc DATA_W =
      .ok m4 := h5
  have h7 := cache_pair_access_block_ok 16 (by decide) h6
  exact block_loop_diverges rnd 1 DATA_W fuel wrapped_state 0xfffffff8 (by decide) (by decide)
    m4 h7

/-- Claim C11 as stated fails on the code: with `A = 2`, `B = 4`, `C = 16`, flags `001`
and the four instruction fetches of Scenario 1, it is not the case that the addresses
have the set indices 0, 1, 0, 1 and that set 0 and set 1 both end holding the tags 0
and 2. -/
theorem scenario_cold_fetches_not_as_stated :
    ¬ ((simulate no_rand 8 (single_level 0o1) cold_fetches).map
        (fun m => (cold_fetches.map (fun r => addr_index (m.cache_at 0) r.addr),
          decide (0 ∈ valid_tags (m.cache_at 0) 0 ∧ 2 ∈ valid_tags (m.cache_at 0) 0),
          decide (0 ∈ valid_tags (m.cache_at 0) 1 ∧ 2 ∈ valid_tags (m.cache_at 0) 1))) =
      .ok ([0, 1, 0, 1], true, true)) := by
  decide!

/-- Claim C11, amended: with `A = 2`, `B = 4`, `C = 16`, flags `001` and the four
instruction fetches `0x00`, `0x10`, `0x20`, `0x30`, all four addresses have set index 0
and the tags 0, 2, 4, 6.  L1 counts 4 instruction fetches and 4 misses and DRAM 4
fetches, all of them instruction fetches, so no writeback is issued.  After the first two
fetches set 0 holds the tags 0 and 2; the last two fetches evict these two valid, clean
lines, and at the end set 0 holds the tags 4 and 6 and set 1 holds no valid line. -/
theorem scenario_cold_fetches_share_set_zero :
    (simulate no_rand 8 (single_level 0o1) cold_fetches).map
        (fun m => (cold_fetches.map (fun r => addr_index (m.cache_at 0) r.addr),
          cold_fetches.map (fun r => addr_tag (m.cache_at 0) r.addr),
          (m.pair 0).fetchcount, (m.pair 0).misscount, (m.pair 1).fetchcount)) =
      .ok ([0, 0, 0, 0], [0, 2, 4, 6], [0, 0, 4], [0, 0, 4], [0, 0, 4]) ∧
    (simulate no_rand 8 (single_level 0o1) (cold_fetches.take 2)).map
        (fun m => (valid_tags (m.cache_at 0) 0, valid_tags (m.cache_at 0) 1)) =
      .ok ([2, 0], []) ∧
    (simulate no_rand 8 (single_level 0o1) cold_fetches).map
        (fun m => (m.log.filter (fun e => e.mode = DATA_W),
          ((m.cache_at 0).lines.filter (fun l => l.dirty)).length,
          valid_tags (m.cache_at 0) 0, valid_tags (m.cache_at 0) 1)) =
      .ok ([], 0, [6, 4], []) := by
  refine ⟨by decide!, by decide!, by decide!⟩

theorem logbase2_pow {l : Nat} (hl : l < 32) : logbase2 (2 ^ l) = .ok l := by
  unfold logbase2
  have hz : (2 : Nat) ^ l ≠ 0 := by positivity
  have hand : 2 ^ l &&& (2 ^ l - 1) = 0 := by
    rw [Nat.and_pow_two_sub_one_eq_mod, Nat.mod_self]
  rw [if_neg (by simp [hz, hand]), logbase2_loop_pow l 32 0 (by omega)]
  simp

theorem logbase2_cases (n : Nat) :
    logbase2 n = .error .failure ∨ ∃ l, logbase2 n = .ok l := by
  unfold logbase2
  split
  · exact Or.inl rfl
  · exact Or.inr ⟨_, rfl⟩

theorem logbase2_error_iff {n : Nat} (hn : n < 2 ^ 32) :
    logbase2 n = .error .failure ↔ (n = 0 ∨ ¬ ∃ l, n = 2 ^ l) := by
  constructor
  · intro h
    by_contra hc
    push_neg at hc
    obtain ⟨_, l, rfl⟩ := hc
    have hl : l < 32 := (Nat.pow_lt_pow_iff_right (by decide : 1 < 2)).mp hn
    rw [logbase2_pow hl] at h
    cases h
  · intro h
    rcases logbase2_cases n with he | ⟨l, hl⟩
    · exact he
    · exfalso
      have := (logbase2_ok hn hl).1
      rcases h with h0 | hp
      · rw [h0] at this
        exact absurd this.symm (by positivity)
      · exact hp ⟨l, this⟩

/-- The fields that `cache_init` computes from the three logarithms. -/
theorem cache_init_fields {info : cache_info} {c : cache} (hA : info.assoc < 2 ^ 32)
    (hblk : info.blksz < 2 ^ 32) (hcap : info.cap < 2 ^ 32) (h : cache_init info = .ok c) :
    ∃ logA logB logC, info.assoc = 2 ^ logA ∧ info.blksz = 2 ^ logB ∧ info.cap = 2 ^ logC ∧
      logA + logB ≤ logC ∧ logC < 32 ∧ c.info = info ∧ c.off_bits = logB ∧
      c.idx_bits = logC - logA - logB ∧ c.nlines = 2 ^ (logC - logB) ∧
      c.nsets = 2 ^ (logC - logA - logB) := by
  unfold cache_init at h
  obtain ⟨logB, hB, h⟩ := bind_ok h
  obtain ⟨logA, hA', h⟩ := bind_ok h
  obtain ⟨logC, hC, h⟩ := bind_ok h
  obtain ⟨eB, lB⟩ := logbase2_ok hblk hB
  obtain ⟨eA, lA⟩ := logbase2_ok hA hA'
  obtain ⟨eC, lC⟩ := logbase2_ok hcap hC
  split at h
  · cases h
  · rename_i hle
    refine ⟨logA, logB, logC, eA, eB, eC, by omega, lC, ?_⟩
    have e1 : (logC - logA - logB) % 32 = logC - logA - logB := Nat.mod_eq_of_lt (by omega)
    have e2 : logB % 32 = logB := Nat.mod_eq_of_lt lB
    dsimp only at h
    rw [e1, e2, one_shiftLeft_u32 (show logC - logB < 32 by omega),
      one_shiftLeft_u32 (show logC - logA - logB < 32 by omega)] at h
    cases h
    exact ⟨rfl, rfl, rfl, rfl, rfl⟩

theorem cache_init_cases (info : cache_info) :
    cache_init info = .error .failure ∨ ∃ c, cache_init info = .ok c := by
  unfold cache_init
  rcases logbase2_cases info.blksz with h | ⟨b, h⟩ <;> rw [h]
  · exact Or.inl rfl
  rcases logbase2_cases info.assoc with h | ⟨a, h⟩ <;> simp only [bind, Except.bind] <;> rw [h]
  · exact Or.inl rfl
  rcases logbase2_cases info.cap with h | ⟨l, h⟩ <;> simp only <;> rw [h]
  · exact Or.inl rfl
  simp only
  split
  · exact Or.inl rfl
  · exact Or.inr ⟨_, rfl⟩

theorem cache_init_accepts {info : cache_info} {a b l : Nat} (eA : info.assoc = 2 ^ a)
    (eB : info.blksz = 2 ^ b) (eC : info.cap = 2 ^ l) (hl : l < 32) (hle : a + b ≤ l) :
    ∃ c, cache_init info = .ok c := by
  unfold cache_init
  rw [eA, eB, eC, logbase2_pow (show b < 32 by omega), logbase2_pow (show a < 32 by omega),
    logbase2_pow hl]
  simp only [bind, Except.bind]
  rw [if_neg (by omega)]
  exact ⟨_, rfl⟩

/-- Claim C12: for all unsigned `A`, `B`, `C`, `logbase2 n` fails exactly when `n` is 0 or
not a power of two and otherwise returns `l` with `2 ^ l = n`; `cache_init` accepts the
configuration if and only if `A`, `B` and `C` are powers of two and `C ≥ A * B`, and it
fails otherwise; and whenever it accepts, `B = 2 ^ off_bits`, `nsets = 2 ^ idx_bits`,
`nlines = C / B = nsets * A` and `nsets * A * B = C`. -/
theorem cache_init_accepts_iff_geometry (info : cache_info) (hA : info.assoc < 2 ^ 32)
    (hB : info.blksz < 2 ^ 32) (hC : info.cap < 2 ^ 32) :
    (∀ n, n < 2 ^ 32 →
      (logbase2 n = .error .failure ↔ (n = 0 ∨ ¬ ∃ l, n = 2 ^ l)) ∧
      (logbase2 n ≠ .error .failure → ∃ l, logbase2 n = .ok l ∧ 2 ^ l = n)) ∧
    ((∃ c, cache_init info = .ok c) ↔
      ((∃ a, info.assoc = 2 ^ a) ∧ (∃ b, info.blksz = 2 ^ b) ∧ (∃ l, info.cap = 2 ^ l) ∧
        info.assoc * info.blksz ≤ info.cap)) ∧
    (cache_init info = .error .failure ↔
      ¬ ((∃ a, info.assoc = 2 ^ a) ∧ (∃ b, info.blksz = 2 ^ b) ∧ (∃ l, info.cap = 2 ^ l) ∧
        info.assoc * info.blksz ≤ info.cap)) ∧
    ∀ c, cache_init info = .ok c →
      c.info = info ∧ info.blksz = 2 ^ c.off_bits ∧ c.nsets = 2 ^ c.idx_bits ∧
      c.nlines = info.cap / info.blksz ∧ c.nlines = c.nsets * info.assoc ∧
      c.nsets * info.assoc * info.blksz = info.cap := by
  have hacc : (∃ c, cache_init info = .ok c) ↔
      ((∃ a, info.assoc = 2 ^ a) ∧ (∃ b, info.blksz = 2 ^ b) ∧ (∃ l, info.cap = 2 ^ l) ∧
        info.assoc * info.blksz ≤ info.cap) := by
    constructor
    · rintro ⟨c, hc⟩
      obtain ⟨a, b, l, eA, eB, eC, hle, _, _⟩ := cache_init_fields hA hB hC hc
      refine ⟨⟨a, eA⟩, ⟨b, eB⟩, ⟨l, eC⟩, ?_⟩
      rw [eA, eB, eC, ← Nat.pow_add]
      exact Nat.pow_le_pow_right (by decide) hle
    · rintro ⟨⟨a, eA⟩, ⟨b, eB⟩, ⟨l, eC⟩, hle⟩
      have hl : l < 32 := by
        rw [eC] at hC
        exact (Nat.pow_lt_pow_iff_right (by decide : 1 < 2)).mp hC
      rw [eA, eB, eC, ← Nat.pow_add] at hle
      exact cache_init_accepts eA eB eC hl
        ((Nat.pow_le_pow_iff_right (by decide : 1 < 2)).mp hle)
  refine ⟨?_, hacc, ?_, ?_⟩
  · intro n hn
    refine ⟨logbase2_error_iff hn, ?_⟩
    intro hne
    rcases logbase2_cases n with he | ⟨l, hl⟩
    · exact absurd he hne
    · exact ⟨l, hl, (logbase2_ok hn hl).1.symm⟩
  · rw [← hacc]
    constructor
    · rintro he ⟨c, hc⟩
      rw [he] at hc
      cases hc
    · intro hno
      rcases cache_init_cases info with he | hc
      · exact he
      · exact absurd hc hno
  · intro c hc
    obtain ⟨a, b, l, eA, eB, eC, hle, _, hinfo, hoff, hidx, hnl, hns⟩ :=
      cache_init_fields hA hB hC hc
    rw [hoff, hidx, hnl, hns, eA, eB, eC]
    refine ⟨hinfo, rfl, rfl, ?_, ?_, ?_⟩
    · rw [Nat.pow_div (by omega) (by decide)]
    · rw [← Nat.pow_add]
      congr 1
      omega
    · rw [← Nat.pow_add, ← Nat.pow_add]
      congr 1
      omega

theorem cache_init_accepts_iff_geometry_witness :
    (∃ c, cache_init scenario_info = .ok c) ∧
    ¬ (∃ c, cache_init { scenario_info with cap := 4 } = .ok c) ∧
    cache_init { scenario_info with assoc := 3 } = .error .failure :=
  ⟨(cache_init_accepts_iff_geometry scenario_info (by decide) (by decide) (by decide)).2.1.mpr
      ⟨⟨1, rfl⟩, ⟨2, rfl⟩, ⟨4, rfl⟩, by decide⟩,
    fun h => absurd
      ((cache_init_accepts_iff_geometry { scenario_info with cap := 4 }
        (by decide) (by decide) (by decide)).2.1.mp h).2.2.2 (by decide),
    (cache_init_accepts_iff_geometry { scenario_info with assoc := 3 }
        (by decide) (by decide) (by decide)).2.2.1.mpr
      (fun h => by
        obtain ⟨⟨a, ha⟩, _⟩ := h
        have h3 : (3 : Nat) = 2 ^ a := ha
        cases a with
        | zero => simp at h3
        | succ a => omega)⟩

theorem for_each_invariant {α : Type} {body : machine → α → Except Fault machine}
    (P : machine → Prop) (hstep : ∀ m x m', P m → body m x = .ok m' → P m') :
    ∀ (xs : List α) (m m' : machine), P m → for_each body m xs = .ok m' → P m' := by
  intro xs
  induction xs with
  | nil =>
    intro m m' hm h
    cases h
    exact hm
  | cons x xs ih =>
    intro m m' hm h
    unfold for_each at h
    split at h
    · cases h
    · rename_i m1 h1
      exact ih m1 m' (hstep m x m1 hm h1) h

theorem list_length_three {α : Type} {l : List α} (h : l.length = 3) :
    ∃ a b c, l = [a, b, c] := by
  match l, h with
  | [a, b, c], _ => exact ⟨a, b, c, rfl⟩

theorem parsed_init : parsed machine_init := by
  refine ⟨rfl, rfl, rfl, ?_⟩
  intro j hj h
  have : j = 0 ∨ j = 1 := by unfold MAXLEVEL at hj; omega
  rcases this with rfl | rfl <;> simp [machine_init, machine.pair, MAXLEVEL] at h

theorem make_cache_parsed (m : machine) (n : Int) (type : Char) (info : cache_info)
    (m' : machine) (hm : parsed m) (h : make_cache m n type info = .ok m') : parsed m' := by
  obtain ⟨hlen, hi2, hd2, hn⟩ := hm
  obtain ⟨p0, p1, p2, hL⟩ := list_length_three hlen
  obtain ⟨heap, L, log⟩ := m
  dsimp only at hL
  subst hL
  have hcase : n = 1 ∨ n = 2 := by
    unfold make_cache at h
    split at h
    · cases h
    · rename_i hrange
      unfold MAXLEVEL at hrange
      push_neg at hrange
      omega
  have h0 := hn 0 (by decide)
  have h1 := hn 1 (by decide)
  simp only [machine.pair, List.getD_cons_zero, List.getD_cons_succ] at hi2 hd2 h0 h1
  rcases hci : cache_init info with e | c
  · simp [make_cache, hci] at h
    split at h <;> cases h
  rcases hcase with rfl | rfl
  · by_cases hI : type = 'I' <;> by_cases hD : type = 'D' <;>
      simp [make_cache, hci, MAXLEVEL, machine.pair, hI, hD, c_bool] at h
    all_goals (split_ifs at h <;> cases h)
    all_goals
      refine ⟨rfl, hi2, hd2, ?_⟩
      intro j hj hs
      have hj' : j = 0 ∨ j = 1 := by unfold MAXLEVEL at hj; omega
      rcases hj' with rfl | rfl
      · simp [machine.pair]
      · simpa [machine.pair] using h1 (by simpa [machine.pair] using hs)
  · by_cases hI : type = 'I' <;> by_cases hD : type = 'D' <;>
      simp [make_cache, hci, MAXLEVEL, machine.pair, hI, hD, c_bool] at h
    all_goals (split_ifs at h <;> cases h)
    all_goals
      refine ⟨rfl, hi2, hd2, ?_⟩
      intro j hj hs
      have hj' : j = 0 ∨ j = 1 := by unfold MAXLEVEL at hj; omega
      rcases hj' with rfl | rfl
      · simpa [machine.pair] using h0 (by simpa [machine.pair] using hs)
      · simp [machine.pair]

theorem parse_parsed (opts : List cache_option) (m0 : machine)
    (h : for_each (fun m o => make_cache m o.n o.type o.info) machine_init opts = .ok m0) :
    parsed m0 :=
  for_each_invariant parsed (fun m o m' hm hs => make_cache_parsed m o.n o.type o.info m' hm hs)
    opts machine_init m0 parsed_init h

theorem removegaps_parsed (m : machine) (hm : parsed m) :
    (removegaps m = .error .failure ↔
      ∃ j, j < MAXLEVEL ∧ (m.pair j).i.isSome ≠ (m.pair j).d.isSome) ∧
    ((∃ m', removegaps m = .ok m') ∨ removegaps m = .error .failure) ∧
    ∀ m', removegaps m = .ok m' →
      ∃ k, k ≤ MAXLEVEL ∧ (m'.pair k).i = none ∧ (m'.pair k).d = none ∧
        (∀ j, j < k → (m'.pair j).i.isSome ∧ (m'.pair j).d.isSome) ∧
        ((∀ j, j < k → (m'.pair j).n = j + 1) ∨
          (k = 1 ∧ m'.pair 0 = m.pair 1 ∧ (m.pair 0).i = none ∧ (m.pair 0).d = none ∧
            (m'.pair 0).n = 2)) := by
  obtain ⟨hlen, hi2, hd2, hn⟩ := hm
  obtain ⟨p0, p1, p2, hL⟩ := list_length_three hlen
  obtain ⟨heap, L, log⟩ := m
  dsimp only at hL
  subst hL
  have h0 := hn 0 (by decide)
  have h1 := hn 1 (by decide)
  simp only [machine.pair, List.getD_cons_zero, List.getD_cons_succ] at hi2 hd2 h0 h1
  have hex : ∀ (P : Nat → Prop), (∃ j, j < MAXLEVEL ∧ P j) ↔ (P 0 ∨ P 1) := by
    intro P
    constructor
    · rintro ⟨j, hj, hp⟩
      have hj' : j = 0 ∨ j = 1 := by unfold MAXLEVEL at hj; omega
      rcases hj' with rfl | rfl
      · exact Or.inl hp
      · exact Or.inr hp
    · rintro (hp | hp)
      · exact ⟨0, by decide, hp⟩
      · exact ⟨1, by decide, hp⟩
  rw [hex]
  rcases hi0 : p0.i with _ | a0 <;> rcases hd0 : p0.d with _ | b0 <;>
    rcases hi1 : p1.i with _ | a1 <;> rcases hd1 : p1.d with _ | b1 <;>
    simp [hi0, hd0, hi1, hd1] at h0 h1 <;>
    simp [removegaps, removegaps_loop, machine.pair, c_bool, MAXLEVEL, hi0, hd0, hi1, hd1,
      hi2, hd2]
  · exact ⟨0, by decide, by simp⟩
  · refine ⟨1, by decide, by simp, by simp, ?_, Or.inr ⟨rfl, h1⟩⟩
    intro j hj
    obtain rfl : j = 0 := by omega
    simp [hi1, hd1]
  · refine ⟨1, by decide, by simp, by simp, ?_, ?_⟩
    · intro j hj
      obtain rfl : j = 0 := by omega
      simp [hi0, hd0]
    · intro j hj
      obtain rfl : j = 0 := by omega
      simpa using h0
  · refine ⟨2, by decide, by simp [hi2], by simp [hd2], ?_, ?_⟩
    · intro j hj
      have hj' : j = 0 ∨ j = 1 := by omega
      rcases hj' with rfl | rfl
      · simp [hi0, hd0]
      · simp [hi1, hd1]
    · intro j hj
      have hj' : j = 0 ∨ j = 1 := by omega
      rcases hj' with rfl | rfl
      · simpa using h0
      · simpa using h1

/-- Claim C13 as stated fails on the code: the options `-L2,2,4,16,1,001` give a level-2
cache and no level-1 cache, and startup does not fail: `removegaps` moves the level-2
entry to position 0, where it keeps `n = 2`, so the first entry does not carry `n = 1`. -/
theorem lone_second_level_not_rejected :
    configure [⟨'L', 2, scenario_info⟩] ≠ .error .failure ∧
    (configure [⟨'L', 2, scenario_info⟩]).map
        (fun m => ((m.pair 0).i, (m.pair 0).d, (m.pair 0).n, (m.pair 1).i, (m.pair 1).d)) =
      .ok (some 0, some 0, 2, none, none) := by
  refine ⟨by decide!, by decide!⟩

/-- Claim C13, amended: a gap in the level sequence is not rejected but closed.  A
configuration that gives a level-2 cache (unified, or its I and D sides) and no level-1
cache is accepted whenever `cache_init` accepts its geometry: `removegaps` moves the
level-2 entry to position 0, where it keeps `n = 2`, and the DRAM sentinel follows.  On
the array that the options leave, `removegaps` fails exactly when one of the levels has
only one of its two sides, and succeeds otherwise.  In every hierarchy that startup
accepts there is a `k ≤ MAXLEVEL` such that entry `k` is the sentinel, the entries before
it have both sides, and either every entry `j < k` carries `n = j + 1`, or level 1 was
skipped: `k = 1` and entry 0 is the level-2 entry with `n = 2`. -/
theorem removegaps_closes_level_gap (info : cache_info) (c : cache)
    (hc : cache_init info = .ok c) (opts : List cache_option) (m0 : machine)
    (h0 : for_each (fun m o => make_cache m o.n o.type o.info) machine_init opts = .ok m0) :
    (∃ m, configure [⟨'L', 2, info⟩] = .ok m ∧ (m.pair 0).i = some 0 ∧
      (m.pair 0).d = some 0 ∧ (m.pair 0).n = 2 ∧ (m.pair 1).i = none ∧ (m.pair 1).d = none) ∧
    (∃ m, configure [⟨'I', 2, info⟩, ⟨'D', 2, info⟩] = .ok m ∧ (m.pair 0).i = some 0 ∧
      (m.pair 0).d = some 1 ∧ (m.pair 0).n = 2 ∧ (m.pair 1).i = none ∧ (m.pair 1).d = none) ∧
    configure opts = removegaps m0 ∧
    (removegaps m0 = .error .failure ↔
      ∃ j, j < MAXLEVEL ∧ (m0.pair j).i.isSome ≠ (m0.pair j).d.isSome) ∧
    ((∃ m, removegaps m0 = .ok m) ∨ removegaps m0 = .error .failure) ∧
    ∀ m, configure opts = .ok m →
      ∃ k, k ≤ MAXLEVEL ∧ (m.pair k).i = none ∧ (m.pair k).d = none ∧
        (∀ j, j < k → (m.pair j).i.isSome ∧ (m.pair j).d.isSome) ∧
        ((∀ j, j < k → (m.pair j).n = j + 1) ∨
          (k = 1 ∧ m.pair 0 = m0.pair 1 ∧ (m0.pair 0).i = none ∧ (m0.pair 0).d = none ∧
            (m.pair 0).n = 2)) := by
  have hcfg : configure opts = removegaps m0 := by
    unfold configure
    rw [h0]
  obtain ⟨hfail, htotal, hshape⟩ := removegaps_parsed m0 (parse_parsed opts m0 h0)
  refine ⟨?_, ?_, hcfg, hfail, htotal, ?_⟩
  · simp [configure, for_each, make_cache, hc, machine_init, MAXLEVEL, machine.pair, c_bool,
      removegaps, removegaps_loop]
  · simp [configure, for_each, make_cache, hc, machine_init, MAXLEVEL, machine.pair, c_bool,
      removegaps, removegaps_loop]
  · intro m hm
    rw [hcfg] at hm
    exact hshape m hm

theorem removegaps_closes_level_gap_witness :
    ∃ m, configure [⟨'L', 2, scenario_info⟩] = .ok m ∧ (m.pair 0).i = some 0 ∧
      (m.pair 0).d = some 0 ∧ (m.pair 0).n = 2 ∧ (m.pair 1).i = none ∧ (m.pair 1).d = none :=
  (removegaps_closes_level_gap scenario_info scenario_init (by decide!) [] machine_init rfl).1

theorem bind_stable {α β : Type} {x x' : Except Fault α} {g g' : α → Except Fault β}
    (hx : x ≠ .error .fuel → x' = x)
    (hg : ∀ a, x = .ok a → g a ≠ .error .fuel → g' a = g a)
    (h : (x >>= g) ≠ .error .fuel) : (x' >>= g') = (x >>= g) := by
  cases x with
  | error e =>
    have he : (Except.error e : Except Fault α) ≠ .error .fuel := by
      intro hc
      cases hc
      exact h rfl
    rw [hx he]
    rfl
  | ok a =>
    rw [hx (by intro hc; cases hc)]
    exact hg a rfl h

theorem hash_find_loop_stable (c : cache) (set : cache_set) (tag M : Nat) :
    ∀ (f f' slot : Nat), f ≤ f' → hash_find_loop c set tag M f slot ≠ .error .fuel →
      hash_find_loop c set tag M f' slot = hash_find_loop c set tag M f slot := by
  intro f
  induction f with
  | zero => intro f' slot _ h; exact absurd rfl h
  | succ f ih =>
    intro f' slot hle h
    obtain ⟨g, rfl⟩ : ∃ g, f' = g + 1 := ⟨f' - 1, by omega⟩
    unfold hash_find_loop at h ⊢
    cases hT : set.hashtab.getD slot none with
    | none => rfl
    | some l =>
      rw [hT] at h
      dsimp only at h ⊢
      split
      · rfl
      · rename_i hv
        rw [if_neg hv] at h
        split
        · rfl
        · rename_i ht
          rw [if_neg ht] at h
          exact ih g _ (by omega) h

theorem hash_del_loop_stable (c : cache) (M : Nat) :
    ∀ (f f' : Nat) (T : List (Option Nat)) (i j : Nat), f ≤ f' →
      hash_del_loop c M f T i j ≠ .error .fuel →
      hash_del_loop c M f' T i j = hash_del_loop c M f T i j := by
  intro f
  induction f with
  | zero => intro f' T i j _ h; exact absurd rfl h
  | succ f ih =>
    intro f' T i j hle h
    obtain ⟨g, rfl⟩ : ∃ g, f' = g + 1 := ⟨f' - 1, by omega⟩
    unfold hash_del_loop at h ⊢
    dsimp only at h ⊢
    generalize (if j + 1 = M then 0 else j + 1) = j' at h ⊢
    cases hT : T.getD j' none with
    | none => rfl
    | some l =>
      rw [hT] at h
      dsimp only at h ⊢
      split
      · rename_i hv; rw [if_pos hv] at h; exact ih g _ _ _ (by omega) h
      · rename_i hv; rw [if_neg hv] at h; exact ih g _ _ _ (by omega) h

theorem hash_find_stable {f f' : Nat} (hle : f ≤ f') {c : cache} {set : cache_set} {tag : Nat}
    (h : hash_find f c set tag ≠ .error .fuel) :
    hash_find f' c set tag = hash_find f c set tag :=
  hash_find_loop_stable c set tag _ f f' _ hle h

theorem hash_add_stable {f f' : Nat} (hle : f ≤ f') {c : cache} {set : cache_set} {l : Nat}
    (h : hash_add f c set l ≠ .error .fuel) : hash_add f' c set l = hash_add f c set l := by
  unfold hash_add at h ⊢
  exact bind_stable (fun hx => hash_find_stable hle hx) (fun _ _ _ => rfl) h

theorem hash_del_stable {f f' : Nat} (hle : f ≤ f') {c : cache} {set : cache_set} {l : Nat}
    (h : hash_del f c set l ≠ .error .fuel) : hash_del f' c set l = hash_del f c set l := by
  unfold hash_del at h ⊢
  dsimp only at h ⊢
  refine bind_stable (fun hx => hash_find_stable hle hx) ?_ h
  intro s _ hs
  dsimp only at hs ⊢
  split
  · rfl
  · rename_i hn
    rw [if_neg hn] at hs
    exact bind_stable (fun hx => hash_del_loop_stable c _ f f' _ _ _ hle hx) (fun _ _ _ => rfl) hs

theorem cache_find_tag_stable {f f' : Nat} (hle : f ≤ f') {c : cache} {set : cache_set}
    {tag : Nat} (h : cache_find_tag f c set tag ≠ .error .fuel) :
    cache_find_tag f' c set tag = cache_find_tag f c set tag := by
  unfold cache_find_tag at h ⊢
  exact bind_stable (fun hx => hash_find_stable hle hx) (fun _ _ _ => rfl) h

theorem cache_allocate_stable {f f' : Nat} (hle : f ≤ f') {c : cache} {i t rnd : Nat}
    (h : cache_allocate f c i t rnd ≠ .error .fuel) :
    cache_allocate f' c i t rnd = cache_allocate f c i t rnd := by
  unfold cache_allocate at h ⊢
  dsimp only at h ⊢
  refine bind_stable (fun _ => rfl) ?_ h
  intro v _ hv
  refine bind_stable ?_ ?_ hv
  · intro hx
    split
    · rename_i hval; rw [if_pos hval] at hx; exact hash_del_stable hle hx
    · rfl
  · intro s1 _ hs1
    exact bind_stable (fun hx => hash_add_stable hle hx) (fun _ _ _ => rfl) hs1

/-- A result of `cache_access` other than a spent step budget is the result for every
larger budget. -/
theorem cache_access_stable {f f' : Nat} (hle : f ≤ f') {c : cache} {addr rnd : Nat} {w : Bool}
    (h : cache_access f c addr w rnd ≠ .error .fuel) :
    cache_access f' c addr w rnd = cache_access f c addr w rnd := by
  unfold cache_access at h ⊢
  dsimp only at h ⊢
  refine bind_stable (fun hx => cache_find_tag_stable hle hx) ?_ h
  intro found _ hfound
  refine bind_stable ?_ (fun _ _ _ => rfl) hfound
  intro hx
  cases found with
  | some l => rfl
  | none =>
    dsimp only at hx ⊢
    split
    · rename_i ha; rw [if_pos ha] at hx; exact cache_allocate_stable hle hx
    · rfl

theorem reachable_init_ok {info : cache_info} {c : cache} (hr : Reachable info c) :
    ∃ c0, cache_init info = .ok c0 := by
  induction hr with
  | init h => exact ⟨_, h⟩
  | step _ _ _ ih => exact ih

/-- The replacement bits take no part in `cache_init`: the flags are copied as they are. -/
theorem cache_init_flags (info : cache_info) (flags : Nat) :
    cache_init { info with flags := flags } =
      (cache_init info).map (fun c => { c with info := { c.info with flags := flags } }) := by
  unfold cache_init
  dsimp only
  cases logbase2 info.blksz with
  | error e => rfl
  | ok b =>
    cases logbase2 info.assoc with
    | error e => rfl
    | ok a =>
      cases logbase2 info.cap with
      | error e => rfl
      | ok l =>
        simp only [bind, Except.bind]
        split
        · rfl
        · rfl

theorem cache_touch_unknown (i : Nat) (w : Bool) (r : access_result) (l : Nat)
    (hl : r.linep = some l) (hp : ¬ known_policy r.c) :
    cache_touch i w r = .error .failure := by
  rw [cache_touch_some i w r l hl]
  dsimp only
  rw [dirtied_info]
  unfold known_policy at hp
  push_neg at hp
  rw [if_neg (by rintro (h | h) <;> simp [h] at hp), if_neg hp.1]

theorem cache_find_victim_unknown (c : cache) (set : cache_set) (rnd : Nat)
    (hp : ¬ known_policy c) : cache_find_victim c set rnd = .error .failure := by
  unfold cache_find_victim
  dsimp only
  unfold known_policy at hp
  push_neg at hp
  rw [if_neg (by rintro (h | h) <;> simp [h] at hp), if_neg hp.2.1]

/-- Claim C14 as stated fails on the code: the option `-L1,2,4,16,1,031` has replacement
bits `030`, which are none of LRU, RND, FIFO, yet `cache_init` and `make_cache` accept
it and startup builds the hierarchy; the first read then takes the branch
`unknown replacement policy` of `cache_find_victim`. -/
theorem unknown_policy_not_rejected_at_construction :
    odd_policy_info.flags &&& REPLACE_MASK ≠ LRU ∧
    odd_policy_info.flags &&& REPLACE_MASK ≠ RND ∧
    odd_policy_info.flags &&& REPLACE_MASK ≠ FIFO ∧
    (cache_init odd_policy_info).map (fun c => c.info.flags) = .ok 0o31 ∧
    (configure [⟨'L', 1, odd_policy_info⟩]).map
        (fun m => ((m.pair 0).i, (m.cache_at 0).info.flags)) = .ok (some 0, 0o31) ∧
    simulate no_rand 8 [⟨'L', 1, odd_policy_info⟩] [⟨DATA_R, 0x00⟩] = .error .failure := by
  refine ⟨by decide, by decide, by decide, by decide!, by decide!, by decide!⟩

/-- Claim C14, amended: construction does not look at the replacement bits, and an unknown
policy is rejected at its first use.  If `cache_init` accepts a geometry, it accepts it
with any flags and stores them as given.  In a cache whose replacement bits are none of
LRU, RND, FIFO, a write that misses under no-write-allocate returns `MISS_NOKICK` and
leaves the cache as it is, and every other access (every read, every write under
write-allocate, every hit) ends in `failure("unknown replacement policy")`.  In a cache
whose replacement bits are LRU, RND or FIFO every access returns, and no step budget
leads to the failure branches. -/
theorem unknown_policy_rejected_on_first_use (info : cache_info) (hcfg : config_ok info)
    (c : cache) (hr : Reachable info c) (addr rnd fuel : Nat) (w : Bool)
    (ha : addr < 2 ^ 32) (hf : 2 * info.assoc ≤ fuel) :
    (∀ flags, ∃ c0, cache_init { info with flags := flags } = .ok c0 ∧
      c0.info.flags = flags) ∧
    c.info.flags = info.flags ∧
    (¬ known_policy c →
      ((w = true ∧ info.flags &&& WRITE_ALLOC = 0 ∧ ¬ resident c addr) →
        cache_access fuel c addr w rnd =
          .ok { rc := MISS_NOKICK, kickout := none, linep := none, c := c }) ∧
      (¬ (w = true ∧ info.flags &&& WRITE_ALLOC = 0 ∧ ¬ resident c addr) →
        cache_access fuel c addr w rnd = .error .failure)) ∧
    (known_policy c →
      (∃ out, cache_access fuel c addr w rnd = .ok out) ∧
      ∀ fuel', cache_access fuel' c addr w rnd ≠ .error .failure) := by
  obtain ⟨hinv, hinfo, hsize⟩ := reachable_inv hcfg hr
  have hf' : hashsize c ≤ fuel := by rw [hsize]; exact hf
  have hi := addr_index_lt hinv addr
  have hs := hinv.sets _ hi
  refine ⟨?_, by rw [hinfo], ?_, ?_⟩
  · intro flags
    obtain ⟨c0, hc0⟩ := reachable_init_ok hr
    rw [cache_init_flags, hc0]
    exact ⟨_, rfl, rfl⟩
  · intro hp
    have hal_iff : (!w || (c.info.flags &&& WRITE_ALLOC != 0)) = false ↔
        (w = true ∧ info.flags &&& WRITE_ALLOC = 0) := by
      rw [hinfo]
      cases w <;> simp
    rcases cache_access_spec hinv ha w rnd hf' with
      ⟨l, ⟨s, hst⟩, htag, heq⟩ | ⟨habs, ⟨hal, heq⟩ | ⟨hal, ⟨_, heq⟩ | ⟨v, T, hv, _⟩⟩⟩
    · have hres : resident c addr :=
        (resident_iff c addr).mpr ⟨l, hs.tab.mem s l hst, hs.tab.valid s l hst, htag⟩
      refine ⟨fun hc => absurd hres hc.2.2, fun _ => ?_⟩
      rw [heq]
      exact cache_touch_unknown _ _ _ l rfl hp
    · exact ⟨fun _ => heq, fun hc => by
        exfalso
        apply hc
        obtain ⟨hw, hwa⟩ := hal_iff.mp hal
        refine ⟨hw, hwa, ?_⟩
        intro hres
        obtain ⟨l, hin, hval, htag⟩ := (resident_iff c addr).mp hres
        obtain ⟨s, hst⟩ := hs.present l hin hval
        exact habs s l hst htag⟩
    · refine ⟨fun hc => ?_, fun _ => heq⟩
      have := hal_iff.mpr ⟨hc.1, hc.2.1⟩
      rw [this] at hal
      cases hal
    · rw [cache_find_victim_unknown c _ rnd hp] at hv
      cases hv
  · intro hp
    obtain ⟨out, ho⟩ := cache_access_total hinv hp ha w rnd hf'
    refine ⟨⟨out, ho⟩, ?_⟩
    intro fuel' hc
    have hne : cache_access fuel' c addr w rnd ≠ .error .fuel := by
      rw [hc]
      intro h
      cases h
    have h1 := cache_access_stable (Nat.le_max_left fuel' fuel) hne
    have h2 := cache_access_mono (Nat.le_max_right fuel' fuel) ho
    rw [h1, hc] at h2
    cases h2

theorem unknown_policy_rejected_on_first_use_witness :
    cache_access 4 { scenario_init with info := odd_policy_info } 0x10 false 0 =
      .error .failure :=
  ((unknown_policy_rejected_on_first_use odd_policy_info
    (by unfold config_ok; decide) { scenario_init with info := odd_policy_info }
    (Reachable.init (by decide!)) 0x10 0 4 false (by decide) (by decide)).2.2.1
      (by unfold known_policy; decide)).2 (fun h => Bool.noConfusion h.1)

/-- A table that stores no line twice, and only lines out of `A` consecutive ones,
has at most `A` occupied slots. -/
theorem occupied_le (T : List (Option Nat)) (f A : Nat)
    (hmem : ∀ s l, T.getD s none = some l → f ≤ l ∧ l < f + A)
    (hinj : ∀ s s' l, T.getD s none = some l → T.getD s' none = some l → s = s') :
    T.countP (fun o => o.isSome) ≤ A := by
  have hpair : T.Pairwise (fun a a' => ∀ b ∈ a, ∀ b' ∈ a', b ≠ b') := by
    rw [List.pairwise_iff_getElem]
    intro i j hi hj hij b hb b' hb' hbb
    subst hbb
    have h1 : T.getD i none = some b := by rw [List.getD_eq_getElem _ _ hi]; exact hb
    have h2 : T.getD j none = some b := by rw [List.getD_eq_getElem _ _ hj]; exact hb'
    have := hinj i j b h1 h2
    omega
  have hnodup : T.reduceOption.Nodup :=
    List.Pairwise.filterMap id (fun a a' h b hb b' hb' => h b hb b' hb') hpair
  have hsub : T.reduceOption.toFinset ⊆ Finset.Ico f (f + A) := by
    intro l hl
    rw [List.mem_toFinset, List.reduceOption_mem_iff] at hl
    obtain ⟨s, hs, hget⟩ := List.getElem_of_mem hl
    have h1 : T.getD s none = some l := by rw [List.getD_eq_getElem _ _ hs]; exact hget
    exact Finset.mem_Ico.mpr (hmem s l h1)
  have hcard := Finset.card_le_card hsub
  rw [List.toFinset_card_of_nodup hnodup, Nat.card_Ico, List.reduceOption_length_eq] at hcard
  rw [List.countP_eq_length_filter]
  have e : (fun o : Option Nat => o.isSome) = Option.isSome := rfl
  rw [e]
  omega

/-- Claim C15: in every state reachable from a cache built by `cache_init` with a valid
geometry, under any replacement bits and any random choices, each valid line of a set
occupies exactly one slot of the hash table of that set, no slot holds an invalid line or
a line of another set, and the table has `2 * A` slots of which at most `A` are
occupied. -/
theorem hash_holds_valid_lines_once (info : cache_info) (hcfg : config_ok info) (c : cache)
    (hr : Reachable info c) (i : Nat) (hi : i < c.nsets) :
    (∀ l, i * info.assoc ≤ l → l < i * info.assoc + info.assoc → (c.line l).valid = true →
      ∃ s, (c.set_at i).hashtab.getD s none = some l ∧
        ∀ s', (c.set_at i).hashtab.getD s' none = some l → s' = s) ∧
    (∀ s l, (c.set_at i).hashtab.getD s none = some l →
      (c.line l).valid = true ∧ i * info.assoc ≤ l ∧ l < i * info.assoc + info.assoc) ∧
    (c.set_at i).hashtab.length = 2 * info.assoc ∧
    (c.set_at i).hashtab.countP (fun o => o.isSome) ≤ info.assoc := by
  obtain ⟨hinv, hinfo, hsize⟩ := reachable_inv hcfg hr
  have hs := hinv.sets i hi
  have hfirst := hinv.first i hi
  have hin : ∀ l, in_set c (c.set_at i) l ↔
      (i * info.assoc ≤ l ∧ l < i * info.assoc + info.assoc) := by
    intro l
    unfold in_set
    rw [hfirst, hinfo]
  refine ⟨?_, ?_, ?_, ?_⟩
  · intro l h1 h2 hv
    obtain ⟨s, hst⟩ := hs.present l ((hin l).mpr ⟨h1, h2⟩) hv
    exact ⟨s, hst, fun s' hs' => hs.tab.inj s' s l hs' hst⟩
  · intro s l hst
    exact ⟨hs.tab.valid s l hst, (hin l).mp (hs.tab.mem s l hst)⟩
  · rw [hs.tab.len, hsize]
  · exact occupied_le _ (i * info.assoc) info.assoc
      (fun s l hst => (hin l).mp (hs.tab.mem s l hst)) hs.tab.inj

theorem hash_holds_valid_lines_once_witness :
    (∀ l, 0 * scenario_info.assoc ≤ l → l < 0 * scenario_info.assoc + scenario_info.assoc →
      (scenario_cache.line l).valid = true →
      ∃ s, (scenario_cache.set_at 0).hashtab.getD s none = some l ∧
        ∀ s', (scenario_cache.set_at 0).hashtab.getD s' none = some l → s' = s) ∧
    (∀ s l, (scenario_cache.set_at 0).hashtab.getD s none = some l →
      (scenario_cache.line l).valid = true ∧ 0 * scenario_info.assoc ≤ l ∧
        l < 0 * scenario_info.assoc + scenario_info.assoc) ∧
    (scenario_cache.set_at 0).hashtab.length = 2 * scenario_info.assoc ∧
    (scenario_cache.set_at 0).hashtab.countP (fun o => o.isSome) ≤ scenario_info.assoc :=
  hash_holds_valid_lines_once scenario_info (by unfold config_ok; decide) scenario_cache
    scenario_cache_reachable 0 (by decide)

theorem tab_wf_pos {c : cache} {set : cache_set} (h : tab_wf c set) : 0 < hashsize c := by
  obtain ⟨e, he, _⟩ := h.empty
  omega

theorem tab_wf_inj {c : cache} {set : cache_set} (h : tab_wf c set) (s s' l : Nat)
    (hs : set.hashtab.getD s none = some l) (hs' : set.hashtab.getD s' none = some l) :
    s = s' :=
  h.tags s s' l l hs hs' rfl

theorem tab_inv_wf {c : cache} {set : cache_set} (h : tab_inv c set) :
    tab_wf c set ∧ all_valid c set := by
  refine ⟨⟨h.len, ?_, h.path, h.empty⟩, h.valid⟩
  intro s s' l l' hs hs' ht
  have := h.tags s s' l l' hs hs' ht
  subst this
  exact h.inj s s' l hs hs'

theorem wf_find_stored {c : cache} {set : cache_set} (h : tab_wf c set)
    (hvalid : all_valid c set) {s l fuel : Nat}
    (hs : set.hashtab.getD s none = some l) (hf : hashsize c ≤ fuel) :
    hash_find fuel c set (c.line l).tag = .ok s := by
  have hsM : s < hashsize c := h.len ▸ getD_some_lt hs
  have hk := and_mask_lt (c.line l).tag (hashsize c) (tab_wf_pos h)
  obtain ⟨r, hr, hrM, hstop, hpass⟩ := hash_find_loop_spec c set (c.line l).tag (hashsize c)
    ((c.line l).tag &&& (hashsize c - 1)) s hvalid hk hsM (Or.inr ⟨l, hs, rfl⟩) fuel
    ((c.line l).tag &&& (hashsize c - 1)) hk
    (lt_of_lt_of_le (probe_dist_lt hk hsM) hf) (on_path_self _ _)
    (fun x _ hp => absurd hp (on_path_self _ _))
  rw [hash_find_eq, hr]
  by_cases hrs : r = s
  · rw [hrs]
  exfalso
  rcases on_path_total hrM hsM hk hrs with hp | hp
  · have hocc := h.path s l hs r hrM hp
    rcases hstop with h0 | ⟨l', hl', ht⟩
    · exact hocc h0
    · exact hrs (h.tags r s l' l hl' hs ht)
  · obtain ⟨l', hl', hne⟩ := hpass s hsM hp
    rw [hs] at hl'
    cases hl'
    exact hne rfl

theorem wf_find_absent {c : cache} {set : cache_set} (h : tab_wf c set)
    (hvalid : all_valid c set) {tag fuel : Nat}
    (habs : ∀ s l, set.hashtab.getD s none = some l → (c.line l).tag ≠ tag)
    (hf : hashsize c ≤ fuel) :
    ∃ r, hash_find fuel c set tag = .ok r ∧ r < hashsize c ∧
      set.hashtab.getD r none = none := by
  obtain ⟨e, he, hE⟩ := h.empty
  have hk := and_mask_lt tag (hashsize c) (tab_wf_pos h)
  obtain ⟨r, hr, hrM, hstop, _⟩ := hash_find_loop_spec c set tag (hashsize c)
    (tag &&& (hashsize c - 1)) e hvalid hk he (Or.inl hE) fuel
    (tag &&& (hashsize c - 1)) hk
    (lt_of_lt_of_le (probe_dist_lt hk he) hf) (on_path_self _ _)
    (fun x _ hp => absurd hp (on_path_self _ _))
  refine ⟨r, by rw [hash_find_eq, hr], hrM, ?_⟩
  rcases hstop with h0 | ⟨l', hl', ht⟩
  · exact h0
  · exact absurd ht (habs r l' hl')

/-- The hole-filling loop of `hash_del` leaves an empty slot other than the hole empty. -/
theorem hash_del_loop_keeps_empty (c : cache) (M e : Nat) :
    ∀ (fuel : Nat) (T : List (Option Nat)) (i j : Nat) (T' : List (Option Nat)),
      T.getD e none = none → e ≠ i → hash_del_loop c M fuel T i j = .ok T' →
      T'.getD e none = none := by
  intro fuel
  induction fuel with
  | zero => intro T i j T' _ _ h; cases h
  | succ fuel ih =>
    intro T i j T' he hei h
    unfold hash_del_loop at h
    dsimp only at h
    generalize (if j + 1 = M then 0 else j + 1) = j' at h
    cases hT : T.getD j' none with
    | none =>
      rw [hT] at h
      cases h
      exact he
    | some l =>
      rw [hT] at h
      dsimp only at h
      have hej : e ≠ j' := by
        rintro rfl
        rw [he] at hT
        cases hT
      split at h
      · refine ih _ _ _ T' ?_ hej h
        rw [getD_set_ne _ _ (Ne.symm hej), getD_set_ne _ _ (Ne.symm hei)]
        exact he
      · exact ih _ _ _ T' he hei h

theorem wf_del {c : cache} {set : cache_set} (h : tab_wf c set) (hvalid : all_valid c set)
    {s0 v fuel : Nat} (hs0 : set.hashtab.getD s0 none = some v) (hf : hashsize c ≤ fuel) :
    ∃ T, hash_del fuel c set v = .ok { set with hashtab := T } ∧
      del_post c (hashsize c) set.hashtab v T ∧
      ∃ e, e < hashsize c ∧ T.getD e none = none := by
  obtain ⟨e0, he0, hE⟩ := h.empty
  have hs0M : s0 < hashsize c := h.len ▸ getD_some_lt hs0
  have hne : e0 ≠ s0 := by rintro rfl; rw [hE] at hs0; cases hs0
  have get_o : ∀ x, x ≠ s0 → (set.hashtab.set s0 none).getD x none = set.hashtab.getD x none :=
    fun x hx => getD_set_ne _ _ (Ne.symm hx)
  have get_s : (set.hashtab.set s0 none).getD s0 none = none :=
    getD_set_eq _ _ (by rw [h.len]; exact hs0M)
  have hinit : del_inv c (hashsize c) set.hashtab v e0 (set.hashtab.set s0 none) s0 s0 := by
    refine ⟨by simp [h.len], hs0M, hs0M, get_s, ?_, ?_, ?_, ?_, he0, ?_, hne, in_gap_self _ _⟩
    · intro x _ hg; exact absurd hg (in_gap_self _ _)
    · intro s l hs x hx hp hxs
      have hss : s ≠ s0 := by rintro rfl; rw [get_s] at hs; cases hs
      rw [get_o s hss] at hs
      rw [get_o x hxs]
      exact h.path s l hs x hx hp
    · intro l
      constructor
      · rintro ⟨s, hs⟩
        have hss : s ≠ s0 := by rintro rfl; rw [get_s] at hs; cases hs
        rw [get_o s hss] at hs
        refine ⟨⟨s, hs⟩, ?_⟩
        rintro rfl
        exact hss (tab_wf_inj h _ _ _ hs hs0)
      · rintro ⟨⟨s, hs⟩, hl⟩
        have hss : s ≠ s0 := by rintro rfl; rw [hs0] at hs; cases hs; exact hl rfl
        exact ⟨s, by rw [get_o s hss]; exact hs⟩
    · intro s s' l hs hs'
      have hss : s ≠ s0 := by rintro rfl; rw [get_s] at hs; cases hs
      have hss' : s' ≠ s0 := by rintro rfl; rw [get_s] at hs'; cases hs'
      rw [get_o s hss] at hs
      rw [get_o s' hss'] at hs'
      exact tab_wf_inj h _ _ _ hs hs'
    · rw [get_o e0 hne]; exact hE
  obtain ⟨T, hT, hpost⟩ := hash_del_loop_spec c (hashsize c) set.hashtab v e0 fuel _ _ _ hinit
    (le_trans (le_of_lt (probe_dist_lt hs0M he0)) hf)
  refine ⟨T, ?_, hpost, e0, he0, ?_⟩
  · unfold hash_del
    rw [wf_find_stored h hvalid hs0 hf]
    simp only [bind, Except.bind]
    rw [hs0]
    simp only [ne_eq, not_true_eq_false, ↓reduceIte]
    rw [show u32 (1 <<< c.hash_bits) = hashsize c from rfl, hT]
  · exact hash_del_loop_keeps_empty c (hashsize c) e0 fuel _ s0 s0 T
      (by rw [get_o e0 hne]; exact hE) hne hT

theorem wf_of_del_post {c : cache} {set : cache_set} (h : tab_wf c set)
    (hvalid : all_valid c set) {v : Nat} {T : List (Option Nat)}
    (hp : del_post c (hashsize c) set.hashtab v T)
    (hempty : ∃ e, e < hashsize c ∧ T.getD e none = none) :
    tab_wf c { set with hashtab := T } ∧ all_valid c { set with hashtab := T } := by
  have old : ∀ s l, T.getD s none = some l → ∃ s', set.hashtab.getD s' none = some l :=
    fun s l hs => ((hp.content l).mp ⟨s, hs⟩).1
  refine ⟨⟨hp.len, ?_, hp.path, hempty⟩, ?_⟩
  · intro s s' l l' hs hs' ht
    obtain ⟨t, ht1⟩ := old s l hs
    obtain ⟨t', ht2⟩ := old s' l' hs'
    have htt := h.tags t t' l l' ht1 ht2 ht
    subst htt
    rw [ht1] at ht2
    cases ht2
    exact hp.inj s s' l hs hs'
  · intro s l hs
    obtain ⟨s', hs'⟩ := old s l hs
    exact hvalid s' l hs'

theorem mask_eq_mod {c : cache} {a : Nat} (hA : c.info.assoc = 2 ^ a)
    (hM : hashsize c = 2 * c.info.assoc) (t : Nat) :
    t &&& (hashsize c - 1) = t % hashsize c := by
  have e : hashsize c = 2 ^ (a + 1) := by rw [hM, hA, Nat.pow_succ]; ring
  rw [e, Nat.and_pow_two_sub_one_eq_mod]

/-- The tables that the code receives meet the conditions of `tab_wf` and store valid
lines only: in every reachable state, for every set. -/
theorem reachable_tab_wf {info : cache_info} (hcfg : config_ok info) {c : cache}
    (hr : Reachable info c) {i : Nat} (hi : i < c.nsets) :
    tab_wf c (c.set_at i) ∧ all_valid c (c.set_at i) :=
  tab_inv_wf ((reachable_inv hcfg hr).1.sets i hi).tab

theorem scenario_tab_inv : tab_inv scenario_cache (scenario_cache.set_at 0) :=
  ((reachable_inv (by unfold config_ok; decide) scenario_cache_reachable).1.sets 0
    (by decide)).tab

/-- Claim C16: for every per-set table of size `M = 2 A` (`A` a power of two, so that the
hash `tag & (M - 1)` is `tag mod M`) that satisfies the no-hole invariant, holds pairwise
distinct tags and has an empty slot, and for every line `v` stored in it, `hash_del`
returns within `M` steps of each of its loops.  A per-set table stores valid lines only
(`all_valid`), as the data model has it and as `reachable_tab_wf` shows for every table
the code receives.  Afterwards the table has the same size and contains exactly the
other entries, each once; a lookup of the deleted tag ends at an empty slot, so the tag
is not found; the table is well formed again (no hole, distinct tags, an empty slot,
valid lines); and `hash_find` of every remaining tag returns the slot of its line. -/
theorem hash_del_keeps_table_well_formed (c : cache) (set : cache_set) (a s0 v fuel : Nat)
    (hA : c.info.assoc = 2 ^ a) (hM : hashsize c = 2 * c.info.assoc)
    (h : tab_wf c set) (hvalid : all_valid c set)
    (hs0 : set.hashtab.getD s0 none = some v) (hf : hashsize c ≤ fuel) :
    (∀ t, t &&& (hashsize c - 1) = t % hashsize c) ∧
    ∃ T, hash_del fuel c set v = .ok { set with hashtab := T } ∧
      T.length = hashsize c ∧
      (∀ l, (∃ s, T.getD s none = some l) ↔
        ((∃ s, set.hashtab.getD s none = some l) ∧ l ≠ v)) ∧
      (∀ s s' l, T.getD s none = some l → T.getD s' none = some l → s = s') ∧
      cache_find_tag fuel c { set with hashtab := T } (c.line v).tag = .ok none ∧
      (∃ r, hash_find fuel c { set with hashtab := T } (c.line v).tag = .ok r ∧
        T.getD r none = none) ∧
      tab_wf c { set with hashtab := T } ∧ all_valid c { set with hashtab := T } ∧
      ∀ s l, T.getD s none = some l →
        hash_find fuel c { set with hashtab := T } (c.line l).tag = .ok s := by
  refine ⟨mask_eq_mod hA hM, ?_⟩
  obtain ⟨T, hdel, hpost, hempty⟩ := wf_del h hvalid hs0 hf
  obtain ⟨hwf, hval⟩ := wf_of_del_post h hvalid hpost hempty
  have habs : ∀ s l, T.getD s none = some l → (c.line l).tag ≠ (c.line v).tag := by
    intro s l hs ht
    obtain ⟨⟨s', hs'⟩, hne⟩ := (hpost.content l).mp ⟨s, hs⟩
    have hss := h.tags s' s0 l v hs' hs0 ht
    subst hss
    rw [hs0] at hs'
    cases hs'
    exact hne rfl
  obtain ⟨r, hr, _, hnone⟩ := wf_find_absent hwf hval habs hf
  refine ⟨T, hdel, hpost.len, hpost.content, hpost.inj, ?_, ⟨r, hr, hnone⟩, hwf, hval, ?_⟩
  · unfold cache_find_tag
    rw [hr]
    simp only [bind, Except.bind]
    rw [show ({ set with hashtab := T } : cache_set).hashtab.getD r none = none from hnone]
  · intro s l hs
    exact wf_find_stored hwf hval hs hf

theorem hash_del_keeps_table_well_formed_witness :
    ∃ T, hash_del 4 scenario_cache (scenario_cache.set_at 0) 0 =
        .ok { scenario_cache.set_at 0 with hashtab := T } ∧
      T.length = hashsize scenario_cache ∧
      cache_find_tag 4 scenario_cache { scenario_cache.set_at 0 with hashtab := T }
        (scenario_cache.line 0).tag = .ok none :=
  (hash_del_keeps_table_well_formed scenario_cache (scenario_cache.set_at 0) 1 1 0 4 rfl rfl
    (tab_inv_wf scenario_tab_inv).1 (tab_inv_wf scenario_tab_inv).2 (by decide) (by decide)).2.imp
    (fun _ h => ⟨h.1, h.2.1, h.2.2.2.2.1⟩)

theorem mod_step {k d M : Nat} (hk : k < M) (hd : d < M) :
    (k + d) % M = if k + d < M then k + d else k + d - M := by
  split
  · rename_i h
    exact Nat.mod_eq_of_lt h
  · rename_i h
    rw [Nat.mod_eq_sub_mod (by omega)]
    exact Nat.mod_eq_of_lt (by omega)

/-- The slot reached from `k` after `probe_dist M k r` steps is `r`, and the slots reached
after fewer steps are those on the path from `k` to `r`. -/
theorem probe_steps {M k r : Nat} (hk : k < M) (hr : r < M) :
    (k + probe_dist M k r) % M = r ∧
    ∀ d, d < probe_dist M k r → (k + d) % M < M ∧ on_path k ((k + d) % M) r := by
  have hd := probe_dist_lt hk hr
  refine ⟨?_, ?_⟩
  · rw [mod_step hk hd]
    unfold probe_dist at hd ⊢
    split <;> split <;> omega
  · intro d hdd
    rw [mod_step hk (by omega)]
    unfold probe_dist at hdd hd
    unfold on_path
    split at hdd <;> split <;> omega

/-- The probe of `hash_find` on a table with an empty slot and valid lines: it returns
the first slot from the natural hash on that is empty or holds the tag, after one
inspection per slot passed. -/
theorem wf_find_first {c : cache} {set : cache_set} {tag : Nat}
    (hvalid : all_valid c set)
    (hempty : ∃ e, e < hashsize c ∧ set.hashtab.getD e none = none) :
    ∃ r d, d < hashsize c ∧ r < hashsize c ∧
      r = ((tag &&& (hashsize c - 1)) + d) % hashsize c ∧
      (∀ fuel, d + 1 ≤ fuel → hash_find fuel c set tag = .ok r) ∧
      stops c set tag r ∧
      ∀ d', d' < d → passes c set tag (((tag &&& (hashsize c - 1)) + d') % hashsize c) := by
  obtain ⟨e, he, hE⟩ := hempty
  have hpos : 0 < hashsize c := by omega
  have hk := and_mask_lt tag (hashsize c) hpos
  obtain ⟨r, _, hrM, hstop, hpass⟩ := hash_find_loop_spec c set tag (hashsize c)
    (tag &&& (hashsize c - 1)) e hvalid hk he (Or.inl hE) (hashsize c)
    (tag &&& (hashsize c - 1)) hk (probe_dist_lt hk he) (on_path_self _ _)
    (fun x _ hp => absurd hp (on_path_self _ _))
  obtain ⟨hreach, hbefore⟩ := probe_steps hk hrM
  refine ⟨r, probe_dist (hashsize c) (tag &&& (hashsize c - 1)) r, probe_dist_lt hk hrM, hrM,
    hreach.symm, ?_, hstop, ?_⟩
  · intro fuel hf
    obtain ⟨r', hr', hr'M, hstop', hpass'⟩ := hash_find_loop_spec c set tag (hashsize c)
      (tag &&& (hashsize c - 1)) r hvalid hk hrM hstop fuel
      (tag &&& (hashsize c - 1)) hk (by omega) (on_path_self _ _)
      (fun x _ hp => absurd hp (on_path_self _ _))
    rw [hash_find_eq, hr']
    by_cases hrr : r' = r
    · rw [hrr]
    exfalso
    rcases on_path_total hr'M hrM hk hrr with hp | hp
    · obtain ⟨l, hl, hne⟩ := hpass r' hr'M hp
      rcases hstop' with h0 | ⟨l', hl', ht⟩
      · rw [hl] at h0; cases h0
      · rw [hl] at hl'; cases hl'; exact hne ht
    · obtain ⟨l, hl, hne⟩ := hpass' r hrM hp
      rcases hstop with h0 | ⟨l', hl', ht⟩
      · rw [hl] at h0; cases h0
      · rw [hl] at hl'; cases hl'; exact hne ht
  · intro d' hd'
    obtain ⟨hx, hp⟩ := hbefore d' hd'
    exact hpass _ hx hp

/-- Claim C17: for every per-set table of size `M = 2 A` (`A` a power of two) with at
least one empty slot, and every tag, `hash_find` returns a slot `r` of the table after
`d + 1 ≤ M` slot inspections, where `r` is slot number `d` of the probe sequence
`(tag mod M + d) mod M`, `r` is empty or holds a line with that tag, and every earlier
slot of the probe sequence holds a line with another tag.  A per-set table stores valid
lines only (`all_valid`), as the data model has it and as `reachable_tab_wf` shows for
every table the code receives. -/
theorem hash_find_returns_first_stop (c : cache) (set : cache_set) (tag a : Nat)
    (hA : c.info.assoc = 2 ^ a) (hM : hashsize c = 2 * c.info.assoc)
    (hlen : set.hashtab.length = hashsize c)
    (hempty : ∃ e, e < hashsize c ∧ set.hashtab.getD e none = none)
    (hvalid : all_valid c set) :
    ∃ r d, d < hashsize c ∧ r < set.hashtab.length ∧
      r = (tag % hashsize c + d) % hashsize c ∧
      (∀ fuel, d + 1 ≤ fuel → hash_find fuel c set tag = .ok r) ∧
      hash_find (hashsize c) c set tag = .ok r ∧
      stops c set tag r ∧
      ∀ d', d' < d → passes c set tag ((tag % hashsize c + d') % hashsize c) := by
  obtain ⟨r, d, hd, hr, hrd, hfind, hstop, hpass⟩ := @wf_find_first c set tag hvalid hempty
  rw [mask_eq_mod hA hM] at hrd hpass
  exact ⟨r, d, hd, by rw [hlen]; exact hr, hrd, hfind, hfind _ (by omega), hstop, hpass⟩

theorem hash_find_returns_first_stop_witness :
    ∃ r d, d < hashsize scenario_cache ∧ r < (scenario_cache.set_at 0).hashtab.length ∧
      r = (5 % hashsize scenario_cache + d) % hashsize scenario_cache ∧
      hash_find (hashsize scenario_cache) scenario_cache (scenario_cache.set_at 0) 5 = .ok r ∧
      stops scenario_cache (scenario_cache.set_at 0) 5 r := by
  obtain ⟨r, d, h1, h2, h3, _, h5, h6, _⟩ :=
    hash_find_returns_first_stop scenario_cache (scenario_cache.set_at 0) 5 1 rfl rfl rfl
      ⟨0, by decide, rfl⟩ (tab_inv_wf scenario_tab_inv).2
  exact ⟨r, d, h1, h2, h3, h5, h6⟩

/-- Claim C18: for every cache built with a valid geometry and the replacement policy LRU,
RND or FIFO, in every state that a sequence of `cache_access` calls reaches, the next
call returns and no assertion fires in it, whatever the address, the mode and the random
number.  In every set of such a state (1) every line the hash table stores is valid, so
`assert(linep->valid)` of `hash_find` holds for every line met while probing; (2) a
lookup of a tag that the table does not store ends at an empty slot, so
`assert(*slot == NULL)` of `hash_add` holds; and (3) every valid line of the set is
stored, and `hash_find` of its tag returns the slot that holds it, so
`assert(*slot == linep)` of `hash_del` holds for a valid victim. -/
theorem assertions_cannot_fire (info : cache_info) (hcfg : config_ok info)
    (hpol : info.flags &&& REPLACE_MASK = LRU ∨ info.flags &&& REPLACE_MASK = RND ∨
      info.flags &&& REPLACE_MASK = FIFO)
    (c : cache) (hr : Reachable info c) (addr rnd : Nat) (w : Bool) (ha : addr < 2 ^ 32) :
    (∀ fuel, cache_access fuel c addr w rnd ≠ .error .assertion) ∧
    (∀ fuel, 2 * info.assoc ≤ fuel → ∃ out, cache_access fuel c addr w rnd = .ok out) ∧
    ∀ i, i < c.nsets →
      (∀ s l, (c.set_at i).hashtab.getD s none = some l →
        (c.line l).valid = true ∧
        ∀ fuel, 2 * info.assoc ≤ fuel →
          hash_find fuel c (c.set_at i) (c.line l).tag = .ok s) ∧
      (∀ tag fuel, 2 * info.assoc ≤ fuel →
        (∀ s l, (c.set_at i).hashtab.getD s none = some l → (c.line l).tag ≠ tag) →
        ∃ r, hash_find fuel c (c.set_at i) tag = .ok r ∧
          (c.set_at i).hashtab.getD r none = none) ∧
      (∀ l, in_set c (c.set_at i) l → (c.line l).valid = true →
        ∃ s, (c.set_at i).hashtab.getD s none = some l) := by
  obtain ⟨hinv, hinfo, hsize⟩ := reachable_inv hcfg hr
  have hp : known_policy c := by
    unfold known_policy
    rw [hinfo]
    exact hpol
  have htotal : ∀ fuel, 2 * info.assoc ≤ fuel → ∃ out, cache_access fuel c addr w rnd = .ok out :=
    fun fuel hf => cache_access_total hinv hp ha w rnd (by rw [hsize]; exact hf)
  refine ⟨?_, htotal, ?_⟩
  · intro fuel hc
    obtain ⟨out, ho⟩ := htotal (2 * info.assoc) (le_refl _)
    have hne : cache_access fuel c addr w rnd ≠ .error .fuel := by
      rw [hc]
      intro h
      cases h
    have h1 := cache_access_stable (Nat.le_max_left fuel (2 * info.assoc)) hne
    have h2 := cache_access_mono (Nat.le_max_right fuel (2 * info.assoc)) ho
    rw [h1, hc] at h2
    cases h2
  · intro i hi
    have hs := hinv.sets i hi
    refine ⟨?_, ?_, ?_⟩
    · intro s l hst
      exact ⟨hs.tab.valid s l hst,
        fun fuel hf => hash_find_stored hs.tab hst (by rw [hsize]; exact hf)⟩
    · intro tag fuel hf habs
      have hf' : hashsize c ≤ fuel := by rw [hsize]; exact hf
      obtain ⟨r, hr, _, hnone, _⟩ := hash_find_absent hs.tab habs hf'
      exact ⟨r, hr, hnone⟩
    · intro l hin hval
      exact hs.present l hin hval

theorem assertions_cannot_fire_witness :
    (∀ fuel, cache_access fuel scenario_cache 0x18 true 0 ≠ .error .assertion) ∧
    ∃ out, cache_access 4 scenario_cache 0x18 true 0 = .ok out :=
  ⟨(assertions_cannot_fire scenario_info (by unfold config_ok; decide) (by decide)
      scenario_cache scenario_cache_reachable 0x18 0 true (by decide)).1,
    (assertions_cannot_fire scenario_info (by unfold config_ok; decide) (by decide)
      scenario_cache scenario_cache_reachable 0x18 0 true (by decide)).2.1 4 (by decide)⟩

/-- Claim C20: in every reachable state no two valid lines of the same set have the same
tag, and so each block base is covered by at most one valid line of the cache: two valid
lines, of whatever sets, whose tags and set indices give the same block base are the
same line. -/
theorem valid_tags_distinct_in_set (info : cache_info) (hcfg : config_ok info) (c : cache)
    (hr : Reachable info c) :
    (∀ i l l', i < c.nsets → in_set c (c.set_at i) l → in_set c (c.set_at i) l' →
      (c.line l).valid = true → (c.line l').valid = true →
      (c.line l).tag = (c.line l').tag → l = l') ∧
    (∀ i i' l l', i < c.nsets → i' < c.nsets →
      in_set c (c.set_at i) l → in_set c (c.set_at i') l' →
      (c.line l).valid = true → (c.line l').valid = true →
      block_base c (c.line l).tag i = block_base c (c.line l').tag i' → l = l') := by
  obtain ⟨hinv, _, _⟩ := reachable_inv hcfg hr
  have huniq : ∀ i l l', i < c.nsets → in_set c (c.set_at i) l → in_set c (c.set_at i) l' →
      (c.line l).valid = true → (c.line l').valid = true →
      (c.line l).tag = (c.line l').tag → l = l' :=
    fun i l l' hi h1 h3 h2 h4 h5 => (hinv.sets i hi).unique h1 h2 h3 h4 h5
  refine ⟨huniq, ?_⟩
  intro i i' l l' hi hi' h1 h3 h2 h4 hbase
  have hf := block_base_fields hinv (hinv.tag_bound l) (by rw [← hinv.nsets_pow]; exact hi)
  have hf' := block_base_fields hinv (hinv.tag_bound l') (by rw [← hinv.nsets_pow]; exact hi')
  have hii : i = i' := by
    rw [← hf.2.1, ← hf'.2.1, hbase]
  have htt : (c.line l).tag = (c.line l').tag := by
    rw [← hf.1, ← hf'.1, hbase]
  subst hii
  exact huniq i l l' hi h1 h3 h2 h4 htt

theorem valid_tags_distinct_in_set_witness :
    (scenario_cache.line 0).valid = true ∧ (scenario_cache.line 1).valid = true ∧
    (scenario_cache.line 0).tag ≠ (scenario_cache.line 1).tag :=
  ⟨rfl, rfl, fun h => absurd
    ((valid_tags_distinct_in_set scenario_info (by unfold config_ok; decide)
      scenario_cache scenario_cache_reachable).1 0 0 1 (by decide)
      (by unfold in_set; decide) (by unfold in_set; decide) rfl rfl h) (by decide)⟩

theorem suffix_inv_step {c : cache} (h : cache_inv c) (hs : suffix_inv c) {addr rnd : Nat}
    {out : access_result} (he : access_effect c addr rnd out) : suffix_inv out.c := by
  intro j hj
  have hj' : j < c.nsets := by rw [← he.geom.2.2.2.2.1]; exact hj
  have hi := addr_index_lt h addr
  rw [he.lists j]
  have hold := hs j hj'
  cases hl : out.linep with
  | none =>
    obtain ⟨hc, _⟩ := he.bypass hl
    unfold list_after
    rw [hc]
    exact hold
  | some v =>
    have hvin := he.mem v hl
    have hvalid := (he.tag v hl).1
    have hothers : ∀ l, l ≠ v → out.c.line l = c.line l := by
      intro l hne
      apply he.others
      rw [hl]
      intro hc
      exact hne (Option.some.inj hc).symm
    unfold list_after
    dsimp only
    split
    · rename_i hcond
      obtain ⟨rfl, _⟩ := hcond
      rw [List.pairwise_cons]
      refine ⟨fun _ _ _ => hvalid, ?_⟩
      have hsub := hold.sublist (List.erase_sublist v _)
      have hnd := (h.sets _ hi).nodup
      refine (List.Pairwise.and_mem.mp hsub).imp ?_
      intro a b hab hb
      obtain ⟨ha_mem, hb_mem, hR⟩ := hab
      have ha' : a ≠ v := ((List.Nodup.mem_erase_iff hnd).mp ha_mem).1
      have hb' : b ≠ v := ((List.Nodup.mem_erase_iff hnd).mp hb_mem).1
      rw [hothers a ha']
      rw [hothers b hb'] at hb
      exact hR hb
    · rename_i hcond
      have hsame : ∀ l, l ∈ (c.set_at j).list → (out.c.line l).valid = (c.line l).valid := by
        intro l hmem
        by_cases hlv : l = v
        · subst hlv
          have hin := ((h.sets j hj').order l).mp hmem
          have hji := in_set_disjoint h hj' hi hin hvin
          have hrc : out.rc = HIT := by
            by_contra hne
            exact hcond ⟨hji, Or.inr hne⟩
          rw [hvalid, (he.hit l hl hrc).1]
        · rw [hothers l hlv]
      refine (List.Pairwise.and_mem.mp hold).imp ?_
      intro a b hab hb
      obtain ⟨ha_mem, hb_mem, hR⟩ := hab
      rw [hsame a ha_mem]
      rw [hsame b hb_mem] at hb
      exact hR hb

theorem suffix_inv_init {info : cache_info} {c : cache} (hcfg : config_ok info)
    (h : cache_init info = .ok c) : suffix_inv c := by
  intro i _
  refine List.pairwise_of_forall ?_
  intro a b hb
  rw [cache_init_lines hcfg h b] at hb
  cases hb

theorem reachable_suffix {info : cache_info} (hcfg : config_ok info) {c : cache}
    (hr : Reachable info c) : suffix_inv c := by
  induction hr with
  | init h => exact suffix_inv_init hcfg h
  | step hr ha ho ih =>
    exact suffix_inv_step (reachable_inv hcfg hr).1 ih
      (cache_access_effect (reachable_inv hcfg hr).1 ha ho)

/-- A list in which no element failing `p` comes before one satisfying it splits into a
prefix that satisfies `p` and a suffix that fails it. -/
theorem pairwise_split (p : Nat → Prop) :
    ∀ (L : List Nat), L.Pairwise (fun a b => p b → p a) →
      ∃ k, k ≤ L.length ∧ (∀ l ∈ L.take k, p l) ∧ (∀ l ∈ L.drop k, ¬ p l) := by
  intro L
  induction L with
  | nil => intro _; exact ⟨0, le_refl _, by simp, by simp⟩
  | cons x xs ih =>
    intro hpw
    rw [List.pairwise_cons] at hpw
    by_cases hx : p x
    · obtain ⟨k, hk, h1, h2⟩ := ih hpw.2
      refine ⟨k + 1, by simpa using hk, ?_, ?_⟩
      · intro l hl
        rw [List.take_succ_cons, List.mem_cons] at hl
        rcases hl with rfl | hl
        · exact hx
        · exact h1 l hl
      · intro l hl
        rw [List.drop_succ_cons] at hl
        exact h2 l hl
    · refine ⟨0, Nat.zero_le _, by simp, ?_⟩
      intro l hl
      rw [List.drop_zero, List.mem_cons] at hl
      rcases hl with rfl | hl
      · exact hx
      · exact fun hc => hx (hpw.1 l hl hc)

/-- A valid victim means a full set: the tail of the order list is valid then, and no
invalid line comes before a valid one. -/
theorem victim_valid_full {c : cache} (h : cache_inv c) (hs : suffix_inv c) {i rnd v : Nat}
    (hi : i < c.nsets) (hv : cache_find_victim c (c.set_at i) rnd = .ok v)
    (hval : (c.line v).valid = true) :
    ∀ l, in_set c (c.set_at i) l → (c.line l).valid = true := by
  have htail : (c.line ((c.set_at i).list.getLastD (c.set_at i).firstline)).valid = true := by
    unfold cache_find_victim at hv
    dsimp only at hv
    split at hv
    · cases hv
      exact hval
    · split at hv
      · split at hv
        · rename_i ht
          exact ht
        · cases hv
          exact hval
      · cases hv
  intro l hin
  have hmem := ((h.sets i hi).order l).mpr hin
  by_cases hne : l = (c.set_at i).list.getLastD (c.set_at i).firstline
  · rw [hne]
    exact htail
  · exact pairwise_getLastD _ _ (hs i hi) (h.sets i hi).nodup l hmem hne htail

/-- A kickout address is stored only on a miss whose victim is dirty. -/
theorem kickout_victim {c : cache} (h : cache_inv c) {addr : Nat} (ha : addr < 2 ^ 32)
    {w : Bool} {rnd fuel : Nat} {out : access_result} {k : Nat}
    (ho : cache_access fuel c addr w rnd = .ok out) (hk : out.kickout = some k) :
    ∃ v, out.linep = some v ∧ out.rc = MISS_KICK ∧ (c.line v).dirty = true ∧
      cache_find_victim c (c.set_at (addr_index c addr)) rnd = .ok v := by
  have ho' := cache_access_mono (Nat.le_max_left fuel (hashsize c)) ho
  rcases cache_access_spec h ha w rnd (Nat.le_max_right fuel (hashsize c)) with
    ⟨l, _, _, heq⟩ | ⟨_, ⟨_, heq⟩ | ⟨_, ⟨_, heq⟩ | ⟨v, T, hvic, _, _, heq⟩⟩⟩
  · rw [heq] at ho'
    have := (cache_touch_ok rfl ho').2.1
    rw [hk] at this
    cases this
  · rw [heq] at ho'
    cases ho'
    cases hk
  · rw [heq] at ho'
    cases ho'
  · rw [heq] at ho'
    have hlp : (refill_result c (addr_index c addr) v (addr_tag c addr) T).linep = some v := rfl
    obtain ⟨hrc, hkick, hlp', _⟩ := cache_touch_ok hlp ho'
    rw [hk] at hkick
    unfold refill_result at hkick hrc
    dsimp only at hkick hrc
    by_cases hd : (c.line v).dirty = true
    · rw [if_pos hd] at hrc
      exact ⟨v, hlp', hrc, hd, hvic⟩
    · rw [if_neg hd] at hkick
      cases hkick

theorem scenario_refill_eq :
    cache_access 4 scenario_cache 0x18 false 0 = .ok scenario_refill := by
  decide!

/-- Claim C19: in every reachable state, under LRU, FIFO or RND with any random choices,
the order list of every set is a prefix of valid lines followed by a suffix of invalid
lines.  Consequently, when an access that misses takes a victim that is valid, every line
of the set is valid; and when an access stores a kickout address (a dirty victim, return
code `MISS_KICK`), every line of the set is valid: dirty kickouts happen in full sets
only. -/
theorem invalid_lines_form_suffix (info : cache_info) (hcfg : config_ok info) (c : cache)
    (hr : Reachable info c) (addr rnd fuel : Nat) (w : Bool) (out : access_result)
    (ha : addr < 2 ^ 32) (ho : cache_access fuel c addr w rnd = .ok out) :
    (∀ i, i < c.nsets → ∃ k, k ≤ (c.set_at i).list.length ∧
      (∀ l ∈ (c.set_at i).list.take k, (c.line l).valid = true) ∧
      (∀ l ∈ (c.set_at i).list.drop k, (c.line l).valid = false)) ∧
    (∀ v, out.rc ≠ HIT → out.linep = some v → (c.line v).valid = true →
      ∀ l, in_set c (c.set_at (addr_index c addr)) l → (c.line l).valid = true) ∧
    (∀ k, out.kickout = some k →
      out.rc = MISS_KICK ∧
      ∀ l, in_set c (c.set_at (addr_index c addr)) l → (c.line l).valid = true) := by
  obtain ⟨hinv, _, _⟩ := reachable_inv hcfg hr
  have hsuf := reachable_suffix hcfg hr
  have hi := addr_index_lt hinv addr
  refine ⟨?_, ?_, ?_⟩
  · intro i hi'
    obtain ⟨k, hk, h1, h2⟩ := pairwise_split (fun l => (c.line l).valid = true)
      (c.set_at i).list (hsuf i hi')
    refine ⟨k, hk, h1, ?_⟩
    intro l hl
    have := h2 l hl
    simpa using this
  · intro v hrc hl hval
    have he := cache_access_effect hinv ha ho
    exact victim_valid_full hinv hsuf hi (he.miss v hl hrc).1 hval
  · intro k hk
    obtain ⟨v, _, hrc, hd, hvic⟩ := kickout_victim hinv ha ho hk
    exact ⟨hrc, victim_valid_full hinv hsuf hi hvic (hinv.dirty_valid v hd)⟩

theorem invalid_lines_form_suffix_witness :
    scenario_refill.kickout = some 0x08 ∧ scenario_refill.rc = MISS_KICK ∧
    (scenario_cache.line 0).valid = true ∧ (scenario_cache.line 1).valid = true :=
  ⟨rfl,
    ((invalid_lines_form_suffix scenario_info (by unfold config_ok; decide) scenario_cache
      scenario_cache_reachable 0x18 0 4 false scenario_refill (by decide)
      scenario_refill_eq).2.2 0x08 rfl).1,
    ((invalid_lines_form_suffix scenario_info (by unfold config_ok; decide) scenario_cache
      scenario_cache_reachable 0x18 0 4 false scenario_refill (by decide)
      scenario_refill_eq).2.2 0x08 rfl).2 0 (by unfold in_set; decide),
    ((invalid_lines_form_suffix scenario_info (by unfold config_ok; decide) scenario_cache
      scenario_cache_reachable 0x18 0 4 false scenario_refill (by decide)
      scenario_refill_eq).2.2 0x08 rfl).2 1 (by unfold in_set; decide)⟩

theorem lru_run_eq : run 4 scenario_init recency_trace = .ok lru_run := by
  decide!

theorem fifo_run_eq : run 4 fifo_init recency_trace = .ok fifo_run := by
  decide!

theorem scenario_set_full {c : cache} (hf : (c.set_at 0).firstline = 0)
    (hA : c.info.assoc = 2) (h0 : (c.line 0).valid = true) (h1 : (c.line 1).valid = true) :
    ∀ l, in_set c (c.set_at 0) l → (c.line l).valid = true := by
  intro l hl
  unfold in_set at hl
  rw [hf, hA] at hl
  have : l = 0 ∨ l = 1 := by omega
  rcases this with rfl | rfl
  · exact h0
  · exact h1

theorem lru_victim_least_recently_used_witness :
    run 4 scenario_init recency_trace = .ok lru_run ∧
    (lru_run.1.line 0).tag = addr_tag lru_run.1 0x08 ∧
    (lru_run.1.line 1).tag = addr_tag lru_run.1 0x00 ∧
    last_time (touches 0) lru_run.2 = 2 ∧ last_time (touches 1) lru_run.2 = 3 ∧
    ∃ out, cache_access 4 lru_run.1 0x10 true 0 = .ok out ∧
      out.linep = some 0 ∧ out.rc ≠ HIT ∧
      last_time (touches 0) lru_run.2 < last_time (touches 1) lru_run.2 ∧
      (out.c.line 0).tag = addr_tag lru_run.1 0x10 := by
  obtain ⟨c, outs, h1, _, h3⟩ := lru_victim_least_recently_used scenario_info
    (by unfold config_ok; decide) (by decide) scenario_init (by rfl)
    recency_trace (by decide) 4 (by decide)
  rw [lru_run_eq] at h1
  have e := Except.ok.inj h1
  obtain ⟨rfl, rfl⟩ : c = lru_run.1 ∧ outs = lru_run.2 := by rw [e]; exact ⟨rfl, rfl⟩
  obtain ⟨out, ho, _, hnew⟩ := h3 0x10 true 0 (by decide)
  obtain ⟨v, hv, hrc, _, _, htag, _, hfull⟩ := hnew (by decide!) (by decide)
  obtain ⟨htail, _, hold⟩ :=
    hfull (scenario_set_full (by decide!) (by decide!) (by decide!) (by decide!))
  have hv0 : v = 0 := htail.trans (by decide!)
  subst hv0
  exact ⟨rfl, by decide!, by decide!, by decide!, by decide!, out, ho, hv, hrc,
    hold 1 (by unfold in_set; decide!) (by decide), htag⟩

theorem fifo_victim_oldest_refill_witness :
    run 4 fifo_init recency_trace = .ok fifo_run ∧
    (fifo_run.1.line 1).tag = addr_tag fifo_run.1 0x00 ∧
    last_time (refills 1) fifo_run.2 = 1 ∧ last_time (refills 0) fifo_run.2 = 2 ∧
    (∃ out, cache_access 4 fifo_run.1 0x10 true 0 = .ok out ∧
      out.linep = some 1 ∧ out.rc ≠ HIT ∧
      last_time (refills 1) fifo_run.2 < last_time (refills 0) fifo_run.2 ∧
      (out.c.line 1).tag = addr_tag fifo_run.1 0x10) ∧
    ∃ out, cache_access 4 fifo_run.1 0x08 false 0 = .ok out ∧ out.rc = HIT ∧
      (∀ j, (out.c.set_at j).list = (fifo_run.1.set_at j).list) ∧
      ∀ l, last_time (refills l) (fifo_run.2 ++ [out]) = last_time (refills l) fifo_run.2 := by
  obtain ⟨c, outs, h1, h3⟩ := fifo_victim_oldest_refill fifo_info
    (by unfold config_ok; decide) (by decide) fifo_init (by rfl)
    recency_trace (by decide) 4 (by decide)
  rw [fifo_run_eq] at h1
  have e := Except.ok.inj h1
  obtain ⟨rfl, rfl⟩ : c = fifo_run.1 ∧ outs = fifo_run.2 := by rw [e]; exact ⟨rfl, rfl⟩
  obtain ⟨out, ho, _, _, hnew, _⟩ := h3 0x10 true 0 (by decide)
  obtain ⟨v, hv, hrc, _, _, htag, _, hfull⟩ := hnew (by decide!) (by decide)
  obtain ⟨htail, _, hold⟩ :=
    hfull (scenario_set_full (by decide!) (by decide!) (by decide!) (by decide!))
  have hv1 : v = 1 := htail.trans (by decide!)
  subst hv1
  obtain ⟨out', ho', _, _, _, hres⟩ := h3 0x08 false 0 (by decide)
  obtain ⟨hhit, _, hlists, htimes⟩ := hres (by decide!)
  exact ⟨rfl, by decide!, by decide!, by decide!,
    ⟨out, ho, hv, hrc, hold 0 (by unfold in_set; decide!) (by decide), htag⟩,
    out', ho', hhit, hlists, htimes⟩

end CacheSim
